import Mathlib

/-!
# Tetris on an entity-component store: the game-state engine of `src/main.cpp`

A shallow embedding of the simulation core of `main.cpp`:

* the data model (`Shape`, `Tile`, `Position`, `Player`, the entity store `Manager`);
* the collision oracle (`Collision.left`, `Collision.right`, `Collision.bottom`) and the
  settling check `Collision.update`;
* the controllers `Movement.update`, `Rotation.update`, `Gravity.update`;
* the line resolver `Cleaner.update`;
* the spawner `Factory.update` with its status `Factory.state`.

Conventions of the embedding.

* A `std::vector<std::vector<bool>>` is a `List (List Bool)`.  Reading `shape[y][x]` is
  `Shape.cell`, which yields `false` outside the matrix; writing is `Shape.setCell`, which
  does nothing outside the matrix.  On square shapes every access of the program that the
  theorems below talk about is inside the matrix, so both agree with the C++ semantics.
* `int` values are unbounded integers.  The one place where an `int` is converted to the
  unsigned `size_t` before a comparison (`Cleaner::update`) is modelled by `sizeT`, the
  reduction modulo `2 ^ 64`.
* The store holds the entities that carry a `Tile` and a `Position`, in creation order, each
  with a flag for the `Movable` marker, and the single `Player` record created by `main`.
* Wall-clock time, the keyboard and the random generator are inputs of the update functions:
  `now` is the current time in milliseconds, an `sf::Clock` is the time of its last restart,
  key states are booleans, random draws are values of `Fin 7`.
-/

namespace Tetris

set_option maxRecDepth 100000

/-! ## Constants and data model -/

/-- `const int MAX_WIDTH = 10`. -/
def MAX_WIDTH : Int := 10

/-- `const int MAX_HEIGHT = 24`. -/
def MAX_HEIGHT : Int := 24

/-- `using Shape = std::vector<std::vector<bool>>`. -/
abbrev Shape := List (List Bool)

/-- Read access `shape[y][x]`. -/
def Shape.cell (s : Shape) (y x : Nat) : Bool := (s.getD y []).getD x false

/-- Write access `shape[y][x] = b`. -/
def Shape.setCell (s : Shape) (y x : Nat) (b : Bool) : Shape :=
  s.set y ((s.getD y []).set x b)

/-- The column count used by the loops, `shape[0].size()`. -/
def Shape.width (s : Shape) : Nat := (s.getD 0 []).length

/-- Row scan `for(x = 0; x < shape[y].size(); x++) if(shape[y][x]) …`: is some cell of
row `y` set? -/
def Shape.rowAny (s : Shape) (y : Nat) : Bool :=
  (List.range (s.getD y []).length).any fun x => s.cell y x

/-- Column scan `for(y = 0; y < shape.size(); y++) if(shape[y][x]) …`: is some cell of
column `x` set? -/
def Shape.colAny (s : Shape) (x : Nat) : Bool :=
  (List.range s.length).any fun y => s.cell y x

/-- The colours handed out by `Factory::color` (values of `sf::Color`). -/
inductive Color where
  | Red | Green | Blue | Yellow | Magenta | Cyan | White
  deriving DecidableEq, Repr

/-- `const std::array<Shape, 7> SHAPES`. -/
def SHAPES : Fin 7 → Shape
  | 0 => [[false, false, false, false],
          [true, true, true, true],
          [false, false, false, false],
          [false, false, false, false]]
  | 1 => [[true, true],
          [true, true]]
  | 2 => [[false, true, false],
          [true, true, true],
          [false, false, false]]
  | 3 => [[true, false, false],
          [true, true, true],
          [false, false, false]]
  | 4 => [[false, false, true],
          [true, true, true],
          [false, false, false]]
  | 5 => [[false, true, true],
          [true, true, false],
          [false, false, false]]
  | 6 => [[true, true, false],
          [false, true, true],
          [false, false, false]]

/-- `struct Tile`. -/
structure Tile where
  shape : Shape
  color : Color
  deriving DecidableEq, Repr

/-- Loop of `Tile::bottom`, entered at row `y`: rows `y, y-1, …, 1` are searched for a set
cell, the first hit is returned, and `0` when there is none. -/
def Tile.bottomFrom (s : Shape) : Nat → Nat
  | 0 => 0
  | y + 1 => if s.rowAny (y + 1) then y + 1 else Tile.bottomFrom s y

/-- `Tile::bottom`. -/
def Tile.bottom (t : Tile) : Nat := Tile.bottomFrom t.shape (t.shape.length - 1)

/-- `Tile::left`: the first column, from the left, holding a set cell, `0` when none. -/
def Tile.left (t : Tile) : Nat :=
  ((List.range t.shape.width).find? fun x => t.shape.colAny x).getD 0

/-- Loop of `Tile::right`, entered at column `x`: columns `x, x-1, …, 1`. -/
def Tile.rightFrom (s : Shape) : Nat → Nat
  | 0 => 0
  | x + 1 => if s.colAny (x + 1) then x + 1 else Tile.rightFrom s x

/-- `Tile::right`. -/
def Tile.right (t : Tile) : Nat := Tile.rightFrom t.shape (t.shape.width - 1)

/-- `struct Position`. -/
structure Position where
  x : Int
  y : Int
  deriving DecidableEq, Repr

/-- `struct Player`. -/
structure Player where
  score : Int
  next : Option Tile
  deriving DecidableEq, Repr

/-- An entity of the store that has a `Tile` and a `Position`; `movable` tells whether it
also has the `Movable` marker (the active piece). -/
structure Entity where
  tile : Tile
  position : Position
  movable : Bool
  deriving DecidableEq, Repr

/-- The part of `CNtity::Helper<Tile, Position, Movable, Player>` the systems use: the tile
entities in creation order and the one `Player`. -/
structure Manager where
  entities : List Entity
  player : Player
  deriving DecidableEq, Repr

/-- `enum class System::State`. -/
inductive State where
  | PLAY | PAUSE | END | CLOSE | NONE
  deriving DecidableEq, Repr

/-! ## Collision -/

/-- The test of the inner lambda of `Collision::left/right/bottom` against one other tile:
`i >= 0 && i < other->shape[0].size() && j >= 0 && j < other->shape.size() &&
other->shape[j][i]`. -/
def Collision.hit (other : Entity) (i j : Int) : Bool :=
  decide (0 ≤ i) && decide (i < (other.tile.shape.width : Int)) && decide (0 ≤ j)
    && decide (j < (other.tile.shape.length : Int)) && other.tile.shape.cell j.toNat i.toNat

/-- `Collision::left`. -/
def Collision.left (helper : Manager) (position : Position) (tile : Tile) (next : Bool) :
    Bool :=
  let collision :=
    (List.range tile.shape.length).any fun y =>
      (List.range tile.shape.width).any fun x =>
        tile.shape.cell y x && helper.entities.any fun other =>
          !other.movable &&
            Collision.hit other
              (position.x + x - other.position.x - (if next then 1 else 0))
              (position.y + y - other.position.y)
  if collision then false
  else decide (position.x + tile.left > (if next then 0 else -1))

/-- `Collision::right`. -/
def Collision.right (helper : Manager) (position : Position) (tile : Tile) (next : Bool) :
    Bool :=
  let collision :=
    (List.range tile.shape.length).reverse.any fun y =>
      (List.range tile.shape.width).any fun x =>
        tile.shape.cell y x && helper.entities.any fun other =>
          !other.movable &&
            Collision.hit other
              (position.x + x - other.position.x + (if next then 1 else 0))
              (position.y + y - other.position.y)
  if collision then false
  else decide (position.x + tile.right + (if next then 1 else 0) < MAX_WIDTH)

/-- `Collision::bottom`. -/
def Collision.bottom (helper : Manager) (position : Position) (tile : Tile) (next : Bool) :
    Bool :=
  let collision :=
    (List.range tile.shape.width).any fun x =>
      (List.range tile.shape.length).reverse.any fun y =>
        tile.shape.cell y x && helper.entities.any fun other =>
          !other.movable &&
            Collision.hit other
              (position.x + x - other.position.x)
              (position.y + y - other.position.y + (if next then 1 else 0))
  if collision then false
  else decide (position.y + tile.bottom + (if next then 1 else 0) < MAX_HEIGHT)

/-- Body of the lambda of `Collision::update` at the entity stored at index `k`: a movable
entity that cannot move down loses the `Movable` marker. -/
def Collision.updateAt (helper : Manager) (k : Nat) : Manager :=
  match helper.entities[k]? with
  | some e =>
    if e.movable && !Collision.bottom helper e.position e.tile true then
      { helper with entities := helper.entities.set k { e with movable := false } }
    else helper
  | none => helper

/-- `Collision::update`: the entities are visited in order, each visit sees the store as
the earlier visits left it. -/
def Collision.update (helper : Manager) : Manager :=
  (List.range helper.entities.length).foldl Collision.updateAt helper

/-! ## Movement -/

/-- State of the `Movement` system: `m_clock` is the time of the last restart of its
`sf::Clock`, `m_interval` the constant 200. -/
structure Movement where
  m_clock : Int
  m_interval : Int
  deriving DecidableEq, Repr

/-- Body of the lambda of the `Left` branch of `Movement::update` at index `k`. -/
def Movement.leftAt (now : Int) (st : Manager × Movement) (k : Nat) : Manager × Movement :=
  match st.1.entities[k]? with
  | some e =>
    if e.movable && Collision.left st.1 e.position e.tile true then
      ({ st.1 with entities :=
          st.1.entities.set k { e with position := { e.position with x := e.position.x - 1 } } },
       { st.2 with m_clock := now })
    else st
  | none => st

/-- Body of the lambda of the `Right` branch of `Movement::update` at index `k`. -/
def Movement.rightAt (now : Int) (st : Manager × Movement) (k : Nat) : Manager × Movement :=
  match st.1.entities[k]? with
  | some e =>
    if e.movable && Collision.right st.1 e.position e.tile true then
      ({ st.1 with entities :=
          st.1.entities.set k { e with position := { e.position with x := e.position.x + 1 } } },
       { st.2 with m_clock := now })
    else st
  | none => st

/-- `Movement::update` at time `now`, with the states of the `Left` and `Right` keys. -/
def Movement.update (helper : Manager) (self : Movement) (now : Int) (leftKey rightKey : Bool) :
    Manager × Movement :=
  if now - self.m_clock > self.m_interval then
    if leftKey then
      (List.range helper.entities.length).foldl (Movement.leftAt now) (helper, self)
    else if rightKey then
      (List.range helper.entities.length).foldl (Movement.rightAt now) (helper, self)
    else (helper, self)
  else (helper, self)

/-! ## Rotation -/

/-- State of the `Rotation` system (`m_interval` is the constant 500). -/
structure Rotation where
  m_clock : Int
  m_interval : Int
  deriving DecidableEq, Repr

/-- The shape built by the double loop of `Rotation::update`:
`shape[i][j] = tile->shape[tile->shape.size() - 1 - j][i]` for every `i < shape.size()` and
`j < shape[i].size()`. -/
def Rotation.rotated (s : Shape) : Shape :=
  (List.range s.length).map fun i =>
    (List.range (s.getD i []).length).map fun j => s.cell (s.length - 1 - j) i

/-- Body of the lambda of `Rotation::update` at index `k`. -/
def Rotation.updateAt (helper : Manager) (k : Nat) : Manager :=
  match helper.entities[k]? with
  | some e =>
    if e.movable then
      let shape := Rotation.rotated e.tile.shape
      let tmp : Tile := { shape := shape, color := e.tile.color }
      if Collision.bottom helper e.position tmp false
          && Collision.right helper e.position tmp false
          && Collision.left helper e.position tmp false then
        { helper with entities :=
            helper.entities.set k { e with tile := { e.tile with shape := shape } } }
      else helper
    else helper
  | none => helper

/-- `Rotation::update` at time `now`, with the state of the `Space` key. -/
def Rotation.update (helper : Manager) (self : Rotation) (now : Int) (space : Bool) :
    Manager × Rotation :=
  if space && decide (now - self.m_clock > self.m_interval) then
    ((List.range helper.entities.length).foldl Rotation.updateAt helper,
     { self with m_clock := now })
  else (helper, self)

/-! ## Gravity -/

/-- State of the `Gravity` system. -/
structure Gravity where
  m_clock : Int
  m_interval : Int
  deriving DecidableEq, Repr

/-- The lambda of `Gravity::update`, applied to every entity with `Position` and `Movable`:
`(position->y)++`. -/
def Gravity.fall (e : Entity) : Entity :=
  if e.movable then { e with position := { e.position with y := e.position.y + 1 } } else e

/-- `Gravity::update` at time `now`, with the state of the `Down` key. -/
def Gravity.update (helper : Manager) (self : Gravity) (now : Int) (down : Bool) :
    Manager × Gravity :=
  let interval : Int := if down then 100 else 1000
  if now - self.m_clock > self.m_interval then
    ({ helper with entities := helper.entities.map Gravity.fall },
     { m_clock := now, m_interval := interval })
  else (helper, { self with m_interval := interval })

/-! ## Cleaner -/

/-- Conversion of an `int` to the 64-bit unsigned `size_t`. -/
def sizeT (v : Int) : Nat := (v % 2 ^ 64).toNat

/-- The guard of the collecting lambda of `Cleaner::update`:
`has<Movable>(entity) || line - position->y >= tile->shape.size()`, the difference being
converted to `size_t` for the comparison. -/
def Cleaner.skips (e : Entity) (line : Int) : Bool :=
  e.movable || decide (sizeT (line - e.position.y) ≥ e.tile.shape.length)

/-- The columns `x` of one entity whose iterator `shape[line - position->y].begin() + x` is
pushed to `tiles`. -/
def Cleaner.collect (e : Entity) (line : Int) : List Nat :=
  if Cleaner.skips e line then []
  else (List.range e.tile.shape.width).filter fun x =>
    e.tile.shape.cell (sizeT (line - e.position.y)) x

/-- `tiles.size()` after the collecting loop. -/
def Cleaner.count (helper : Manager) (line : Int) : Nat :=
  (helper.entities.map fun e => (Cleaner.collect e line).length).sum

/-- `for(auto tile : tiles) *tile = false`, restricted to the iterators into one entity. -/
def Cleaner.erase (e : Entity) (line : Int) : Entity :=
  let erased : Shape :=
    (Cleaner.collect e line).foldl
      (fun s x => s.setCell (sizeT (line - e.position.y)) x false) e.tile.shape
  { e with tile := { e.tile with shape := erased } }

/-- The emptiness test of the sweeping lambda: no cell of the shape is set. -/
def Shape.empty (s : Shape) : Bool :=
  !(List.range s.length).any fun y => s.rowAny y

/-- Inner loop of the straddle branch on row `y`: every set cell `(y, x)` is cleared and
`(y + 1, x)` is set. -/
def Cleaner.pushRow (s : Shape) (y : Nat) : Shape :=
  (List.range (s.getD y []).length).foldl
    (fun s x => if s.cell y x then (s.setCell y x false).setCell (y + 1) x true else s) s

/-- The straddle branch: `for(y = 0; y < line - position->y && y < shape.size(); ++y)` over
`Cleaner.pushRow`, with `k = line - position->y`. -/
def Cleaner.pushRows (s : Shape) (k : Int) : Shape :=
  (List.range (min k.toNat s.length)).foldl Cleaner.pushRow s

/-- The sweeping lambda of `Cleaner::update` on one entity after row `line` was erased:
`none` when the entity loses its `Tile`. -/
def Cleaner.sweep (e : Entity) (line : Int) : Option Entity :=
  if e.movable then some e
  else if e.tile.shape.empty then none
  else if e.position.y ≤ line then
    if e.position.y + e.tile.bottom ≤ line then
      some { e with position := { e.position with y := e.position.y + 1 } }
    else
      let pushed : Shape := Cleaner.pushRows e.tile.shape (line - e.position.y)
      some { e with tile := { e.tile with shape := pushed } }
  else some e

/-- One iteration of the outer loop of `Cleaner::update`. -/
def Cleaner.line (helper : Manager) (line : Int) : Manager :=
  if (Cleaner.count helper line : Int) < MAX_WIDTH then helper
  else
    { entities := (helper.entities.map fun e => Cleaner.erase e line).filterMap
        fun e => Cleaner.sweep e line
      player := { helper.player with
        score := helper.player.score + (Cleaner.count helper line : Int) } }

/-- The store after the outer loop of `Cleaner::update` has handled the rows `0 … n-1`. -/
def Cleaner.scan (helper : Manager) (n : Nat) : Manager :=
  (List.range n).foldl (fun h (line : Nat) => Cleaner.line h line) helper

/-- `Cleaner::update`: rows `0 … MAX_HEIGHT-1` in ascending order. -/
def Cleaner.update (helper : Manager) : Manager := Cleaner.scan helper MAX_HEIGHT.toNat

/-! ## Factory -/

/-- State of the `Factory` system: the flag `m_end` (the generator is an input). -/
structure Factory where
  m_end : Bool
  deriving DecidableEq, Repr

/-- The constructor of `Factory` sets `m_end(false)`. -/
def Factory.init : Factory := { m_end := false }

/-- `Factory::color`. -/
def Factory.color (index : Int) : Color :=
  match index with
  | 0 => Color.Red
  | 1 => Color.Green
  | 2 => Color.Blue
  | 3 => Color.Yellow
  | 4 => Color.Magenta
  | 5 => Color.Cyan
  | 6 => Color.White
  | _ => Color.White

/-- `Factory::state`. -/
def Factory.state (self : Factory) : State :=
  if self.m_end then State.END else State.NONE

/-- `helper.acquire<Movable>().empty()`. -/
def Manager.noMovable (helper : Manager) : Bool := !helper.entities.any fun e => e.movable

/-- `Factory::update`; `index1` and `index2` are the two draws `m_distrib(m_gen)`. -/
def Factory.update (helper : Manager) (self : Factory) (index1 index2 : Fin 7) :
    Manager × Factory :=
  if helper.noMovable then
    let next := helper.player.next
    let player : Player :=
      { helper.player with next := some { shape := SHAPES index1, color := Factory.color index1 } }
    let tile : Entity :=
      { tile := match next with
          | some t => t
          | none => { shape := SHAPES index2, color := Factory.color index2 }
        position := { x := MAX_WIDTH / 2, y := 0 }
        movable := true }
    let created : Manager := { entities := helper.entities ++ [tile], player := player }
    if !Collision.bottom created tile.position tile.tile true then
      (created, { self with m_end := true })
    else (created, self)
  else (helper, self)

/-! ## The loop of `main` -/

/-- The store created by `main` together with the states of its systems and the local
variable `pause`. -/
structure Game where
  helper : Manager
  gravity : Gravity
  movement : Movement
  rotation : Rotation
  factory : Factory
  pause : Bool
  deriving DecidableEq, Repr

/-- What one iteration of the loop of `main` reads from outside: the clock and key read by
each controller, the two random draws of the factory, and the value of `Render::state()`. -/
structure Input where
  tGravity : Int
  down : Bool
  tMovement : Int
  leftKey : Bool
  rightKey : Bool
  tRotation : Int
  space : Bool
  index1 : Fin 7
  index2 : Fin 7
  render : State
  deriving DecidableEq, Repr

/-- The state when the loop of `main` is entered: a store holding one `Player` and no tile,
every clock just started (time `0`), `pause = false`. -/
def Game.init : Game :=
  { helper := { entities := [], player := { score := 0, next := none } }
    gravity := { m_clock := 0, m_interval := 1000 }
    movement := { m_clock := 0, m_interval := 200 }
    rotation := { m_clock := 0, m_interval := 500 }
    factory := Factory.init
    pause := false }

/-- The systems `Collision`, `Gravity`, `Movement`, `Rotation`, `Cleaner` of one iteration.
Their `state()` is `NONE`, so each of them is updated exactly when `pause` is false. -/
def Game.controllers (g : Game) (i : Input) : Game :=
  if g.pause then g
  else
    let h0 := Collision.update g.helper
    let r1 := Gravity.update h0 g.gravity i.tGravity i.down
    let r2 := Movement.update r1.1 g.movement i.tMovement i.leftKey i.rightKey
    let r3 := Rotation.update r2.1 g.rotation i.tRotation i.space
    { g with helper := Cleaner.update r3.1, gravity := r1.2, movement := r2.2,
             rotation := r3.2 }

/-- The `Factory` within one iteration: its state `END` sets `pause` and skips the update,
its state `NONE` lets the update run when `pause` is false. -/
def Game.spawner (g : Game) (i : Input) : Game :=
  if g.factory.state = State.END then { g with pause := true }
  else if g.pause then g
  else
    let r := Factory.update g.helper g.factory i.index1 i.index2
    { g with helper := r.1, factory := r.2 }

/-- The `Render` system within one iteration, as far as the game state goes: its state sets
or clears `pause` (its update draws and changes nothing in the store). -/
def Game.render (g : Game) (i : Input) : Game :=
  match i.render with
  | State.PLAY => { g with pause := false }
  | State.PAUSE => { g with pause := true }
  | State.END => { g with pause := true }
  | _ => g

/-- One iteration of the `while(true)` loop of `main`. -/
def Game.tick (g : Game) (i : Input) : Game :=
  Game.render (Game.spawner (Game.controllers g i) i) i

/-- The iterations of the loop on a sequence of inputs. -/
def Game.run (g : Game) (inputs : List Input) : Game := inputs.foldl Game.tick g

/-- The states of the loop of `main`: those obtained from `Game.init` by iterations. -/
def Game.Reachable (g : Game) : Prop := ∃ inputs : List Input, Game.run Game.init inputs = g


/-! ## Vocabulary of the statements -/

/-- The set cells of a shape, as pairs (column `x`, row `y`). -/
def Shape.cells (s : Shape) : List (Nat × Nat) :=
  (List.range s.length).flatMap fun y =>
    ((List.range (s.getD y []).length).filter fun x => s.cell y x).map fun x => (x, y)

/-- A shape is square: `N` rows of `N` cells. -/
def Shape.Square (s : Shape) : Prop := ∀ row ∈ s, row.length = s.length

instance (s : Shape) : Decidable s.Square := by
  unfold Shape.Square; infer_instance

/-- The board cells (absolute column, absolute row) an entity occupies. -/
def Entity.cells (e : Entity) : List (Int × Int) :=
  e.tile.shape.cells.map fun c => (e.position.x + c.1, e.position.y + c.2)

/-- The static pieces: the entities without the `Movable` marker. -/
def Manager.statics (helper : Manager) : List Entity :=
  helper.entities.filter fun e => !e.movable

/-- The static occupancy grid: is board cell `(x, y)` occupied by a static piece? -/
def Manager.grid (helper : Manager) (x y : Int) : Bool :=
  helper.statics.any fun e => decide ((x, y) ∈ e.cells)

/-- Every static piece has a square shape. -/
def Manager.StaticsSquare (helper : Manager) : Prop :=
  ∀ e ∈ helper.statics, e.tile.shape.Square

instance (helper : Manager) : Decidable helper.StaticsSquare := by
  unfold Manager.StaticsSquare; infer_instance

/-- The `n × n` shape with cell `(y, x)` equal to `f y x`. -/
def Shape.tabulate (n : Nat) (f : Nat → Nat → Bool) : Shape :=
  (List.range n).map fun y => (List.range n).map fun x => f y x

/-- Four successive applications of the rotation of `Rotation::update`. -/
def Rotation.rotated4 (s : Shape) : Shape :=
  Rotation.rotated (Rotation.rotated (Rotation.rotated (Rotation.rotated s)))

/-- Only the entity at index `i` may carry the `Movable` marker. -/
def Manager.OnlyAt (helper : Manager) (i : Nat) : Prop :=
  ∀ k e, helper.entities[k]? = some e → k ≠ i → e.movable = false


/-- Successive calls of `Factory::update`, each on the store it finds and with its two
draws; the stores are inputs, the state of the factory is threaded through. -/
def Factory.run (self : Factory) (calls : List (Manager × Fin 7 × Fin 7)) : Factory :=
  calls.foldl (fun f c => (Factory.update c.1 f c.2.1 c.2.2).2) self

/-- The piece a call of `Factory::update` creates, if it creates one: the entity appended
to the store. -/
def Factory.spawned (helper : Manager) (index1 index2 : Fin 7) : Option Entity :=
  if helper.noMovable then
    (Factory.update helper Factory.init index1 index2).1.entities.getLast?
  else none


/-- The piece with the rotated shape, at the unchanged position. -/
def Entity.turned (e : Entity) : Entity :=
  Entity.mk ⟨Rotation.rotated e.tile.shape, e.tile.color⟩ e.position e.movable


/-- Static pieces do not overlap: no two of them have a set cell on the same board cell. -/
def Manager.NonOverlapping (helper : Manager) : Prop :=
  helper.statics.Pairwise fun a b => ∀ c ∈ a.cells, c ∉ b.cells

instance (helper : Manager) : Decidable helper.NonOverlapping := by
  unfold Manager.NonOverlapping; infer_instance

/-- Every cell of a static piece lies in a column of `[0, MAX_WIDTH)`. -/
def Manager.StaticsInColumns (helper : Manager) : Prop :=
  ∀ e ∈ helper.statics, ∀ c ∈ e.cells, 0 ≤ c.1 ∧ c.1 < MAX_WIDTH

instance (helper : Manager) : Decidable helper.StaticsInColumns := by
  unfold Manager.StaticsInColumns; infer_instance

/-- Every cell of every piece, active or static, lies on the board. -/
def Manager.InBoard (helper : Manager) : Prop :=
  ∀ e ∈ helper.entities, ∀ c ∈ e.cells,
    0 ≤ c.1 ∧ c.1 < MAX_WIDTH ∧ 0 ≤ c.2 ∧ c.2 < MAX_HEIGHT

instance (helper : Manager) : Decidable helper.InBoard := by
  unfold Manager.InBoard; infer_instance

/-- The number of set cells of static pieces on the absolute row `r`. -/
def Manager.rowCount (helper : Manager) (r : Int) : Nat :=
  ((helper.statics.flatMap Entity.cells).filter fun c => decide (c.2 = r)).length

/-- The values a piece can hold in C++: a square shape whose size fits an `int`, and a `y`
in the range of a 32-bit `int`. -/
def Entity.WellFormed (e : Entity) : Prop :=
  e.tile.shape.Square ∧ (e.tile.shape.length : Int) < 2 ^ 31 ∧
    -(2 ^ 31) ≤ e.position.y ∧ e.position.y < 2 ^ 31

instance (e : Entity) : Decidable e.WellFormed := by
  unfold Entity.WellFormed; infer_instance

/-- Every static piece is well formed. -/
def Manager.StaticsWellFormed (helper : Manager) : Prop :=
  ∀ e ∈ helper.statics, e.WellFormed

instance (helper : Manager) : Decidable helper.StaticsWellFormed := by
  unfold Manager.StaticsWellFormed; infer_instance

/-- The rows among `0 … n-1` at which the pass of `Cleaner::update` takes the clearing
branch (`tiles.size() >= MAX_WIDTH` in the store as the earlier rows left it). -/
def Cleaner.clears (helper : Manager) (n : Nat) : List Nat :=
  (List.range n).filter fun line =>
    decide (MAX_WIDTH ≤ (Cleaner.count (Cleaner.scan helper line) line : Int))


/-- The active pieces: the entities with the `Movable` marker. -/
def Manager.actives (helper : Manager) : List Entity :=
  helper.entities.filter fun e => e.movable


/-- The index pair `(row, column)` is inside the matrix `s`. -/
def Shape.InBounds (s : Shape) (p : Nat × Nat) : Prop :=
  p.1 < s.length ∧ p.2 < (s.getD p.1 []).length

instance (s : Shape) (p : Nat × Nat) : Decidable (s.InBounds p) := by
  unfold Shape.InBounds; infer_instance

/-- The index pairs of the accesses `tile->shape[line - position->y][x]` that the collecting
lambda of `Cleaner::update` makes on one entity (the row index is the `int` difference
converted to `size_t`). -/
def Cleaner.collectReads (e : Entity) (line : Int) : List (Nat × Nat) :=
  if Cleaner.skips e line then []
  else (List.range e.tile.shape.width).map fun x => (sizeT (line - e.position.y), x)

/-- The index pairs `(y + 1, x)` of the writes `tile->shape[y + 1][x] = true` that the
straddle loop can make: all `y < line - position->y`, `y < shape.size()` and
`x < shape[y].size()` (the write happens when `shape[y][x]` is set). -/
def Cleaner.pushWrites (s : Shape) (k : Int) : List (Nat × Nat) :=
  (List.range (min k.toNat s.length)).flatMap fun y =>
    (List.range (s.getD y []).length).map fun x => (y + 1, x)

/-- The index pairs the sweeping lambda can write at row `y + 1`: those of the straddle
loop when the entity reaches that branch, none otherwise. -/
def Cleaner.sweepWrites (e : Entity) (line : Int) : List (Nat × Nat) :=
  if e.movable then []
  else if e.tile.shape.empty then []
  else if e.position.y ≤ line then
    if e.position.y + e.tile.bottom ≤ line then []
    else Cleaner.pushWrites e.tile.shape (line - e.position.y)
  else []


/-- A piece as the loop of `main` holds it: well formed, with `y ≥ 0` and every cell on the
board. -/
def Entity.Sound (e : Entity) : Prop :=
  e.WellFormed ∧ 0 ≤ e.position.y ∧
    ∀ c ∈ e.cells, 0 ≤ c.1 ∧ c.1 < MAX_WIDTH ∧ 0 ≤ c.2 ∧ c.2 < MAX_HEIGHT

instance (e : Entity) : Decidable e.Sound := by
  unfold Entity.Sound; infer_instance

/-- A store as the loop of `main` holds it: every piece is sound and the preview, when
there is one, is a shape of the catalog. -/
def Manager.Sound (helper : Manager) : Prop :=
  (∀ e ∈ helper.entities, e.Sound) ∧
    ∀ t, helper.player.next = some t → ∃ k : Fin 7, t.shape = SHAPES k


/-- No cell of the shape hangs over a gap: whenever the shape has a set cell in a row `b`
and a set cell `(p, c)` at least two rows higher, the column `c` is set in every row from
`p` down to `b - 2`.  The shapes of the catalog, their rotations, and what the cleaner
leaves of them are of this kind. -/
def Shape.NoGap (s : Shape) : Prop :=
  ∀ b ∈ List.range s.length, ∀ p ∈ List.range s.length, ∀ q ∈ List.range s.length,
    ∀ c ∈ List.range s.length, ∀ d ∈ List.range s.length,
      p ≤ q → q + 2 ≤ b → s.cell p c = true → s.cell b d = true → s.cell q c = true

instance (s : Shape) : Decidable s.NoGap := by
  unfold Shape.NoGap; infer_instance

/-- A static piece as a pass of the cleaner meets it: well formed, of a shape without gap,
and with no cell above the board (every row is `≥ 0`). -/
def Entity.Settled (e : Entity) : Prop :=
  e.WellFormed ∧ e.tile.shape.NoGap ∧ ∀ c ∈ e.cells, 0 ≤ c.2

instance (e : Entity) : Decidable e.Settled := by
  unfold Entity.Settled; infer_instance

/-- Every static piece is settled. -/
def Manager.StaticsSettled (helper : Manager) : Prop :=
  ∀ e ∈ helper.statics, e.Settled

instance (helper : Manager) : Decidable helper.StaticsSettled := by
  unfold Manager.StaticsSettled; infer_instance


/-- The shapes an active piece can have: a shape of the catalog rotated zero to three
times. -/
def Shape.Catalog (s : Shape) : Prop :=
  ∃ k : Fin 7, s = SHAPES k ∨ s = Rotation.rotated (SHAPES k) ∨
    s = Rotation.rotated (Rotation.rotated (SHAPES k)) ∨
    s = Rotation.rotated (Rotation.rotated (Rotation.rotated (SHAPES k)))

/-- Every active piece has a shape of the catalog, possibly rotated, and no piece has a
shape with a gap. -/
def Manager.Catalog (helper : Manager) : Prop :=
  ∀ e ∈ helper.entities, (e.movable = true → e.tile.shape.Catalog) ∧ e.tile.shape.NoGap


/-! ## Example stores -/

/-- A static entity. -/
def Entity.static (s : Shape) (c : Color) (x y : Int) : Entity :=
  { tile := { shape := s, color := c }, position := { x := x, y := y }, movable := false }

/-- An active entity. -/
def Entity.active (s : Shape) (c : Color) (x y : Int) : Entity :=
  { tile := { shape := s, color := c }, position := { x := x, y := y }, movable := true }

/-- The long piece standing upright (the catalog shape 0 rotated once): column 2 of a
4×4 shape. -/
def uprightLong : Shape := Rotation.rotated (SHAPES 0)

/-- A board whose row 22 is full: two upright long pieces in columns 0 and 9 over rows
20 … 23 and two flat long pieces filling columns 1 … 8 of row 22. -/
def boardStraddle : Manager :=
  { entities := [Entity.static uprightLong Color.Red (-2) 20,
                 Entity.static (SHAPES 0) Color.Red 1 21,
                 Entity.static (SHAPES 0) Color.Red 5 21,
                 Entity.static uprightLong Color.Red 7 20]
    player := { score := 0, next := none } }

/-- A store with one active square piece in columns 5, 6 and rows 22, 23: the piece stands
on the floor. -/
def boardFloor : Manager :=
  { entities := [Entity.active (SHAPES 1) Color.Green 5 22]
    player := { score := 0, next := none } }


/-- An active square piece in columns 0, 1 and rows 10, 11, clear of the pieces of
`boardStraddle`. -/
def pieceFree : Entity := Entity.active (SHAPES 1) Color.Green 0 10


/-- A store with a static square piece in columns 5, 6 and rows 2, 3, right below the
place where new pieces appear, and no active piece. -/
def boardTop : Manager :=
  { entities := [Entity.static (SHAPES 1) Color.Green 5 2]
    player := { score := 0, next := none } }


/-- An active tee piece, rotated once, at `x = -1`: its cells are in columns 0 and 1, flush
against the left wall, and the next rotation would put a cell in column -1. -/
def pieceTee : Entity := Entity.active (Rotation.rotated (SHAPES 2)) Color.Blue (-1) 10


/-- The inputs of an iteration at time `t` with no key pressed but possibly `Space`, the
window open and not paused, and both random draws equal to 0 (the long piece). -/
def Input.play (t : Int) (space : Bool) : Input :=
  { tGravity := t, down := false, tMovement := t, leftKey := false, rightKey := false,
    tRotation := t, space := space, index1 := 0, index2 := 0, render := State.PLAY }

/-- Sixty-nine iterations, two seconds apart except the 67th, which comes 0.6 s after the
66th.  `Space` is pressed in the iteration after the appearance of each of the first six
long pieces, which stands them upright in column 7.  Five of them fall and pile up over the
rows 4 … 23; the sixth is stood upright in the rows 0 … 3 before gravity acts and settles
there; the seventh appears flat in row 1, columns 5 … 8. -/
def overlapTrace : List Input :=
  (List.range 69).map fun n =>
    Input.play (if n + 1 = 67 then 132600 else 2000 * (n + 1))
      (decide (n + 1 ∈ [2, 23, 40, 53, 62, 67]))


/-- What is left of an upright long piece when only its top and bottom cells remain: the
cells of rows 0 and 3 of column 2 of a 4×4 shape. -/
def longEnds : Shape :=
  [[false, false, true, false],
   [false, false, false, false],
   [false, false, false, false],
   [false, false, true, false]]

/-- A board whose row 22 is full and whose row 21 lacks only the cell of column 0: the
piece `longEnds` holds the cells `(0, 20)` and `(0, 23)`; two flat long pieces and an
upright long piece hold the columns 1 … 9 of row 21; two flat long pieces and a square
piece hold row 22. -/
def boardHole : Manager :=
  { entities := [Entity.static longEnds Color.Red (-2) 20,
                 Entity.static (SHAPES 0) Color.Red 1 20,
                 Entity.static (SHAPES 0) Color.Red 5 20,
                 Entity.static uprightLong Color.Red 7 18,
                 Entity.static (SHAPES 0) Color.Red 0 21,
                 Entity.static (SHAPES 0) Color.Red 4 21,
                 Entity.static (SHAPES 1) Color.Green 8 22]
    player := { score := 0, next := none } }


/-! ## Basic facts about shapes -/

theorem Shape.cell_bounds {s : Shape} {y x : Nat} (h : s.cell y x = true) :
    y < s.length ∧ x < (s.getD y []).length := by
  unfold Shape.cell at h
  simp only [List.getD_eq_getElem?_getD] at h ⊢
  rcases hy : s[y]? with _ | row
  · simp [hy] at h
  · rw [hy] at h
    simp only [Option.getD_some] at h ⊢
    rcases hx : row[x]? with _ | b
    · simp [hx] at h
    · exact ⟨(List.getElem?_eq_some.1 hy).1, (List.getElem?_eq_some.1 hx).1⟩

theorem Shape.mem_cells {s : Shape} {x y : Nat} : (x, y) ∈ s.cells ↔ s.cell y x = true := by
  unfold Shape.cells
  simp only [List.mem_flatMap, List.mem_range, List.mem_map, List.mem_filter, Prod.mk.injEq]
  constructor
  · rintro ⟨y', _, x', ⟨_, hc⟩, rfl, rfl⟩
    exact hc
  · intro h
    obtain ⟨hy, hx⟩ := Shape.cell_bounds h
    exact ⟨y, hy, x, ⟨hx, h⟩, rfl, rfl⟩

theorem Shape.Square.row_length {s : Shape} (hs : s.Square) {y : Nat} (hy : y < s.length) :
    (s.getD y []).length = s.length := by
  rw [List.getD_eq_getElem?_getD, List.getElem?_eq_getElem hy]
  exact hs _ (List.getElem_mem hy)

theorem Shape.Square.width_eq {s : Shape} (hs : s.Square) (hn : 0 < s.length) :
    s.width = s.length := hs.row_length hn

theorem Shape.Square.cell_lt {s : Shape} (hs : s.Square) {y x : Nat} (h : s.cell y x = true) :
    y < s.length ∧ x < s.length := by
  obtain ⟨hy, hx⟩ := Shape.cell_bounds h
  exact ⟨hy, by rwa [hs.row_length hy] at hx⟩

theorem Shape.rowAny_iff {s : Shape} {y : Nat} :
    s.rowAny y = true ↔ ∃ x, s.cell y x = true := by
  unfold Shape.rowAny
  simp only [List.any_eq_true, List.mem_range]
  constructor
  · rintro ⟨x, _, h⟩
    exact ⟨x, h⟩
  · rintro ⟨x, h⟩
    exact ⟨x, (Shape.cell_bounds h).2, h⟩

theorem Shape.colAny_iff {s : Shape} {x : Nat} :
    s.colAny x = true ↔ ∃ y, s.cell y x = true := by
  unfold Shape.colAny
  simp only [List.any_eq_true, List.mem_range]
  constructor
  · rintro ⟨y, _, h⟩
    exact ⟨y, h⟩
  · rintro ⟨y, h⟩
    exact ⟨y, (Shape.cell_bounds h).1, h⟩

/-! ## The extents `Tile::bottom`, `Tile::left`, `Tile::right` -/

theorem Tile.bottomFrom_le (s : Shape) (n : Nat) : Tile.bottomFrom s n ≤ n := by
  induction n with
  | zero => simp [Tile.bottomFrom]
  | succ n ih =>
    unfold Tile.bottomFrom
    split
    · exact le_rfl
    · omega

theorem Tile.bottomFrom_above (s : Shape) (n y : Nat) (h1 : Tile.bottomFrom s n < y)
    (h2 : y ≤ n) : s.rowAny y = false := by
  induction n with
  | zero => simp [Tile.bottomFrom] at h1; omega
  | succ n ih =>
    unfold Tile.bottomFrom at h1
    split at h1
    · omega
    · rename_i hrow
      rcases Nat.lt_or_ge n y with hlt | hge
      · have : y = n + 1 := by omega
        subst this
        simpa using hrow
      · exact ih h1 hge

theorem Tile.bottomFrom_hit (s : Shape) (n : Nat) :
    Tile.bottomFrom s n = 0 ∨ s.rowAny (Tile.bottomFrom s n) = true := by
  induction n with
  | zero => left; rfl
  | succ n ih =>
    unfold Tile.bottomFrom
    split
    · right; assumption
    · exact ih

theorem Tile.bottom_max (t : Tile) {x y : Nat} (h : t.shape.cell y x = true) :
    y ≤ t.bottom := by
  by_contra hlt
  have hy := (Shape.cell_bounds h).1
  have := Tile.bottomFrom_above t.shape (t.shape.length - 1) y (by unfold Tile.bottom at hlt; omega)
    (by omega)
  have h2 : t.shape.rowAny y = true := Shape.rowAny_iff.2 ⟨x, h⟩
  rw [this] at h2
  exact Bool.noConfusion h2

theorem Tile.bottom_attained (t : Tile) (hne : t.shape.cells ≠ []) :
    ∃ x, t.shape.cell t.bottom x = true := by
  rcases Tile.bottomFrom_hit t.shape (t.shape.length - 1) with h0 | hhit
  · obtain ⟨⟨x, y⟩, hc⟩ := List.exists_mem_of_ne_nil _ hne
    have hcell := Shape.mem_cells.1 hc
    have hle := Tile.bottom_max t hcell
    have hb : t.bottom = 0 := h0
    have hy : y = 0 := by omega
    subst hy
    exact ⟨x, by rw [hb]; exact hcell⟩
  · exact Shape.rowAny_iff.1 hhit

theorem Tile.rightFrom_le (s : Shape) (n : Nat) : Tile.rightFrom s n ≤ n := by
  induction n with
  | zero => simp [Tile.rightFrom]
  | succ n ih =>
    unfold Tile.rightFrom
    split
    · exact le_rfl
    · omega

theorem Tile.rightFrom_above (s : Shape) (n x : Nat) (h1 : Tile.rightFrom s n < x)
    (h2 : x ≤ n) : s.colAny x = false := by
  induction n with
  | zero => simp [Tile.rightFrom] at h1; omega
  | succ n ih =>
    unfold Tile.rightFrom at h1
    split at h1
    · omega
    · rename_i hcol
      rcases Nat.lt_or_ge n x with hlt | hge
      · have : x = n + 1 := by omega
        subst this
        simpa using hcol
      · exact ih h1 hge

theorem Tile.rightFrom_hit (s : Shape) (n : Nat) :
    Tile.rightFrom s n = 0 ∨ s.colAny (Tile.rightFrom s n) = true := by
  induction n with
  | zero => left; rfl
  | succ n ih =>
    unfold Tile.rightFrom
    split
    · right; assumption
    · exact ih

theorem Tile.right_max (t : Tile) (hs : t.shape.Square) {x y : Nat}
    (h : t.shape.cell y x = true) : x ≤ t.right := by
  by_contra hlt
  obtain ⟨hy, hx⟩ := hs.cell_lt h
  have hw := hs.width_eq (by omega)
  have := Tile.rightFrom_above t.shape (t.shape.width - 1) x
    (by unfold Tile.right at hlt; omega) (by omega)
  have h2 : t.shape.colAny x = true := Shape.colAny_iff.2 ⟨y, h⟩
  rw [this] at h2
  exact Bool.noConfusion h2

theorem Tile.right_attained (t : Tile) (hs : t.shape.Square) (hne : t.shape.cells ≠ []) :
    ∃ y, t.shape.cell y t.right = true := by
  rcases Tile.rightFrom_hit t.shape (t.shape.width - 1) with h0 | hhit
  · obtain ⟨⟨x, y⟩, hc⟩ := List.exists_mem_of_ne_nil _ hne
    have hcell := Shape.mem_cells.1 hc
    have hle := Tile.right_max t hs hcell
    have hb : t.right = 0 := h0
    have hx : x = 0 := by omega
    subst hx
    exact ⟨y, by rw [hb]; exact hcell⟩
  · exact Shape.colAny_iff.1 hhit

theorem find?_range_spec (p : Nat → Bool) (n : Nat) :
    (∀ x, (List.range n).find? p = some x → p x = true ∧ x < n ∧ ∀ y < x, p y = false) ∧
    ((List.range n).find? p = none → ∀ y < n, p y = false) := by
  induction n with
  | zero => simp
  | succ n ih =>
    rw [List.range_succ, List.find?_append]
    rcases hf : (List.range n).find? p with _ | x0
    · have hnone := ih.2 hf
      by_cases hp : p n = true
      · simp only [Option.none_or, List.find?_cons, hp, List.find?_nil]
        refine ⟨?_, by simp⟩
        intro x hx
        cases hx
        exact ⟨hp, by omega, hnone⟩
      · simp only [Option.none_or, List.find?_cons, hp, List.find?_nil]
        refine ⟨by simp, ?_⟩
        intro _ y hy
        rcases Nat.lt_or_ge y n with h | h
        · exact hnone y h
        · have : y = n := by omega
          subst this
          simpa using hp
    · have hsome := ih.1 x0 hf
      simp only [Option.or_some]
      refine ⟨?_, by simp⟩
      intro x hx
      cases hx
      exact ⟨hsome.1, by omega, hsome.2.2⟩

theorem Tile.left_min (t : Tile) (hs : t.shape.Square) {x y : Nat}
    (h : t.shape.cell y x = true) : t.left ≤ x := by
  obtain ⟨hy, hx⟩ := hs.cell_lt h
  have hw := hs.width_eq (by omega)
  have hcol : t.shape.colAny x = true := Shape.colAny_iff.2 ⟨y, h⟩
  have hspec := find?_range_spec (fun x => t.shape.colAny x) t.shape.width
  unfold Tile.left
  rcases hf : (List.range t.shape.width).find? (fun x => t.shape.colAny x) with _ | x0
  · simp
  · simp only [Option.getD_some]
    by_contra hlt
    have := (hspec.1 x0 hf).2.2 x (by omega)
    simp only at this
    rw [this] at hcol
    exact Bool.noConfusion hcol

theorem Tile.left_attained (t : Tile) (hs : t.shape.Square) (hne : t.shape.cells ≠ []) :
    ∃ y, t.shape.cell y t.left = true := by
  obtain ⟨⟨x, y⟩, hc⟩ := List.exists_mem_of_ne_nil _ hne
  have hcell := Shape.mem_cells.1 hc
  obtain ⟨hy, hx⟩ := hs.cell_lt hcell
  have hw := hs.width_eq (by omega)
  have hcol : t.shape.colAny x = true := Shape.colAny_iff.2 ⟨y, hcell⟩
  have hspec := find?_range_spec (fun x => t.shape.colAny x) t.shape.width
  unfold Tile.left
  rcases hf : (List.range t.shape.width).find? (fun x => t.shape.colAny x) with _ | x0
  · have := hspec.2 hf x (by omega)
    simp only at this
    rw [this] at hcol
    exact Bool.noConfusion hcol
  · simp only [Option.getD_some]
    exact Shape.colAny_iff.1 (hspec.1 x0 hf).1

/-! ## The collision oracle -/

theorem Entity.mem_cells_iff {e : Entity} {X Y : Int} :
    (X, Y) ∈ e.cells ↔
      ∃ x y : Nat, e.tile.shape.cell y x = true ∧ X = e.position.x + x ∧ Y = e.position.y + y := by
  unfold Entity.cells
  simp only [List.mem_map, Prod.mk.injEq, Prod.exists]
  constructor
  · rintro ⟨x, y, hc, rfl, rfl⟩
    exact ⟨x, y, Shape.mem_cells.1 hc, rfl, rfl⟩
  · rintro ⟨x, y, hc, rfl, rfl⟩
    exact ⟨x, y, Shape.mem_cells.2 hc, rfl, rfl⟩

theorem Collision.hit_iff (e : Entity) (hs : e.tile.shape.Square) (i j : Int) :
    Collision.hit e i j = true ↔ (e.position.x + i, e.position.y + j) ∈ e.cells := by
  unfold Collision.hit
  rw [Entity.mem_cells_iff]
  simp only [Bool.and_eq_true, decide_eq_true_eq]
  constructor
  · rintro ⟨⟨⟨⟨hi, _⟩, hj⟩, _⟩, hc⟩
    exact ⟨i.toNat, j.toNat, hc, by omega, by omega⟩
  · rintro ⟨x, y, hc, hx, hy⟩
    obtain ⟨hylt, hxlt⟩ := hs.cell_lt hc
    have hw := hs.width_eq (by omega)
    have hi : i = x := by omega
    have hj : j = y := by omega
    subst hi hj
    refine ⟨⟨⟨⟨by omega, by omega⟩, by omega⟩, by omega⟩, ?_⟩
    simpa using hc

theorem Manager.mem_statics {helper : Manager} {e : Entity} :
    e ∈ helper.statics ↔ e ∈ helper.entities ∧ e.movable = false := by
  unfold Manager.statics
  simp [List.mem_filter]

theorem Manager.grid_iff {helper : Manager} {X Y : Int} :
    helper.grid X Y = true ↔ ∃ e ∈ helper.statics, (X, Y) ∈ e.cells := by
  unfold Manager.grid
  simp [List.any_eq_true]

theorem Collision.any_hit_eq_grid (helper : Manager) (hst : helper.StaticsSquare)
    (f g : Entity → Int) (X Y : Int) (hf : ∀ e, e.position.x + f e = X)
    (hg : ∀ e, e.position.y + g e = Y) :
    (helper.entities.any fun other => !other.movable && Collision.hit other (f other) (g other))
      = helper.grid X Y := by
  rw [Bool.eq_iff_iff, Manager.grid_iff, List.any_eq_true]
  constructor
  · rintro ⟨e, he, h⟩
    simp only [Bool.and_eq_true, Bool.not_eq_true'] at h
    have hmem : e ∈ helper.statics := Manager.mem_statics.2 ⟨he, h.1⟩
    refine ⟨e, hmem, ?_⟩
    have := (Collision.hit_iff e (hst e hmem) _ _).1 h.2
    rwa [hf, hg] at this
  · rintro ⟨e, hmem, hc⟩
    obtain ⟨he, hmov⟩ := Manager.mem_statics.1 hmem
    refine ⟨e, he, ?_⟩
    simp only [Bool.and_eq_true, Bool.not_eq_true']
    refine ⟨hmov, (Collision.hit_iff e (hst e hmem) _ _).2 ?_⟩
    rwa [hf, hg]

theorem Shape.Square.any_cells_xy {s : Shape} (hs : s.Square) (G : Nat → Nat → Bool) :
    ((List.range s.width).any fun x =>
        (List.range s.length).reverse.any fun y => s.cell y x && G x y) = true ↔
      ∃ c ∈ s.cells, G c.1 c.2 = true := by
  simp only [List.any_eq_true, List.mem_range, List.mem_reverse, Bool.and_eq_true, Prod.exists]
  constructor
  · rintro ⟨x, _, y, _, hc, hG⟩
    exact ⟨x, y, Shape.mem_cells.2 hc, hG⟩
  · rintro ⟨x, y, hc, hG⟩
    have hcell := Shape.mem_cells.1 hc
    obtain ⟨hy, hx⟩ := hs.cell_lt hcell
    exact ⟨x, by rw [hs.width_eq (by omega)]; exact hx, y, hy, hcell, hG⟩

theorem Shape.Square.any_cells_yx {s : Shape} (hs : s.Square) (G : Nat → Nat → Bool) :
    ((List.range s.length).any fun y =>
        (List.range s.width).any fun x => s.cell y x && G x y) = true ↔
      ∃ c ∈ s.cells, G c.1 c.2 = true := by
  simp only [List.any_eq_true, List.mem_range, Bool.and_eq_true, Prod.exists]
  constructor
  · rintro ⟨y, _, x, _, hc, hG⟩
    exact ⟨x, y, Shape.mem_cells.2 hc, hG⟩
  · rintro ⟨x, y, hc, hG⟩
    have hcell := Shape.mem_cells.1 hc
    obtain ⟨hy, hx⟩ := hs.cell_lt hcell
    exact ⟨y, hy, x, by rw [hs.width_eq (by omega)]; exact hx, hcell, hG⟩

theorem Shape.Square.any_cells_yx_rev {s : Shape} (hs : s.Square) (G : Nat → Nat → Bool) :
    ((List.range s.length).reverse.any fun y =>
        (List.range s.width).any fun x => s.cell y x && G x y) = true ↔
      ∃ c ∈ s.cells, G c.1 c.2 = true := by
  rw [← hs.any_cells_yx G]
  simp only [List.any_eq_true, List.mem_reverse]

/-- Without the boundary test: `Collision::bottom` is the conjunction of "no cell, moved by
the delta, lies on a static cell" and the comparison of the lowest row with `MAX_HEIGHT`. -/
theorem Collision.bottom_eq (helper : Manager) (position : Position) (tile : Tile) (next : Bool)
    (hsq : tile.shape.Square) (hst : helper.StaticsSquare) :
    Collision.bottom helper position tile next = true ↔
      (∀ c ∈ tile.shape.cells,
          helper.grid (position.x + c.1) (position.y + c.2 + (if next then 1 else 0)) = false) ∧
        position.y + tile.bottom + (if next then 1 else 0) < MAX_HEIGHT := by
  have hgrid : ∀ x y : Nat, (helper.entities.any fun other =>
          !other.movable &&
            Collision.hit other
              (position.x + x - other.position.x)
              (position.y + y - other.position.y + (if next then 1 else 0)))
        = helper.grid (position.x + x) (position.y + y + (if next then 1 else 0)) :=
    fun x y => Collision.any_hit_eq_grid helper hst _ _ _ _ (fun e => by omega) (fun e => by omega)
  have hflag := hsq.any_cells_xy (fun x y =>
    helper.grid (position.x + x) (position.y + y + (if next then 1 else 0)))
  unfold Collision.bottom
  simp only [hgrid]
  by_cases hcol : ((List.range tile.shape.width).any fun x =>
      (List.range tile.shape.length).reverse.any fun y => tile.shape.cell y x &&
        helper.grid (position.x + x) (position.y + y + (if next then 1 else 0))) = true
  · simp only [hcol, if_true]
    obtain ⟨c, hc, hg⟩ := hflag.1 hcol
    constructor
    · intro h
      exact Bool.noConfusion h
    · rintro ⟨h, _⟩
      rw [h c hc] at hg
      exact Bool.noConfusion hg
  · simp only [hcol, Bool.false_eq_true, if_false, decide_eq_true_eq]
    constructor
    · intro h
      refine ⟨fun c hc => ?_, h⟩
      by_contra hg
      exact hcol (hflag.2 ⟨c, hc, by simpa using hg⟩)
    · exact fun h => h.2

/-- Without the boundary test: `Collision::left` is the conjunction of "no cell, moved by
the delta, lies on a static cell" and the comparison of the leftmost column with the wall. -/
theorem Collision.left_eq (helper : Manager) (position : Position) (tile : Tile) (next : Bool)
    (hsq : tile.shape.Square) (hst : helper.StaticsSquare) :
    Collision.left helper position tile next = true ↔
      (∀ c ∈ tile.shape.cells,
          helper.grid (position.x + c.1 - (if next then 1 else 0)) (position.y + c.2) = false) ∧
        position.x + tile.left > (if next then 0 else -1) := by
  have hgrid : ∀ x y : Nat, (helper.entities.any fun other =>
          !other.movable &&
            Collision.hit other
              (position.x + x - other.position.x - (if next then 1 else 0))
              (position.y + y - other.position.y))
        = helper.grid (position.x + x - (if next then 1 else 0)) (position.y + y) :=
    fun x y => Collision.any_hit_eq_grid helper hst _ _ _ _ (fun e => by omega) (fun e => by omega)
  have hflag := hsq.any_cells_yx (fun x y =>
    helper.grid (position.x + x - (if next then 1 else 0)) (position.y + y))
  unfold Collision.left
  simp only [hgrid]
  by_cases hcol : ((List.range tile.shape.length).any fun y =>
      (List.range tile.shape.width).any fun x => tile.shape.cell y x &&
        helper.grid (position.x + x - (if next then 1 else 0)) (position.y + y)) = true
  · simp only [hcol, if_true]
    obtain ⟨c, hc, hg⟩ := hflag.1 hcol
    constructor
    · intro h
      exact Bool.noConfusion h
    · rintro ⟨h, _⟩
      rw [h c hc] at hg
      exact Bool.noConfusion hg
  · simp only [hcol, Bool.false_eq_true, if_false, decide_eq_true_eq]
    constructor
    · intro h
      refine ⟨fun c hc => ?_, h⟩
      by_contra hg
      exact hcol (hflag.2 ⟨c, hc, by simpa using hg⟩)
    · exact fun h => h.2

/-- Without the boundary test: `Collision::right` is the conjunction of "no cell, moved by
the delta, lies on a static cell" and the comparison of the rightmost column with the wall. -/
theorem Collision.right_eq (helper : Manager) (position : Position) (tile : Tile) (next : Bool)
    (hsq : tile.shape.Square) (hst : helper.StaticsSquare) :
    Collision.right helper position tile next = true ↔
      (∀ c ∈ tile.shape.cells,
          helper.grid (position.x + c.1 + (if next then 1 else 0)) (position.y + c.2) = false) ∧
        position.x + tile.right + (if next then 1 else 0) < MAX_WIDTH := by
  have hgrid : ∀ x y : Nat, (helper.entities.any fun other =>
          !other.movable &&
            Collision.hit other
              (position.x + x - other.position.x + (if next then 1 else 0))
              (position.y + y - other.position.y))
        = helper.grid (position.x + x + (if next then 1 else 0)) (position.y + y) :=
    fun x y => Collision.any_hit_eq_grid helper hst _ _ _ _ (fun e => by omega) (fun e => by omega)
  have hflag := hsq.any_cells_yx_rev (fun x y =>
    helper.grid (position.x + x + (if next then 1 else 0)) (position.y + y))
  unfold Collision.right
  simp only [hgrid]
  by_cases hcol : ((List.range tile.shape.length).reverse.any fun y =>
      (List.range tile.shape.width).any fun x => tile.shape.cell y x &&
        helper.grid (position.x + x + (if next then 1 else 0)) (position.y + y)) = true
  · simp only [hcol, if_true]
    obtain ⟨c, hc, hg⟩ := hflag.1 hcol
    constructor
    · intro h
      exact Bool.noConfusion h
    · rintro ⟨h, _⟩
      rw [h c hc] at hg
      exact Bool.noConfusion hg
  · simp only [hcol, Bool.false_eq_true, if_false, decide_eq_true_eq]
    constructor
    · intro h
      refine ⟨fun c hc => ?_, h⟩
      by_contra hg
      exact hcol (hflag.2 ⟨c, hc, by simpa using hg⟩)
    · exact fun h => h.2

/-- The lowest-row comparison of `Collision::bottom` speaks for every set cell. -/
theorem Tile.bottom_bound (t : Tile) (hne : t.shape.cells ≠ []) (y d : Int) :
    y + t.bottom + d < MAX_HEIGHT ↔ ∀ c ∈ t.shape.cells, y + c.2 + d < MAX_HEIGHT := by
  constructor
  · rintro h ⟨cx, cy⟩ hc
    have := Tile.bottom_max t (Shape.mem_cells.1 hc)
    simp only
    omega
  · intro h
    obtain ⟨x, hx⟩ := Tile.bottom_attained t hne
    exact h (x, t.bottom) (Shape.mem_cells.2 hx)

/-- The rightmost-column comparison of `Collision::right` speaks for every set cell. -/
theorem Tile.right_bound (t : Tile) (hs : t.shape.Square) (hne : t.shape.cells ≠ [])
    (x d : Int) :
    x + t.right + d < MAX_WIDTH ↔ ∀ c ∈ t.shape.cells, x + c.1 + d < MAX_WIDTH := by
  constructor
  · rintro h ⟨cx, cy⟩ hc
    have := Tile.right_max t hs (Shape.mem_cells.1 hc)
    simp only
    omega
  · intro h
    obtain ⟨y, hy⟩ := Tile.right_attained t hs hne
    exact h (t.right, y) (Shape.mem_cells.2 hy)

/-- The leftmost-column comparison of `Collision::left` speaks for every set cell. -/
theorem Tile.left_bound (t : Tile) (hs : t.shape.Square) (hne : t.shape.cells ≠ [])
    (x d : Int) :
    x + t.left > d ↔ ∀ c ∈ t.shape.cells, x + c.1 > d := by
  constructor
  · rintro h ⟨cx, cy⟩ hc
    have := Tile.left_min t hs (Shape.mem_cells.1 hc)
    simp only
    omega
  · intro h
    obtain ⟨y, hy⟩ := Tile.left_attained t hs hne
    exact h (t.left, y) (Shape.mem_cells.2 hy)

theorem Manager.grid_statics (helper : Manager) (X Y : Int) :
    ({ helper with entities := helper.statics } : Manager).grid X Y = helper.grid X Y := by
  unfold Manager.grid Manager.statics
  simp only [List.filter_filter, Bool.and_self]

theorem Manager.StaticsSquare.statics {helper : Manager} (h : helper.StaticsSquare) :
    ({ helper with entities := helper.statics } : Manager).StaticsSquare := by
  intro e he
  apply h
  unfold Manager.statics at he ⊢
  simpa only [List.filter_filter, Bool.and_self] using he

/-! ## Claim C3: `Collision::bottom` with `next = true` -/

/-- C3. For a piece whose square shape holds at least one set cell, at any position and
for any static pieces (square shapes), `Collision::bottom` with `next = true` returns
true exactly when every set cell of the piece, moved one row down, has absolute row below
`MAX_HEIGHT` and lies on no set cell of a static piece.  Entities with the `Movable`
marker are no obstacles: the answer is the one obtained on the store reduced to its
static pieces. -/
theorem Collision_bottom_next_spec (helper : Manager) (position : Position) (tile : Tile)
    (hsq : tile.shape.Square) (hne : tile.shape.cells ≠ []) (hst : helper.StaticsSquare) :
    (Collision.bottom helper position tile true = true ↔
      ∀ c ∈ tile.shape.cells, position.y + c.2 + 1 < MAX_HEIGHT ∧
        helper.grid (position.x + c.1) (position.y + c.2 + 1) = false) ∧
    Collision.bottom helper position tile true
      = Collision.bottom { helper with entities := helper.statics } position tile true := by
  have key : ∀ h : Manager, h.StaticsSquare →
      (Collision.bottom h position tile true = true ↔
        ∀ c ∈ tile.shape.cells, position.y + c.2 + 1 < MAX_HEIGHT ∧
          h.grid (position.x + c.1) (position.y + c.2 + 1) = false) := by
    intro h hh
    rw [Collision.bottom_eq h position tile true hsq hh]
    simp only [if_true]
    rw [Tile.bottom_bound tile hne position.y 1]
    constructor
    · rintro ⟨h1, h2⟩ c hc
      exact ⟨h2 c hc, h1 c hc⟩
    · intro h1
      exact ⟨fun c hc => (h1 c hc).2, fun c hc => (h1 c hc).1⟩
  refine ⟨key helper hst, ?_⟩
  rw [Bool.eq_iff_iff, key helper hst, key _ hst.statics]
  simp only [Manager.grid_statics]

/-- Instance of C3: the square piece above the upright long piece of `boardStraddle`. -/
theorem Collision_bottom_next_spec_witness :
    (SHAPES 1).Square ∧ (SHAPES 1).cells ≠ [] ∧ boardStraddle.StaticsSquare ∧
    ((Collision.bottom boardStraddle ⟨0, 18⟩ ⟨SHAPES 1, Color.Green⟩ true = true ↔
      ∀ c ∈ (SHAPES 1).cells, (18 : Int) + c.2 + 1 < MAX_HEIGHT ∧
        boardStraddle.grid ((0 : Int) + c.1) ((18 : Int) + c.2 + 1) = false) ∧
    Collision.bottom boardStraddle ⟨0, 18⟩ ⟨SHAPES 1, Color.Green⟩ true
      = Collision.bottom { boardStraddle with entities := boardStraddle.statics } ⟨0, 18⟩
          ⟨SHAPES 1, Color.Green⟩ true) :=
  ⟨by decide, by decide, by decide,
    Collision_bottom_next_spec boardStraddle ⟨0, 18⟩ ⟨SHAPES 1, Color.Green⟩
      (by decide) (by decide) (by decide)⟩

/-! ## Claim C6: the rotation -/

theorem Shape.tabulate_length (n : Nat) (f : Nat → Nat → Bool) :
    (Shape.tabulate n f).length = n := by
  simp [Shape.tabulate]

theorem Shape.tabulate_square (n : Nat) (f : Nat → Nat → Bool) :
    (Shape.tabulate n f).Square := by
  intro row hrow
  rw [Shape.tabulate_length]
  simp only [Shape.tabulate, List.mem_map] at hrow
  obtain ⟨y, _, rfl⟩ := hrow
  simp

theorem Shape.cell_tabulate {n : Nat} (f : Nat → Nat → Bool) {y x : Nat} (hy : y < n)
    (hx : x < n) : (Shape.tabulate n f).cell y x = f y x := by
  simp [Shape.cell, Shape.tabulate, List.getD_eq_getElem?_getD, hy, hx]

theorem Shape.tabulate_congr {n : Nat} {f g : Nat → Nat → Bool}
    (h : ∀ y x, y < n → x < n → f y x = g y x) : Shape.tabulate n f = Shape.tabulate n g := by
  unfold Shape.tabulate
  apply List.map_congr_left
  intro y hy
  apply List.map_congr_left
  intro x hx
  exact h y x (List.mem_range.1 hy) (List.mem_range.1 hx)

theorem Shape.Square.eq_tabulate {s : Shape} (hs : s.Square) :
    s = Shape.tabulate s.length fun y x => s.cell y x := by
  apply List.ext_getElem
  · rw [Shape.tabulate_length]
  · intro y h1 h2
    have hrow : s[y].length = s.length := hs _ (List.getElem_mem h1)
    simp only [Shape.tabulate, List.getElem_map, List.getElem_range]
    apply List.ext_getElem
    · simp [hrow]
    · intro x h3 h4
      simp only [List.getElem_map, List.getElem_range, Shape.cell]
      rw [List.getD_eq_getElem _ _ h1, List.getD_eq_getElem _ _ h3]

theorem Rotation.rotated_eq_tabulate {s : Shape} (hs : s.Square) :
    Rotation.rotated s = Shape.tabulate s.length fun i j => s.cell (s.length - 1 - j) i := by
  unfold Rotation.rotated Shape.tabulate
  apply List.map_congr_left
  intro i hi
  rw [hs.row_length (List.mem_range.1 hi)]

theorem Rotation.rotated_tabulate (n : Nat) (f : Nat → Nat → Bool) :
    Rotation.rotated (Shape.tabulate n f) = Shape.tabulate n fun i j => f (n - 1 - j) i := by
  rw [Rotation.rotated_eq_tabulate (Shape.tabulate_square n f), Shape.tabulate_length]
  apply Shape.tabulate_congr
  intro i j hi hj
  exact Shape.cell_tabulate f (by omega) hi

/-- C6. On a square shape `s` with `N` rows the double loop of `Rotation::update` builds
the `N × N` shape `r` with `r[i][j] = s[N-1-j][i]`, and four successive rotations give
back `s`; this holds in particular for the seven shapes of the catalog. -/
theorem Rotation_rotated_spec (s : Shape) (hs : s.Square) :
    ((Rotation.rotated s).Square ∧ (Rotation.rotated s).length = s.length ∧
      ∀ i j, i < s.length → j < s.length →
        (Rotation.rotated s).cell i j = s.cell (s.length - 1 - j) i) ∧
    Rotation.rotated4 s = s ∧
    ∀ k : Fin 7, Rotation.rotated4 (SHAPES k) = SHAPES k := by
  have four : ∀ t : Shape, t.Square → Rotation.rotated4 t = t := by
    intro t ht
    unfold Rotation.rotated4
    conv_rhs => rw [ht.eq_tabulate]
    rw [Rotation.rotated_eq_tabulate ht, Rotation.rotated_tabulate, Rotation.rotated_tabulate,
      Rotation.rotated_tabulate]
    apply Shape.tabulate_congr
    intro i j hi hj
    congr 1 <;> omega
  refine ⟨⟨?_, ?_, ?_⟩, four s hs, ?_⟩
  · rw [Rotation.rotated_eq_tabulate hs]
    exact Shape.tabulate_square _ _
  · rw [Rotation.rotated_eq_tabulate hs, Shape.tabulate_length]
  · intro i j hi hj
    rw [Rotation.rotated_eq_tabulate hs]
    exact Shape.cell_tabulate _ hi hj
  · intro k
    apply four
    revert k
    decide

/-- Instance of C6: the catalog shape 2 (the tee). -/
theorem Rotation_rotated_spec_witness :
    (SHAPES 2).Square ∧
    (((Rotation.rotated (SHAPES 2)).Square ∧
      (Rotation.rotated (SHAPES 2)).length = (SHAPES 2).length ∧
      ∀ i j, i < (SHAPES 2).length → j < (SHAPES 2).length →
        (Rotation.rotated (SHAPES 2)).cell i j = (SHAPES 2).cell ((SHAPES 2).length - 1 - j) i) ∧
    Rotation.rotated4 (SHAPES 2) = SHAPES 2 ∧
    ∀ k : Fin 7, Rotation.rotated4 (SHAPES k) = SHAPES k) :=
  ⟨by decide, Rotation_rotated_spec (SHAPES 2) (by decide)⟩

/-! ## Stores with one active piece -/

theorem foldl_range_single {σ : Type} (f : σ → Nat → σ) (I : σ → Prop) (i : Nat)
    (hfix : ∀ s k, I s → k ≠ i → f s k = s) (hI : ∀ s, I s → I (f s i)) :
    ∀ (n : Nat) (s : σ), I s → (List.range n).foldl f s = if i < n then f s i else s := by
  intro n
  induction n with
  | zero => intro s _; simp
  | succ n ih =>
    intro s hs
    rw [List.range_succ, List.foldl_append, ih s hs]
    simp only [List.foldl_cons, List.foldl_nil]
    by_cases h1 : i < n
    · rw [if_pos h1, if_pos (by omega)]
      exact hfix _ _ (hI s hs) (by omega)
    · rw [if_neg h1]
      by_cases h2 : i = n
      · subst h2; rw [if_pos (by omega)]
      · rw [if_neg (by omega)]
        exact hfix _ _ hs (by omega)

theorem List.set_middle {α : Type} (pre post : List α) (a b : α) :
    (pre ++ a :: post).set pre.length b = pre ++ b :: post := by
  induction pre with
  | nil => rfl
  | cons x xs ih => simp [ih]

theorem List.getElem?_middle {α : Type} (pre post : List α) (a : α) :
    (pre ++ a :: post)[pre.length]? = some a := by
  rw [List.getElem?_append_right (le_refl _)]
  simp

theorem List.mem_of_getElem?_some {α : Type} {l : List α} {k : Nat} {a : α}
    (h : l[k]? = some a) : a ∈ l := by
  obtain ⟨h1, h2⟩ := List.getElem?_eq_some.1 h
  exact h2 ▸ List.getElem_mem h1

theorem Manager.onlyAt_middle (pre post : List Entity) (a : Entity) (player : Player)
    (hpre : ∀ e ∈ pre, e.movable = false) (hpost : ∀ e ∈ post, e.movable = false) :
    Manager.OnlyAt { entities := pre ++ a :: post, player := player } pre.length := by
  intro k e hk hne
  simp only at hk
  rcases Nat.lt_or_gt_of_ne hne with h | h
  · rw [List.getElem?_append_left h] at hk
    exact hpre e (List.mem_of_getElem?_some hk)
  · rw [List.getElem?_append_right (by omega)] at hk
    obtain ⟨m, hm⟩ : ∃ m, k - pre.length = m + 1 := ⟨k - pre.length - 1, by omega⟩
    rw [hm, List.getElem?_cons_succ] at hk
    exact hpost e (List.mem_of_getElem?_some hk)

theorem Manager.OnlyAt.setOnly {helper : Manager} {i : Nat} (h : helper.OnlyAt i) (e : Entity)
    (player : Player) :
    Manager.OnlyAt { entities := helper.entities.set i e, player := player } i := by
  intro k e1 hk hne
  simp only at hk
  rw [List.getElem?_set_ne (Ne.symm hne)] at hk
  exact h k e1 hk hne

theorem Manager.statics_middle (pre post : List Entity) (a : Entity) (player : Player)
    (hpre : ∀ e ∈ pre, e.movable = false) (hpost : ∀ e ∈ post, e.movable = false) :
    Manager.statics { entities := pre ++ a :: post, player := player }
      = pre ++ (if a.movable then [] else [a]) ++ post := by
  have h1 : pre.filter (fun e => !e.movable) = pre :=
    List.filter_eq_self.2 fun e he => by simp [hpre e he]
  have h2 : post.filter (fun e => !e.movable) = post :=
    List.filter_eq_self.2 fun e he => by simp [hpost e he]
  unfold Manager.statics
  simp only [List.filter_append, List.filter_cons, h1, h2]
  cases a.movable <;> simp

/-! ## Claim C8: the settling check -/

theorem Collision_updateAt_fix (s : Manager) (k i : Nat) (hs : s.OnlyAt i) (hk : k ≠ i) :
    Collision.updateAt s k = s := by
  unfold Collision.updateAt
  rcases he : s.entities[k]? with _ | e
  · rfl
  · simp [hs k e he hk]

theorem Collision_updateAt_onlyAt (s : Manager) (i : Nat) (hs : s.OnlyAt i) :
    (Collision.updateAt s i).OnlyAt i := by
  unfold Collision.updateAt
  rcases s.entities[i]? with _ | e
  · exact hs
  · dsimp only
    split
    · exact hs.setOnly _ _
    · exact hs

theorem Collision_update_middle (pre post : List Entity) (a : Entity) (player : Player)
    (hpre : ∀ e ∈ pre, e.movable = false) (hpost : ∀ e ∈ post, e.movable = false)
    (ha : a.movable = true) :
    Collision.update { entities := pre ++ a :: post, player := player }
      = Manager.mk
          (pre ++ Entity.mk a.tile a.position
            (Collision.bottom (Manager.mk (pre ++ a :: post) player) a.position a.tile true)
            :: post)
          player := by
  unfold Collision.update
  rw [foldl_range_single Collision.updateAt (fun s => s.OnlyAt pre.length) pre.length
    (fun s k hs hk => Collision_updateAt_fix s k _ hs hk)
    (fun s hs => Collision_updateAt_onlyAt s _ hs) _ _
    (Manager.onlyAt_middle pre post a player hpre hpost)]
  rw [if_pos (by simp)]
  unfold Collision.updateAt
  simp only [List.getElem?_middle, ha, Bool.true_and]
  cases hb : Collision.bottom { entities := pre ++ a :: post, player := player }
      a.position a.tile true
  · simp only [Bool.not_false, if_true, List.set_middle]
  · simp only [Bool.not_true, Bool.false_eq_true, if_false]
    congr 2
    cases a
    simp_all

/-- C8. On a store whose only active piece is `a`, `Collision::update` leaves every piece
where and as it is and leaves the score alone; the marker of `a` is kept exactly when
`Collision::bottom` (with `next = true`) answers true, and removed otherwise.  Once the
marker is removed, every cell of `a` is a cell of the static occupancy grid, the grid the
queries `Collision::left`, `Collision::right` and `Collision::bottom` test against. -/
theorem Collision_update_spec (pre post : List Entity) (a : Entity) (player : Player)
    (hpre : ∀ e ∈ pre, e.movable = false) (hpost : ∀ e ∈ post, e.movable = false)
    (ha : a.movable = true) :
    Collision.update { entities := pre ++ a :: post, player := player }
      = Manager.mk
          (pre ++ Entity.mk a.tile a.position
            (Collision.bottom (Manager.mk (pre ++ a :: post) player) a.position a.tile true)
            :: post)
          player ∧
    (Collision.bottom { entities := pre ++ a :: post, player := player }
        a.position a.tile true = false →
      ∀ c ∈ a.cells,
        (Collision.update { entities := pre ++ a :: post, player := player }).grid c.1 c.2
          = true) := by
  refine ⟨Collision_update_middle pre post a player hpre hpost ha, ?_⟩
  intro hb c hc
  rw [Collision_update_middle pre post a player hpre hpost ha, hb, Manager.grid_iff]
  refine ⟨{ a with movable := false }, ?_, ?_⟩
  · rw [Manager.mem_statics]
    exact ⟨by simp, rfl⟩
  · exact hc


/-- Instance of C8: an active square piece standing on the upright long piece of
`boardStraddle` loses its marker. -/
theorem Collision_update_spec_witness :
    Collision.update
        (Manager.mk (boardStraddle.entities ++ Entity.active (SHAPES 1) Color.Green 0 18 :: [])
          boardStraddle.player)
      = Manager.mk
          (boardStraddle.entities ++ Entity.mk (Entity.active (SHAPES 1) Color.Green 0 18).tile
            (Entity.active (SHAPES 1) Color.Green 0 18).position
            (Collision.bottom
              (Manager.mk
                (boardStraddle.entities ++ Entity.active (SHAPES 1) Color.Green 0 18 :: [])
                boardStraddle.player)
              (Entity.active (SHAPES 1) Color.Green 0 18).position
              (Entity.active (SHAPES 1) Color.Green 0 18).tile true)
            :: [])
          boardStraddle.player ∧
    (Collision.bottom
        (Manager.mk (boardStraddle.entities ++ Entity.active (SHAPES 1) Color.Green 0 18 :: [])
          boardStraddle.player)
        (Entity.active (SHAPES 1) Color.Green 0 18).position
        (Entity.active (SHAPES 1) Color.Green 0 18).tile true = false →
      ∀ c ∈ (Entity.active (SHAPES 1) Color.Green 0 18).cells,
        (Collision.update
          (Manager.mk (boardStraddle.entities ++ Entity.active (SHAPES 1) Color.Green 0 18 :: [])
            boardStraddle.player)).grid c.1 c.2 = true) :=
  Collision_update_spec boardStraddle.entities [] (Entity.active (SHAPES 1) Color.Green 0 18)
    boardStraddle.player (by decide) (by decide) rfl

/-! ## Claim C7: gravity -/

/-- C7, counterexample. The active square piece of `boardFloor` stands on the floor, so
`Collision::bottom` rejects the one-row-down move; once the drop interval has elapsed
`Gravity::update` nevertheless increments its `y`, from 22 to 23. -/
theorem Gravity_update_moves_illegal :
    Collision.bottom boardFloor ⟨5, 22⟩ ⟨SHAPES 1, Color.Green⟩ true = false ∧
    (Gravity.update boardFloor ⟨0, 1000⟩ 1001 false).1.entities
      = [Entity.active (SHAPES 1) Color.Green 5 23] := by
  decide

/-- C7, amended. `Gravity::update` makes no collision query.  When more than `m_interval`
milliseconds have passed since the last restart of its clock it increments the `y` of every
entity carrying the `Movable` marker, whatever lies below, and restarts the clock; otherwise
no entity moves.  In both cases tiles, markers, `x` and the player are unchanged, and the
interval becomes 100 when `Down` is pressed and 1000 otherwise. -/
theorem Gravity_update_spec (helper : Manager) (self : Gravity) (now : Int) (down : Bool) :
    (Gravity.update helper self now down).1.player = helper.player ∧
    (Gravity.update helper self now down).1.entities.length = helper.entities.length ∧
    (∀ (k : Nat) (e : Entity), helper.entities[k]? = some e →
      (Gravity.update helper self now down).1.entities[k]?
        = some (Entity.mk e.tile
            ⟨e.position.x,
              e.position.y
                + (if e.movable = true ∧ now - self.m_clock > self.m_interval then 1 else 0)⟩
            e.movable)) ∧
    (Gravity.update helper self now down).2.m_interval = (if down then 100 else 1000) ∧
    (Gravity.update helper self now down).2.m_clock
      = (if now - self.m_clock > self.m_interval then now else self.m_clock) := by
  unfold Gravity.update
  by_cases h : now - self.m_clock > self.m_interval
  · simp only [h, if_true]
    refine ⟨trivial, by simp, ?_, trivial, trivial⟩
    intro k e he
    simp only [List.getElem?_map, he, Option.map_some', Gravity.fall, and_true]
    rcases e with ⟨t, ⟨x, y⟩, m⟩
    cases m <;> simp
  · simp only [h, if_false]
    refine ⟨trivial, trivial, ?_, trivial, trivial⟩
    intro k e he
    rcases e with ⟨t, ⟨x, y⟩, m⟩
    simp [he]


/-! ## Claim C20: the settling check followed by gravity -/

theorem Gravity.map_fall_static (l : List Entity) (h : ∀ e ∈ l, e.movable = false) :
    l.map Gravity.fall = l := by
  conv_rhs => rw [← List.map_id l]
  apply List.map_congr_left
  intro e he
  simp [Gravity.fall, h e he]

theorem Entity.cells_mk (t : Tile) (p : Position) (m1 m2 : Bool) :
    (Entity.mk t p m1).cells = (Entity.mk t p m2).cells := rfl

/-- C20. `main` runs `Collision::update` and then `Gravity::update`.  On a store whose only
active piece `a` has a square shape, lies above the floor and on no cell of a static piece
(all of square shape), the pair of updates changes nothing but the marker and the `y` of
`a`; `y` grows by one only if `Collision::bottom` accepted the one-row-down move of `a`, the
marker being kept then; and afterwards the piece still has every cell in a row below
`MAX_HEIGHT` and on no cell of the other pieces. -/
theorem Collision_then_Gravity_safe (pre post : List Entity) (a : Entity) (player : Player)
    (self : Gravity) (now : Int) (down : Bool)
    (hpre : ∀ e ∈ pre, e.movable = false) (hpost : ∀ e ∈ post, e.movable = false)
    (ha : a.movable = true) (hsq : a.tile.shape.Square)
    (hst : ∀ e ∈ pre ++ post, e.tile.shape.Square)
    (hin : ∀ c ∈ a.cells, c.2 < MAX_HEIGHT)
    (hfree : ∀ c ∈ a.cells, ∀ e ∈ pre ++ post, c ∉ e.cells) :
    ∃ b : Entity,
      (Gravity.update (Collision.update (Manager.mk (pre ++ a :: post) player))
          self now down).1 = Manager.mk (pre ++ b :: post) player ∧
      b.tile = a.tile ∧ b.position.x = a.position.x ∧
      (b.position.y = a.position.y ∨
        (b.position.y = a.position.y + 1 ∧ b.movable = true ∧
          Collision.bottom (Manager.mk (pre ++ a :: post) player) a.position a.tile true
            = true)) ∧
      ∀ c ∈ b.cells, c.2 < MAX_HEIGHT ∧ ∀ e ∈ pre ++ post, c ∉ e.cells := by
  have hstat : (Manager.mk (pre ++ a :: post) player).statics = pre ++ post := by
    rw [Manager.statics_middle pre post a player hpre hpost, ha]
    simp
  have hsquare : (Manager.mk (pre ++ a :: post) player).StaticsSquare := by
    intro e he
    rw [hstat] at he
    exact hst e he
  rw [Collision_update_middle pre post a player hpre hpost ha]
  have same : ∀ m : Bool, ∀ c ∈ (Entity.mk a.tile a.position m).cells,
      c.2 < MAX_HEIGHT ∧ ∀ e ∈ pre ++ post, c ∉ e.cells :=
    fun m c hc => ⟨hin c hc, hfree c hc⟩
  cases hb : Collision.bottom (Manager.mk (pre ++ a :: post) player) a.position a.tile true
  · refine ⟨Entity.mk a.tile a.position false, ?_, rfl, rfl, Or.inl rfl, same false⟩
    unfold Gravity.update
    dsimp only
    split
    · simp only [List.map_append, List.map_cons, Gravity.map_fall_static pre hpre,
        Gravity.map_fall_static post hpost]
      rfl
    · rfl
  · unfold Gravity.update
    dsimp only
    split
    · refine ⟨Entity.mk a.tile ⟨a.position.x, a.position.y + 1⟩ true, ?_, rfl, rfl,
        Or.inr ⟨rfl, rfl, rfl⟩, ?_⟩
      · simp only [List.map_append, List.map_cons, Gravity.map_fall_static pre hpre,
          Gravity.map_fall_static post hpost]
        rfl
      · rintro ⟨X, Y⟩ hc
        obtain ⟨x, y, hxy, hX, hY⟩ := Entity.mem_cells_iff.1 hc
        obtain ⟨h1, h2⟩ := (Collision.bottom_eq _ a.position a.tile true hsq hsquare).1 hb
        simp only [if_true] at h1 h2
        have hle : y ≤ a.tile.bottom := Tile.bottom_max a.tile hxy
        have hg := h1 (x, y) (Shape.mem_cells.2 hxy)
        refine ⟨?_, ?_⟩
        · show Y < MAX_HEIGHT
          simp only at hY
          omega
        · intro e he hmem
          have : (Manager.mk (pre ++ a :: post) player).grid
              (a.position.x + x) (a.position.y + y + 1) = true := by
            rw [Manager.grid_iff]
            refine ⟨e, by rw [hstat]; exact he, ?_⟩
            simp only at hX hY
            have e1 : a.position.x + (x : Int) = X := by omega
            have e2 : a.position.y + (y : Int) + 1 = Y := by omega
            rw [e1, e2]
            exact hmem
          rw [this] at hg
          exact Bool.noConfusion hg
    · exact ⟨Entity.mk a.tile a.position true, rfl, rfl, rfl, Or.inl rfl, same true⟩


/-- Instance of C20: the free square piece above the pieces of `boardStraddle`, the drop
interval having elapsed. -/
theorem Collision_then_Gravity_safe_witness :
    ∃ b : Entity,
      (Gravity.update
          (Collision.update (Manager.mk (boardStraddle.entities ++ pieceFree :: []) ⟨0, none⟩))
          ⟨0, 1000⟩ 1001 false).1
        = Manager.mk (boardStraddle.entities ++ b :: []) ⟨0, none⟩ ∧
      b.tile = pieceFree.tile ∧ b.position.x = pieceFree.position.x ∧
      (b.position.y = pieceFree.position.y ∨
        (b.position.y = pieceFree.position.y + 1 ∧ b.movable = true ∧
          Collision.bottom (Manager.mk (boardStraddle.entities ++ pieceFree :: []) ⟨0, none⟩)
            pieceFree.position pieceFree.tile true = true)) ∧
      ∀ c ∈ b.cells, c.2 < MAX_HEIGHT ∧ ∀ e ∈ boardStraddle.entities ++ [], c ∉ e.cells :=
  Collision_then_Gravity_safe boardStraddle.entities [] pieceFree ⟨0, none⟩ ⟨0, 1000⟩ 1001 false
    (by decide) (by decide) rfl (by decide) (by decide) (by decide) (by decide)


/-! ## Claims C9, C10, C11: the factory -/

theorem Manager.noMovable_iff (helper : Manager) :
    helper.noMovable = true ↔ ∀ e ∈ helper.entities, e.movable = false := by
  unfold Manager.noMovable
  rw [Bool.not_eq_true', List.any_eq_false]
  simp

theorem Factory.update_store (helper : Manager) (self other : Factory) (index1 index2 : Fin 7) :
    (Factory.update helper self index1 index2).1
      = (Factory.update helper other index1 index2).1 := by
  unfold Factory.update
  split
  · dsimp only
    split <;> split <;> rfl
  · rfl

theorem Factory.update_end (helper : Manager) (self : Factory) (index1 index2 : Fin 7) :
    (Factory.update helper self index1 index2).2.m_end
      = (self.m_end || (Factory.update helper Factory.init index1 index2).2.m_end) := by
  unfold Factory.update Factory.init
  split
  · dsimp only
    split <;> simp
  · simp

/-- C9. `Factory::update` changes nothing when some piece carries the `Movable` marker.
When none does, it appends exactly one entity to the store: an active piece at
`(MAX_WIDTH / 2, 0) = (5, 0)` whose tile is the one held in the player's `next` (or, when
`next` is empty, the catalog shape `index2` in its colour); the player's `next` becomes the
catalog shape `index1` in the colour of that index; the earlier pieces, all static, and the
score are unchanged. -/
theorem Factory_update_spec (helper : Manager) (self : Factory) (index1 index2 : Fin 7) :
    ((∃ e ∈ helper.entities, e.movable = true) →
      Factory.update helper self index1 index2 = (helper, self)) ∧
    ((∀ e ∈ helper.entities, e.movable = false) →
      (Factory.update helper self index1 index2).1.entities
        = helper.entities ++
          [Entity.mk (helper.player.next.getD ⟨SHAPES index2, Factory.color index2⟩)
            ⟨5, 0⟩ true] ∧
      (Factory.update helper self index1 index2).1.player
        = ⟨helper.player.score, some ⟨SHAPES index1, Factory.color index1⟩⟩ ∧
      (Factory.update helper self index1 index2).1.statics = helper.entities) := by
  constructor
  · rintro ⟨e, he, hm⟩
    have : helper.noMovable = false := by
      rw [← Bool.not_eq_true, Manager.noMovable_iff]
      intro h
      rw [h e he] at hm
      exact Bool.noConfusion hm
    simp [Factory.update, this]
  · intro h
    have hno : helper.noMovable = true := (Manager.noMovable_iff helper).2 h
    have hent : (Factory.update helper self index1 index2).1.entities
        = helper.entities ++
          [Entity.mk (helper.player.next.getD ⟨SHAPES index2, Factory.color index2⟩)
            ⟨5, 0⟩ true] := by
      unfold Factory.update
      rw [if_pos hno]
      dsimp only
      have hx : MAX_WIDTH / 2 = 5 := by decide
      split <;> cases helper.player.next <;> simp [hx]
    refine ⟨hent, ?_, ?_⟩
    · unfold Factory.update
      rw [if_pos hno]
      dsimp only
      split <;> rfl
    · unfold Manager.statics
      rw [hent, List.filter_append]
      have : helper.entities.filter (fun e => !e.movable) = helper.entities :=
        List.filter_eq_self.2 fun e he => by simp [h e he]
      rw [this]
      simp


/-- Instance of C9: a spawn on `boardTop`, where no piece is active. -/
theorem Factory_update_spec_witness :
    (Factory.update boardTop Factory.init 0 1).1.entities
      = boardTop.entities ++
        [Entity.mk (boardTop.player.next.getD ⟨SHAPES 1, Factory.color (1 : Fin 7)⟩)
          ⟨5, 0⟩ true] ∧
    (Factory.update boardTop Factory.init 0 1).1.player
      = ⟨boardTop.player.score, some ⟨SHAPES 0, Factory.color (0 : Fin 7)⟩⟩ ∧
    (Factory.update boardTop Factory.init 0 1).1.statics = boardTop.entities :=
  (Factory_update_spec boardTop Factory.init 0 1).2 (by decide)

theorem Factory.spawned_fails_iff (helper : Manager) (index1 index2 : Fin 7) :
    (Factory.update helper Factory.init index1 index2).2.m_end = true ↔
      ∃ e, Factory.spawned helper index1 index2 = some e ∧ e.position = ⟨5, 0⟩ ∧
        Collision.bottom (Factory.update helper Factory.init index1 index2).1
          e.position e.tile true = false := by
  unfold Factory.spawned
  by_cases hno : helper.noMovable = true
  · rw [if_pos hno]
    have hx : MAX_WIDTH / 2 = 5 := by decide
    unfold Factory.update Factory.init
    simp only [hno, if_true]
    split
    · rename_i hb
      simp only [List.getLast?_append, List.getLast?_singleton, Option.or_some,
        Option.some.injEq, true_iff]
      refine ⟨_, rfl, ?_, ?_⟩
      · simp [hx]
      · simpa using hb
    · rename_i hb
      simp only [List.getLast?_append, List.getLast?_singleton, Option.or_some,
        Option.some.injEq, Bool.false_eq_true, false_iff]
      rintro ⟨e, rfl, -, h⟩
      simp only [Bool.not_eq_true, Bool.not_eq_false'] at hb
      rw [hb] at h
      exact Bool.noConfusion h
  · rw [if_neg hno]
    simp [Factory.update, hno, Factory.init]

theorem Factory.run_end (calls : List (Manager × Fin 7 × Fin 7)) (self : Factory) :
    (Factory.run self calls).m_end
      = (self.m_end ||
          calls.any fun c => (Factory.update c.1 Factory.init c.2.1 c.2.2).2.m_end) := by
  unfold Factory.run
  induction calls generalizing self with
  | nil => simp
  | cons c cs ih =>
    rw [List.foldl_cons, ih, Factory.update_end, List.any_cons, Bool.or_assoc]

theorem Factory.state_end_iff (self : Factory) : self.state = State.END ↔ self.m_end = true := by
  unfold Factory.state
  cases self.m_end <;> simp

/-- C10. Along any sequence of calls of `Factory::update` from the freshly constructed
factory, `Factory::state` reports `END` exactly when one of the calls created a piece, at
`(5, 0)`, for which `Collision::bottom` (with `next = true`) answered false in the store
holding it; the failure only sets the flag the status is computed from (the call returns
its store as usual).  Once the status is `END` it stays `END` after any further calls. -/
theorem Factory_state_spec (calls : List (Manager × Fin 7 × Fin 7)) :
    ((Factory.run Factory.init calls).state = State.END ↔
      ∃ c ∈ calls, ∃ e, Factory.spawned c.1 c.2.1 c.2.2 = some e ∧ e.position = ⟨5, 0⟩ ∧
        Collision.bottom (Factory.update c.1 Factory.init c.2.1 c.2.2).1
          e.position e.tile true = false) ∧
    (∀ self : Factory, self.state = State.END →
      ∀ more : List (Manager × Fin 7 × Fin 7), (Factory.run self more).state = State.END) ∧
    (∀ (self : Factory) (helper : Manager) (index1 index2 : Fin 7),
      (Factory.update helper self index1 index2).1
        = (Factory.update helper Factory.init index1 index2).1) := by
  refine ⟨?_, ?_, fun self helper i1 i2 => Factory.update_store helper self _ i1 i2⟩
  · rw [Factory.state_end_iff, Factory.run_end]
    simp only [Factory.init, Bool.false_or, List.any_eq_true]
    constructor
    · rintro ⟨c, hc, h⟩
      exact ⟨c, hc, (Factory.spawned_fails_iff c.1 c.2.1 c.2.2).1 h⟩
    · rintro ⟨c, hc, h⟩
      exact ⟨c, hc, (Factory.spawned_fails_iff c.1 c.2.1 c.2.2).2 h⟩
  · intro self hs more
    rw [Factory.state_end_iff] at hs ⊢
    rw [Factory.run_end, hs, Bool.true_or]

/-! ### Claim C11 -/

/-- C11, the divergence. On `boardTop` no piece is active and the square piece that
`Factory::update` creates at `(5, 0)` cannot move down.  The status becomes `END`, but the
new piece is in the store with the `Movable` marker: after the update one piece carries
the marker. -/
theorem Factory_update_failed_spawn_marked :
    boardTop.noMovable = true ∧
    (Factory.update boardTop Factory.init 1 1).2.state = State.END ∧
    (Factory.update boardTop Factory.init 1 1).1.entities
      = boardTop.entities ++ [Entity.active (SHAPES 1) Color.Green 5 0] ∧
    (Factory.update boardTop Factory.init 1 1).1.noMovable = false := by
  decide


/-! ## The collision oracle in absolute coordinates -/

theorem Entity.forall_cells (e : Entity) (P : Int × Int → Prop) :
    (∀ c ∈ e.cells, P c) ↔
      ∀ c ∈ e.tile.shape.cells, P (e.position.x + c.1, e.position.y + c.2) := by
  unfold Entity.cells
  simp only [List.forall_mem_map]

theorem Collision.left_abs (helper : Manager) (p : Position) (t : Tile) (m next : Bool)
    (hsq : t.shape.Square) (hne : t.shape.cells ≠ []) (hst : helper.StaticsSquare) :
    Collision.left helper p t next = true ↔
      ∀ c ∈ (Entity.mk t p m).cells, 0 ≤ c.1 - (if next then 1 else 0) ∧
        helper.grid (c.1 - (if next then 1 else 0)) c.2 = false := by
  rw [Collision.left_eq helper p t next hsq hst, Tile.left_bound t hsq hne, Entity.forall_cells]
  constructor
  · rintro ⟨h1, h2⟩ c hc
    refine ⟨?_, h1 c hc⟩
    have := h2 c hc
    cases next <;> simp only [if_true, if_false, Bool.false_eq_true] at this ⊢ <;> omega
  · intro h
    refine ⟨fun c hc => (h c hc).2, fun c hc => ?_⟩
    have := (h c hc).1
    cases next <;> simp only [if_true, if_false, Bool.false_eq_true] at this ⊢ <;> omega

theorem Collision.right_abs (helper : Manager) (p : Position) (t : Tile) (m next : Bool)
    (hsq : t.shape.Square) (hne : t.shape.cells ≠ []) (hst : helper.StaticsSquare) :
    Collision.right helper p t next = true ↔
      ∀ c ∈ (Entity.mk t p m).cells, c.1 + (if next then 1 else 0) < MAX_WIDTH ∧
        helper.grid (c.1 + (if next then 1 else 0)) c.2 = false := by
  rw [Collision.right_eq helper p t next hsq hst, Tile.right_bound t hsq hne,
    Entity.forall_cells]
  constructor
  · rintro ⟨h1, h2⟩ c hc
    exact ⟨h2 c hc, h1 c hc⟩
  · intro h
    exact ⟨fun c hc => (h c hc).2, fun c hc => (h c hc).1⟩

theorem Collision.bottom_abs (helper : Manager) (p : Position) (t : Tile) (m next : Bool)
    (hsq : t.shape.Square) (hne : t.shape.cells ≠ []) (hst : helper.StaticsSquare) :
    Collision.bottom helper p t next = true ↔
      ∀ c ∈ (Entity.mk t p m).cells, c.2 + (if next then 1 else 0) < MAX_HEIGHT ∧
        helper.grid c.1 (c.2 + (if next then 1 else 0)) = false := by
  rw [Collision.bottom_eq helper p t next hsq hst, Tile.bottom_bound t hne,
    Entity.forall_cells]
  constructor
  · rintro ⟨h1, h2⟩ c hc
    exact ⟨h2 c hc, h1 c hc⟩
  · intro h
    exact ⟨fun c hc => (h c hc).2, fun c hc => (h c hc).1⟩

theorem Manager.staticsSquare_middle (pre post : List Entity) (a : Entity) (player : Player)
    (hpre : ∀ e ∈ pre, e.movable = false) (hpost : ∀ e ∈ post, e.movable = false)
    (ha : a.movable = true) (hst : ∀ e ∈ pre ++ post, e.tile.shape.Square) :
    (Manager.mk (pre ++ a :: post) player).StaticsSquare := by
  intro e he
  rw [Manager.statics_middle pre post a player hpre hpost, ha] at he
  exact hst e (by simpa using he)


/-! ## Claims C4 and C17: horizontal moves -/

theorem Movement.leftAt_fix (now : Int) (st : Manager × Movement) (k i : Nat)
    (hs : st.1.OnlyAt i) (hk : k ≠ i) : Movement.leftAt now st k = st := by
  unfold Movement.leftAt
  rcases he : st.1.entities[k]? with _ | e
  · rfl
  · simp [hs k e he hk]

theorem Movement.leftAt_onlyAt (now : Int) (st : Manager × Movement) (i : Nat)
    (hs : st.1.OnlyAt i) : (Movement.leftAt now st i).1.OnlyAt i := by
  unfold Movement.leftAt
  rcases st.1.entities[i]? with _ | e
  · exact hs
  · dsimp only
    split
    · exact hs.setOnly _ _
    · exact hs

theorem Movement.rightAt_fix (now : Int) (st : Manager × Movement) (k i : Nat)
    (hs : st.1.OnlyAt i) (hk : k ≠ i) : Movement.rightAt now st k = st := by
  unfold Movement.rightAt
  rcases he : st.1.entities[k]? with _ | e
  · rfl
  · simp [hs k e he hk]

theorem Movement.rightAt_onlyAt (now : Int) (st : Manager × Movement) (i : Nat)
    (hs : st.1.OnlyAt i) : (Movement.rightAt now st i).1.OnlyAt i := by
  unfold Movement.rightAt
  rcases st.1.entities[i]? with _ | e
  · exact hs
  · dsimp only
    split
    · exact hs.setOnly _ _
    · exact hs

theorem Movement_update_middle (pre post : List Entity) (a : Entity) (player : Player)
    (self : Movement) (now : Int) (leftKey rightKey : Bool)
    (hpre : ∀ e ∈ pre, e.movable = false) (hpost : ∀ e ∈ post, e.movable = false)
    (ha : a.movable = true) :
    Movement.update (Manager.mk (pre ++ a :: post) player) self now leftKey rightKey
      = if now - self.m_clock > self.m_interval then
          if leftKey then
            if Collision.left (Manager.mk (pre ++ a :: post) player) a.position a.tile true then
              (Manager.mk
                (pre ++ Entity.mk a.tile ⟨a.position.x - 1, a.position.y⟩ true :: post) player,
               Movement.mk now self.m_interval)
            else (Manager.mk (pre ++ a :: post) player, self)
          else if rightKey then
            if Collision.right (Manager.mk (pre ++ a :: post) player) a.position a.tile true then
              (Manager.mk
                (pre ++ Entity.mk a.tile ⟨a.position.x + 1, a.position.y⟩ true :: post) player,
               Movement.mk now self.m_interval)
            else (Manager.mk (pre ++ a :: post) player, self)
          else (Manager.mk (pre ++ a :: post) player, self)
        else (Manager.mk (pre ++ a :: post) player, self) := by
  have honly := Manager.onlyAt_middle pre post a player hpre hpost
  have hlen : pre.length < (pre ++ a :: post).length := by simp
  unfold Movement.update
  split
  · split
    · rw [foldl_range_single (Movement.leftAt now) (fun st => st.1.OnlyAt pre.length) pre.length
        (fun st k hs hk => Movement.leftAt_fix now st k _ hs hk)
        (fun st hs => Movement.leftAt_onlyAt now st _ hs) _ _ honly, if_pos hlen]
      unfold Movement.leftAt
      simp only [List.getElem?_middle, ha, Bool.true_and, List.set_middle]
    · split
      · rw [foldl_range_single (Movement.rightAt now) (fun st => st.1.OnlyAt pre.length)
          pre.length (fun st k hs hk => Movement.rightAt_fix now st k _ hs hk)
          (fun st hs => Movement.rightAt_onlyAt now st _ hs) _ _ honly, if_pos hlen]
        unfold Movement.rightAt
        simp only [List.getElem?_middle, ha, Bool.true_and, List.set_middle]
      · rfl
  · rfl


/-- The cases of `Movement::update` on a store whose only active piece `a` has a square
shape with a set cell (static shapes square), with the one-sided wall tests of
`Collision::left` and `Collision::right`: nothing changes before the timer has elapsed;
with `Left` pressed `a` moves left exactly when every cell shifted left has column `≥ 0`
and lies on no static cell; with `Left` not pressed and `Right` pressed it moves right
exactly when every cell shifted right has column `< MAX_WIDTH` and lies on no static
cell. -/
theorem Movement.update_cases (pre post : List Entity) (a : Entity) (player : Player)
    (self : Movement) (now : Int) (leftKey rightKey : Bool)
    (hpre : ∀ e ∈ pre, e.movable = false) (hpost : ∀ e ∈ post, e.movable = false)
    (ha : a.movable = true) (hsq : a.tile.shape.Square) (hne : a.tile.shape.cells ≠ [])
    (hst : ∀ e ∈ pre ++ post, e.tile.shape.Square) :
    (¬ now - self.m_clock > self.m_interval →
      Movement.update (Manager.mk (pre ++ a :: post) player) self now leftKey rightKey
        = (Manager.mk (pre ++ a :: post) player, self)) ∧
    (now - self.m_clock > self.m_interval →
      (leftKey = true →
        ((∀ c ∈ a.cells, 0 ≤ c.1 - 1 ∧
            (Manager.mk (pre ++ a :: post) player).grid (c.1 - 1) c.2 = false) →
          (Movement.update (Manager.mk (pre ++ a :: post) player) self now leftKey rightKey).1
            = Manager.mk
                (pre ++ Entity.mk a.tile ⟨a.position.x - 1, a.position.y⟩ true :: post)
                player) ∧
        ((¬ ∀ c ∈ a.cells, 0 ≤ c.1 - 1 ∧
            (Manager.mk (pre ++ a :: post) player).grid (c.1 - 1) c.2 = false) →
          Movement.update (Manager.mk (pre ++ a :: post) player) self now leftKey rightKey
            = (Manager.mk (pre ++ a :: post) player, self))) ∧
      (leftKey = false → rightKey = true →
        ((∀ c ∈ a.cells, c.1 + 1 < MAX_WIDTH ∧
            (Manager.mk (pre ++ a :: post) player).grid (c.1 + 1) c.2 = false) →
          (Movement.update (Manager.mk (pre ++ a :: post) player) self now leftKey rightKey).1
            = Manager.mk
                (pre ++ Entity.mk a.tile ⟨a.position.x + 1, a.position.y⟩ true :: post)
                player) ∧
        ((¬ ∀ c ∈ a.cells, c.1 + 1 < MAX_WIDTH ∧
            (Manager.mk (pre ++ a :: post) player).grid (c.1 + 1) c.2 = false) →
          Movement.update (Manager.mk (pre ++ a :: post) player) self now leftKey rightKey
            = (Manager.mk (pre ++ a :: post) player, self))) ∧
      (leftKey = false → rightKey = false →
        Movement.update (Manager.mk (pre ++ a :: post) player) self now leftKey rightKey
          = (Manager.mk (pre ++ a :: post) player, self))) := by
  have hsquare := Manager.staticsSquare_middle pre post a player hpre hpost ha hst
  have hL := Collision.left_abs (Manager.mk (pre ++ a :: post) player) a.position a.tile
    a.movable true hsq hne hsquare
  have hR := Collision.right_abs (Manager.mk (pre ++ a :: post) player) a.position a.tile
    a.movable true hsq hne hsquare
  simp only [if_true] at hL hR
  rw [Movement_update_middle pre post a player self now leftKey rightKey hpre hpost ha]
  refine ⟨fun h => by rw [if_neg h], fun h => ?_⟩
  rw [if_pos h]
  refine ⟨?_, ?_, ?_⟩
  · intro hl
    subst hl
    simp only [if_true]
    refine ⟨fun hok => ?_, fun hno => ?_⟩
    · rw [if_pos (hL.2 hok)]
    · rw [if_neg (fun hc => hno (hL.1 hc))]
  · intro hl hr
    subst hl hr
    simp only [if_true, Bool.false_eq_true, if_false]
    refine ⟨fun hok => ?_, fun hno => ?_⟩
    · rw [if_pos (hR.2 hok)]
    · rw [if_neg (fun hc => hno (hR.1 hc))]
  · intro hl hr
    subst hl hr
    simp only [Bool.false_eq_true, if_false]

theorem Manager.middle_inj {pre post : List Entity} {a b : Entity} {p q : Player}
    (h : Manager.mk (pre ++ a :: post) p = Manager.mk (pre ++ b :: post) q) : a = b := by
  have h1 := congrArg Manager.entities h
  simp only at h1
  exact (List.cons.inj (List.append_cancel_left h1)).1

/-- C4. Take a store whose only active piece `a` has a square shape with a set cell and
lies in the columns `[0, MAX_WIDTH)` (static shapes square), and let the move timer have
elapsed.  If `Left` is pressed, `Movement::update` decrements `x` of `a` by one if and only
if every cell of `a` shifted one column left has its column in `[0, MAX_WIDTH)` and lies on
no cell of a static piece; otherwise it changes nothing.  If `Right` is pressed (and `Left`
is not: left is looked at first), it increments `x` by one if and only if every cell
shifted one column right has its column in `[0, MAX_WIDTH)` and lies on no static cell;
otherwise it changes nothing.  With no key it changes nothing.  In every case `y`, the
shape, the static pieces and the player are as before. -/
theorem Movement_update_spec (pre post : List Entity) (a : Entity) (player : Player)
    (self : Movement) (now : Int) (leftKey rightKey : Bool)
    (hpre : ∀ e ∈ pre, e.movable = false) (hpost : ∀ e ∈ post, e.movable = false)
    (ha : a.movable = true) (hsq : a.tile.shape.Square) (hne : a.tile.shape.cells ≠ [])
    (hst : ∀ e ∈ pre ++ post, e.tile.shape.Square)
    (hin : ∀ c ∈ a.cells, 0 ≤ c.1 ∧ c.1 < MAX_WIDTH)
    (helapsed : now - self.m_clock > self.m_interval) :
    (leftKey = true →
      ((Movement.update (Manager.mk (pre ++ a :: post) player) self now leftKey rightKey).1
          = Manager.mk
              (pre ++ Entity.mk a.tile ⟨a.position.x - 1, a.position.y⟩ true :: post) player ↔
        ∀ c ∈ a.cells, 0 ≤ c.1 - 1 ∧ c.1 - 1 < MAX_WIDTH ∧
          (Manager.mk (pre ++ a :: post) player).grid (c.1 - 1) c.2 = false) ∧
      ((¬ ∀ c ∈ a.cells, 0 ≤ c.1 - 1 ∧ c.1 - 1 < MAX_WIDTH ∧
          (Manager.mk (pre ++ a :: post) player).grid (c.1 - 1) c.2 = false) →
        Movement.update (Manager.mk (pre ++ a :: post) player) self now leftKey rightKey
          = (Manager.mk (pre ++ a :: post) player, self))) ∧
    (leftKey = false → rightKey = true →
      ((Movement.update (Manager.mk (pre ++ a :: post) player) self now leftKey rightKey).1
          = Manager.mk
              (pre ++ Entity.mk a.tile ⟨a.position.x + 1, a.position.y⟩ true :: post) player ↔
        ∀ c ∈ a.cells, 0 ≤ c.1 + 1 ∧ c.1 + 1 < MAX_WIDTH ∧
          (Manager.mk (pre ++ a :: post) player).grid (c.1 + 1) c.2 = false) ∧
      ((¬ ∀ c ∈ a.cells, 0 ≤ c.1 + 1 ∧ c.1 + 1 < MAX_WIDTH ∧
          (Manager.mk (pre ++ a :: post) player).grid (c.1 + 1) c.2 = false) →
        Movement.update (Manager.mk (pre ++ a :: post) player) self now leftKey rightKey
          = (Manager.mk (pre ++ a :: post) player, self))) ∧
    (leftKey = false → rightKey = false →
      Movement.update (Manager.mk (pre ++ a :: post) player) self now leftKey rightKey
        = (Manager.mk (pre ++ a :: post) player, self)) := by
  obtain ⟨hL, hR, hN⟩ := (Movement.update_cases pre post a player self now leftKey rightKey
    hpre hpost ha hsq hne hst).2 helapsed
  have eL : (∀ c ∈ a.cells, 0 ≤ c.1 - 1 ∧ c.1 - 1 < MAX_WIDTH ∧
        (Manager.mk (pre ++ a :: post) player).grid (c.1 - 1) c.2 = false) ↔
      ∀ c ∈ a.cells, 0 ≤ c.1 - 1 ∧
        (Manager.mk (pre ++ a :: post) player).grid (c.1 - 1) c.2 = false :=
    ⟨fun h c hc => ⟨(h c hc).1, (h c hc).2.2⟩,
      fun h c hc => ⟨(h c hc).1, by have := (hin c hc).2; omega, (h c hc).2⟩⟩
  have eR : (∀ c ∈ a.cells, 0 ≤ c.1 + 1 ∧ c.1 + 1 < MAX_WIDTH ∧
        (Manager.mk (pre ++ a :: post) player).grid (c.1 + 1) c.2 = false) ↔
      ∀ c ∈ a.cells, c.1 + 1 < MAX_WIDTH ∧
        (Manager.mk (pre ++ a :: post) player).grid (c.1 + 1) c.2 = false :=
    ⟨fun h c hc => ⟨(h c hc).2.1, (h c hc).2.2⟩,
      fun h c hc => ⟨by have := (hin c hc).1; omega, (h c hc).1, (h c hc).2⟩⟩
  refine ⟨fun hl => ?_, fun hl hr => ?_, hN⟩
  · obtain ⟨h1, h2⟩ := hL hl
    rw [eL]
    refine ⟨⟨fun hmoved => ?_, h1⟩, h2⟩
    by_contra hno
    rw [h2 hno] at hmoved
    have := congrArg (fun e : Entity => e.position.x) (Manager.middle_inj hmoved)
    simp only at this
    omega
  · obtain ⟨h1, h2⟩ := hR hl hr
    rw [eR]
    refine ⟨⟨fun hmoved => ?_, h1⟩, h2⟩
    by_contra hno
    rw [h2 hno] at hmoved
    have := congrArg (fun e : Entity => e.position.x) (Manager.middle_inj hmoved)
    simp only at this
    omega

/-- Instance of C4: the free square piece in the columns 0 and 1 above the pieces of
`boardStraddle`, `Right` pressed at time 201; the piece moves to the columns 1 and 2. -/
theorem Movement_update_spec_witness :
    (Movement.update (Manager.mk (boardStraddle.entities ++ pieceFree :: []) ⟨0, none⟩)
        ⟨0, 200⟩ 201 false true).1
      = Manager.mk
          (boardStraddle.entities ++ Entity.mk pieceFree.tile
            ⟨pieceFree.position.x + 1, pieceFree.position.y⟩ true :: [])
          ⟨0, none⟩ ∧
    ∀ c ∈ pieceFree.cells, 0 ≤ c.1 + 1 ∧ c.1 + 1 < MAX_WIDTH ∧
      (Manager.mk (boardStraddle.entities ++ pieceFree :: []) ⟨0, none⟩).grid (c.1 + 1) c.2
        = false :=
  ⟨(((Movement_update_spec boardStraddle.entities [] pieceFree ⟨0, none⟩ ⟨0, 200⟩ 201 false
      true (by decide) (by decide) rfl (by decide) (by decide) (by decide) (by decide)
      (by decide)).2.1 rfl rfl).1).2 (by decide), by decide⟩

/-! ### Claim C17: the rate limit -/

theorem Movement.leftAt_clock (now : Int) (init st : Manager × Movement) (k : Nat)
    (h : st = init ∨ st.2 = Movement.mk now init.2.m_interval) :
    Movement.leftAt now st k = init ∨
      (Movement.leftAt now st k).2 = Movement.mk now init.2.m_interval := by
  unfold Movement.leftAt
  rcases st.1.entities[k]? with _ | e
  · exact h
  · dsimp only
    split
    · right
      rcases h with h | h
      · rw [h]
      · rw [h]
    · exact h

theorem Movement.rightAt_clock (now : Int) (init st : Manager × Movement) (k : Nat)
    (h : st = init ∨ st.2 = Movement.mk now init.2.m_interval) :
    Movement.rightAt now st k = init ∨
      (Movement.rightAt now st k).2 = Movement.mk now init.2.m_interval := by
  unfold Movement.rightAt
  rcases st.1.entities[k]? with _ | e
  · exact h
  · dsimp only
    split
    · right
      rcases h with h | h
      · rw [h]
      · rw [h]
    · exact h

theorem foldl_invariant {σ β : Type} (f : σ → β → σ) (I : σ → Prop)
    (hI : ∀ s b, I s → I (f s b)) : ∀ (l : List β) (s : σ), I s → I (l.foldl f s) := by
  intro l
  induction l with
  | nil => intro s hs; exact hs
  | cons b l ih => intro s hs; exact ih _ (hI s b hs)

theorem Movement.update_clock (helper : Manager) (self : Movement) (now : Int)
    (leftKey rightKey : Bool) :
    Movement.update helper self now leftKey rightKey = (helper, self) ∨
      (Movement.update helper self now leftKey rightKey).2 = Movement.mk now self.m_interval := by
  unfold Movement.update
  split
  · split
    · exact foldl_invariant (Movement.leftAt now)
        (fun st => st = (helper, self) ∨ st.2 = Movement.mk now self.m_interval)
        (fun st k h => Movement.leftAt_clock now (helper, self) st k h) _ _ (Or.inl rfl)
    · split
      · exact foldl_invariant (Movement.rightAt now)
          (fun st => st = (helper, self) ∨ st.2 = Movement.mk now self.m_interval)
          (fun st k h => Movement.rightAt_clock now (helper, self) st k h) _ _ (Or.inl rfl)
      · exact Or.inl rfl
  · exact Or.inl rfl

/-- C17. Let `Movement::update` run at time `t1` and again at time `t2`, not more than the
interval of 200 ms later, with any key states.  Then at most one of the two updates changes
the store: if the first one changed anything (it moved a piece, which restarts the clock
at `t1`), the second one changes nothing. -/
theorem Movement_rate_limit (helper : Manager) (self : Movement) (t1 t2 : Int)
    (left1 right1 left2 right2 : Bool) (hint : self.m_interval = 200) (hclose : t2 - t1 ≤ 200) :
    (Movement.update helper self t1 left1 right1).1 = helper ∨
    Movement.update (Movement.update helper self t1 left1 right1).1
        (Movement.update helper self t1 left1 right1).2 t2 left2 right2
      = Movement.update helper self t1 left1 right1 := by
  rcases Movement.update_clock helper self t1 left1 right1 with h | h
  · left
    rw [h]
  · right
    generalize Movement.update helper self t1 left1 right1 = r at h
    rcases r with ⟨h1, m1⟩
    simp only at h
    subst h
    unfold Movement.update
    rw [if_neg]
    simp only [hint]
    omega

/-- Instance of C17: two `Left` signals on `boardFloor`, at times 201 and 300; the first
one moves the piece. -/
theorem Movement_rate_limit_witness :
    (Movement.update boardFloor ⟨0, 200⟩ 201 true false).1 = boardFloor ∨
    Movement.update (Movement.update boardFloor ⟨0, 200⟩ 201 true false).1
        (Movement.update boardFloor ⟨0, 200⟩ 201 true false).2 300 true false
      = Movement.update boardFloor ⟨0, 200⟩ 201 true false :=
  Movement_rate_limit boardFloor ⟨0, 200⟩ 201 300 true false true false rfl (by decide)


/-! ## Claim C5: rotation against walls and pieces -/

theorem Rotation_updateAt_fix (s : Manager) (k i : Nat) (hs : s.OnlyAt i) (hk : k ≠ i) :
    Rotation.updateAt s k = s := by
  unfold Rotation.updateAt
  rcases he : s.entities[k]? with _ | e
  · rfl
  · simp [hs k e he hk]

theorem Rotation_updateAt_onlyAt (s : Manager) (i : Nat) (hs : s.OnlyAt i) :
    (Rotation.updateAt s i).OnlyAt i := by
  unfold Rotation.updateAt
  rcases s.entities[i]? with _ | e
  · exact hs
  · dsimp only
    split
    · split
      · exact hs.setOnly _ _
      · exact hs
    · exact hs

theorem Rotation.rotated_square {s : Shape} (hs : s.Square) : (Rotation.rotated s).Square := by
  rw [Rotation.rotated_eq_tabulate hs]
  exact Shape.tabulate_square _ _

theorem Rotation.rotated_cells_ne {s : Shape} (hs : s.Square) (hne : s.cells ≠ []) :
    (Rotation.rotated s).cells ≠ [] := by
  obtain ⟨⟨x, y⟩, hc⟩ := List.exists_mem_of_ne_nil _ hne
  have hcell : s.cell y x = true := Shape.mem_cells.1 hc
  obtain ⟨hy, hx⟩ := hs.cell_lt hcell
  have : (s.length - 1 - y, x) ∈ (Rotation.rotated s).cells := by
    rw [Shape.mem_cells, Rotation.rotated_eq_tabulate hs,
      Shape.cell_tabulate _ hx (by omega)]
    have : s.length - 1 - (s.length - 1 - y) = y := by omega
    rw [this]
    exact hcell
  exact List.ne_nil_of_mem this

theorem Rotation_update_middle (pre post : List Entity) (a : Entity) (player : Player)
    (self : Rotation) (now : Int) (space : Bool)
    (hpre : ∀ e ∈ pre, e.movable = false) (hpost : ∀ e ∈ post, e.movable = false)
    (ha : a.movable = true) :
    Rotation.update (Manager.mk (pre ++ a :: post) player) self now space
      = if space && decide (now - self.m_clock > self.m_interval) then
          (if Collision.bottom (Manager.mk (pre ++ a :: post) player) a.position
                ⟨Rotation.rotated a.tile.shape, a.tile.color⟩ false
              && Collision.right (Manager.mk (pre ++ a :: post) player) a.position
                ⟨Rotation.rotated a.tile.shape, a.tile.color⟩ false
              && Collision.left (Manager.mk (pre ++ a :: post) player) a.position
                ⟨Rotation.rotated a.tile.shape, a.tile.color⟩ false then
            Manager.mk
              (pre ++ Entity.mk ⟨Rotation.rotated a.tile.shape, a.tile.color⟩ a.position true
                :: post) player
          else Manager.mk (pre ++ a :: post) player,
           Rotation.mk now self.m_interval)
        else (Manager.mk (pre ++ a :: post) player, self) := by
  have honly := Manager.onlyAt_middle pre post a player hpre hpost
  have hlen : pre.length < (pre ++ a :: post).length := by simp
  unfold Rotation.update
  split
  · rw [foldl_range_single Rotation.updateAt (fun s => s.OnlyAt pre.length) pre.length
      (fun s k hs hk => Rotation_updateAt_fix s k _ hs hk)
      (fun s hs => Rotation_updateAt_onlyAt s _ hs) _ _ honly, if_pos hlen]
    unfold Rotation.updateAt
    simp only [List.getElem?_middle, ha, if_true, List.set_middle]
  · rfl


/-- C5. On a store whose only active piece `a` has a square shape with a set cell (static
shapes square), a triggered rotation (`Space` pressed, timer elapsed) replaces the shape of
`a` by the rotated shape exactly when the rotated shape at the unchanged position has every
cell in a column of `[0, MAX_WIDTH)`, in a row below `MAX_HEIGHT`, and on no static cell;
otherwise the store is left as it was, in particular when a cell of the rotated shape
would have a negative column.  Position, marker, colour, the other pieces and the player
are never changed. -/
theorem Rotation_update_spec (pre post : List Entity) (a : Entity) (player : Player)
    (self : Rotation) (now : Int)
    (hpre : ∀ e ∈ pre, e.movable = false) (hpost : ∀ e ∈ post, e.movable = false)
    (ha : a.movable = true) (hsq : a.tile.shape.Square) (hne : a.tile.shape.cells ≠ [])
    (hst : ∀ e ∈ pre ++ post, e.tile.shape.Square)
    (helapsed : now - self.m_clock > self.m_interval) :
    ((∀ c ∈ a.turned.cells, 0 ≤ c.1 ∧ c.1 < MAX_WIDTH ∧ c.2 < MAX_HEIGHT ∧
        (Manager.mk (pre ++ a :: post) player).grid c.1 c.2 = false) →
      (Rotation.update (Manager.mk (pre ++ a :: post) player) self now true).1
        = Manager.mk (pre ++ a.turned :: post) player) ∧
    ((¬ ∀ c ∈ a.turned.cells, 0 ≤ c.1 ∧ c.1 < MAX_WIDTH ∧ c.2 < MAX_HEIGHT ∧
        (Manager.mk (pre ++ a :: post) player).grid c.1 c.2 = false) →
      (Rotation.update (Manager.mk (pre ++ a :: post) player) self now true).1
        = Manager.mk (pre ++ a :: post) player) ∧
    ((∃ c ∈ a.turned.cells, c.1 < 0) →
      (Rotation.update (Manager.mk (pre ++ a :: post) player) self now true).1
        = Manager.mk (pre ++ a :: post) player) ∧
    a.turned.position = a.position := by
  have hsquare := Manager.staticsSquare_middle pre post a player hpre hpost ha hst
  have hrs := Rotation.rotated_square hsq
  have hrn := Rotation.rotated_cells_ne hsq hne
  have hB := Collision.bottom_abs (Manager.mk (pre ++ a :: post) player) a.position
    ⟨Rotation.rotated a.tile.shape, a.tile.color⟩ a.movable false hrs hrn hsquare
  have hR := Collision.right_abs (Manager.mk (pre ++ a :: post) player) a.position
    ⟨Rotation.rotated a.tile.shape, a.tile.color⟩ a.movable false hrs hrn hsquare
  have hL := Collision.left_abs (Manager.mk (pre ++ a :: post) player) a.position
    ⟨Rotation.rotated a.tile.shape, a.tile.color⟩ a.movable false hrs hrn hsquare
  simp only [Bool.false_eq_true, if_false, add_zero, sub_zero] at hB hR hL
  have hlegal : (Collision.bottom (Manager.mk (pre ++ a :: post) player) a.position
        ⟨Rotation.rotated a.tile.shape, a.tile.color⟩ false
      && Collision.right (Manager.mk (pre ++ a :: post) player) a.position
        ⟨Rotation.rotated a.tile.shape, a.tile.color⟩ false
      && Collision.left (Manager.mk (pre ++ a :: post) player) a.position
        ⟨Rotation.rotated a.tile.shape, a.tile.color⟩ false) = true ↔
      ∀ c ∈ a.turned.cells, 0 ≤ c.1 ∧ c.1 < MAX_WIDTH ∧ c.2 < MAX_HEIGHT ∧
        (Manager.mk (pre ++ a :: post) player).grid c.1 c.2 = false := by
    rw [Bool.and_eq_true, Bool.and_eq_true, hB, hR, hL]
    constructor
    · rintro ⟨⟨h1, h2⟩, h3⟩ c hc
      exact ⟨(h3 c hc).1, (h2 c hc).1, (h1 c hc).1, (h1 c hc).2⟩
    · intro h
      exact ⟨⟨fun c hc => ⟨(h c hc).2.2.1, (h c hc).2.2.2⟩,
        fun c hc => ⟨(h c hc).2.1, (h c hc).2.2.2⟩⟩,
        fun c hc => ⟨(h c hc).1, (h c hc).2.2.2⟩⟩
  have hturn : a.turned
      = Entity.mk ⟨Rotation.rotated a.tile.shape, a.tile.color⟩ a.position true := by
    unfold Entity.turned
    rw [ha]
  have hno : (¬ ∀ c ∈ a.turned.cells, 0 ≤ c.1 ∧ c.1 < MAX_WIDTH ∧ c.2 < MAX_HEIGHT ∧
        (Manager.mk (pre ++ a :: post) player).grid c.1 c.2 = false) →
      (Rotation.update (Manager.mk (pre ++ a :: post) player) self now true).1
        = Manager.mk (pre ++ a :: post) player := by
    intro h
    rw [Rotation_update_middle pre post a player self now true hpre hpost ha]
    simp only [Bool.true_and, decide_eq_true_eq, helapsed, if_true]
    rw [if_neg (fun hc => h (hlegal.1 hc))]
  refine ⟨fun hok => ?_, hno, ?_, rfl⟩
  · rw [Rotation_update_middle pre post a player self now true hpre hpost ha]
    simp only [Bool.true_and, decide_eq_true_eq, helapsed, if_true]
    rw [if_pos (hlegal.2 hok), hturn]
  · rintro ⟨c, hc, hneg⟩
    apply hno
    intro h
    have := (h c hc).1
    omega

/-- Instance of C5: the tee piece flush against the left wall, above the pieces of
`boardStraddle`. -/
theorem Rotation_update_spec_witness :
    ((∀ c ∈ pieceTee.turned.cells, 0 ≤ c.1 ∧ c.1 < MAX_WIDTH ∧ c.2 < MAX_HEIGHT ∧
        (Manager.mk (boardStraddle.entities ++ pieceTee :: []) ⟨0, none⟩).grid c.1 c.2
          = false) →
      (Rotation.update (Manager.mk (boardStraddle.entities ++ pieceTee :: []) ⟨0, none⟩)
          ⟨0, 500⟩ 501 true).1
        = Manager.mk (boardStraddle.entities ++ pieceTee.turned :: []) ⟨0, none⟩) ∧
    ((¬ ∀ c ∈ pieceTee.turned.cells, 0 ≤ c.1 ∧ c.1 < MAX_WIDTH ∧ c.2 < MAX_HEIGHT ∧
        (Manager.mk (boardStraddle.entities ++ pieceTee :: []) ⟨0, none⟩).grid c.1 c.2
          = false) →
      (Rotation.update (Manager.mk (boardStraddle.entities ++ pieceTee :: []) ⟨0, none⟩)
          ⟨0, 500⟩ 501 true).1
        = Manager.mk (boardStraddle.entities ++ pieceTee :: []) ⟨0, none⟩) ∧
    ((∃ c ∈ pieceTee.turned.cells, c.1 < 0) →
      (Rotation.update (Manager.mk (boardStraddle.entities ++ pieceTee :: []) ⟨0, none⟩)
          ⟨0, 500⟩ 501 true).1
        = Manager.mk (boardStraddle.entities ++ pieceTee :: []) ⟨0, none⟩) ∧
    pieceTee.turned.position = pieceTee.position :=
  Rotation_update_spec boardStraddle.entities [] pieceTee ⟨0, none⟩ ⟨0, 500⟩ 501
    (by decide) (by decide) rfl (by decide) (by decide) (by decide) (by decide)


/-! ## Claims C1 and C18: compaction of a piece straddling the cleared row -/

/-- C1, the divergence. `boardStraddle` is a board of square, pairwise non-overlapping
static pieces inside the board whose only full row is row 22; the cell `(0, 20)` is
occupied, so after the pass the cell `(0, 21)` should be.  After `Cleaner::update` the score
is 10 and the cell `(0, 21)` is empty (as is `(9, 21)`): the upright pieces in columns 0
and 9 have lost a cell. -/
theorem Cleaner_update_straddle_grid :
    boardStraddle.StaticsSquare ∧ boardStraddle.NonOverlapping ∧ boardStraddle.InBoard ∧
    (∀ x ∈ List.range 10, boardStraddle.grid x 22 = true) ∧
    (∀ r ∈ List.range 24, r ≠ 22 → ∃ x ∈ List.range 10, boardStraddle.grid x r = false) ∧
    boardStraddle.grid 0 20 = true ∧ boardStraddle.grid 9 20 = true ∧
    (Cleaner.update boardStraddle).player.score = 10 ∧
    (Cleaner.update boardStraddle).grid 0 21 = false ∧
    (Cleaner.update boardStraddle).grid 9 21 = false ∧
    (Cleaner.update boardStraddle).entities.map Entity.cells
      = [[(0, 22), (0, 23)], [(9, 22), (9, 23)]] := by
  decide

/-- C18, the divergence. The upright long piece at `y = 20` straddles row 22 with
`k = 22 - 20 = 2`.  After the clear its shape holds the cells of local rows 0, 1 and 3 of
column 2; the straddle loop, which runs over the local rows 0, 1 in ascending order, leaves
the cells of local rows 2 and 3 only: the cell of row 0 is moved to row 1, merged with the
cell there, and both end as the one cell of row 2. -/
theorem Cleaner_pushRows_merges :
    (Entity.static uprightLong Color.Red (-2) 20).position.y ≤ 22 ∧
    ¬ ((Cleaner.erase (Entity.static uprightLong Color.Red (-2) 20) 22).position.y
        + (Cleaner.erase (Entity.static uprightLong Color.Red (-2) 20) 22).tile.bottom ≤ 22) ∧
    (Cleaner.erase (Entity.static uprightLong Color.Red (-2) 20) 22).tile.shape.cells
      = [(2, 0), (2, 1), (2, 3)] ∧
    (Cleaner.pushRows
        (Cleaner.erase (Entity.static uprightLong Color.Red (-2) 20) 22).tile.shape
        (22 - 20)).cells = [(2, 2), (2, 3)] ∧
    (Cleaner.sweep (Cleaner.erase (Entity.static uprightLong Color.Red (-2) 20) 22) 22).map
        Entity.cells = some [(0, 22), (0, 23)] := by
  decide


/-! ## Claim C13: overlapping static pieces -/

/-- C13, the divergence. The inputs `overlapTrace` lead the loop of `main` from its initial
state to a state in which two static pieces overlap: the sixth piece, upright in column 7
over the rows 0 … 3, and the seventh, flat in row 1 over the columns 5 … 8, both hold the
board cell `(7, 1)`.  The seventh piece was created by `Factory::update` on top of the
sixth (the status became `END`), kept its `Movable` marker, and was turned into a static
piece by `Collision::update` in the next iteration. -/
theorem Game_run_overlap :
    Game.Reachable (Game.run Game.init overlapTrace) ∧
    ((Game.run Game.init (overlapTrace.take 68)).factory.state = State.END ∧
      (Game.run Game.init overlapTrace).helper.statics.map Entity.cells
        = [[(7, 20), (7, 21), (7, 22), (7, 23)], [(7, 16), (7, 17), (7, 18), (7, 19)],
           [(7, 12), (7, 13), (7, 14), (7, 15)], [(7, 8), (7, 9), (7, 10), (7, 11)],
           [(7, 4), (7, 5), (7, 6), (7, 7)], [(7, 0), (7, 1), (7, 2), (7, 3)],
           [(5, 1), (6, 1), (7, 1), (8, 1)]] ∧
      ¬ (Game.run Game.init overlapTrace).helper.NonOverlapping) :=
  ⟨⟨overlapTrace, rfl⟩, by decide⟩


/-! ## Writing cells -/

theorem Shape.setCell_length (s : Shape) (y x : Nat) (b : Bool) :
    (s.setCell y x b).length = s.length := by
  simp [Shape.setCell]

theorem Shape.setCell_getD_ne (s : Shape) {y r : Nat} (x : Nat) (b : Bool) (h : r ≠ y) :
    (s.setCell y x b).getD r [] = s.getD r [] := by
  simp only [Shape.setCell, List.getD_eq_getElem?_getD]
  rw [List.getElem?_set_ne (Ne.symm h)]

theorem Shape.setCell_getD_self (s : Shape) (y x : Nat) (b : Bool) :
    (s.setCell y x b).getD y [] = (s.getD y []).set x b := by
  simp only [Shape.setCell, List.getD_eq_getElem?_getD]
  by_cases h : y < s.length
  · rw [List.getElem?_set_self h]
    rfl
  · rw [List.set_eq_of_length_le (by omega)]
    rw [List.getElem?_eq_none (by omega)]
    rfl

theorem Shape.setCell_row_length (s : Shape) (y x : Nat) (b : Bool) (r : Nat) :
    ((s.setCell y x b).getD r []).length = (s.getD r []).length := by
  by_cases h : r = y
  · subst h
    rw [Shape.setCell_getD_self, List.length_set]
  · rw [Shape.setCell_getD_ne s x b h]

theorem Shape.cell_setCell (s : Shape) (y x : Nat) (b : Bool) (r c : Nat) :
    (s.setCell y x b).cell r c
      = if r = y ∧ c = x ∧ x < (s.getD y []).length then b else s.cell r c := by
  unfold Shape.cell
  by_cases h : r = y
  · subst h
    rw [Shape.setCell_getD_self]
    simp only [List.getD_eq_getElem?_getD, true_and]
    by_cases hc : c = x
    · subst hc
      by_cases hx : c < (s.getD r []).length
      · rw [if_pos ⟨rfl, by simpa [List.getD_eq_getElem?_getD] using hx⟩,
          List.getElem?_set_self (by simpa [List.getD_eq_getElem?_getD] using hx)]
        rfl
      · rw [if_neg (fun hh => hx (by simpa [List.getD_eq_getElem?_getD] using hh.2)),
          List.set_eq_of_length_le (by simpa [List.getD_eq_getElem?_getD] using hx)]
    · rw [if_neg (fun hh => hc hh.1), List.getElem?_set_ne (Ne.symm hc)]
  · rw [Shape.setCell_getD_ne s x b h, if_neg (fun hh => h hh.1)]

theorem Shape.setCell_square {s : Shape} (hs : s.Square) (y x : Nat) (b : Bool) :
    (s.setCell y x b).Square := by
  intro row hrow
  obtain ⟨r, hr, rfl⟩ := List.getElem_of_mem hrow
  rw [Shape.setCell_length] at hr ⊢
  have h1 := Shape.setCell_row_length s y x b r
  rw [List.getD_eq_getElem _ _ (by rw [Shape.setCell_length]; exact hr),
    hs.row_length hr] at h1
  exact h1


/-! ## The clearing loop of `Cleaner::update` -/

theorem Shape.cell_setCell_false (s : Shape) (y x r c : Nat) :
    (s.setCell y x false).cell r c = (s.cell r c && !(decide (r = y) && decide (c = x))) := by
  rw [Shape.cell_setCell]
  by_cases h1 : r = y
  · by_cases h2 : c = x
    · subst h1 h2
      by_cases h3 : c < (s.getD r []).length
      · rw [if_pos ⟨rfl, rfl, h3⟩]
        simp
      · have : s.cell r c = false := by
          rw [← Bool.not_eq_true]
          intro h
          exact h3 (Shape.cell_bounds h).2
        rw [if_neg (fun h => h3 h.2.2), this]
        simp
    · simp [h1, h2]
  · simp [h1]

/-- Clearing the cells of row `k` at the columns `xs`. -/
theorem Shape.foldl_setCell_false (xs : List Nat) (k : Nat) (s : Shape) :
    (xs.foldl (fun s x => s.setCell k x false) s).length = s.length ∧
    (∀ r, ((xs.foldl (fun s x => s.setCell k x false) s).getD r []).length
        = (s.getD r []).length) ∧
    (∀ r c, (xs.foldl (fun s x => s.setCell k x false) s).cell r c
        = (s.cell r c && !(decide (r = k) && decide (c ∈ xs)))) := by
  induction xs generalizing s with
  | nil => simp
  | cons x xs ih =>
    obtain ⟨h1, h2, h3⟩ := ih (s.setCell k x false)
    simp only [List.foldl_cons]
    refine ⟨by rw [h1, Shape.setCell_length], fun r => by rw [h2, Shape.setCell_row_length],
      fun r c => ?_⟩
    rw [h3, Shape.cell_setCell_false]
    by_cases hr : r = k <;> by_cases hc : c = x <;> by_cases hm : c ∈ xs <;>
      simp [hr, hc, hm]

theorem sizeT_of_nonneg {v : Int} (h0 : 0 ≤ v) (h1 : v < 2 ^ 64) : sizeT v = v.toNat := by
  unfold sizeT
  rw [Int.emod_eq_of_lt h0 h1]

theorem sizeT_of_neg {v : Int} (h0 : v < 0) (h1 : -(2 ^ 64) ≤ v) :
    (sizeT v : Int) = v + 2 ^ 64 := by
  unfold sizeT
  have h2 : v % 2 ^ 64 = v + 2 ^ 64 := by
    rw [← Int.add_emod_self, Int.emod_eq_of_lt (by omega) (by omega)]
  rw [h2]
  omega

/-- The guard of the collecting lambda, for a static piece and a row in the range of
`int`: the piece is looked at exactly when the local row `line - y` is a row of its shape. -/
theorem Cleaner.skips_eq_false_iff {e : Entity} (hm : e.movable = false) (hw : e.WellFormed)
    {line : Int} (h0 : 0 ≤ line) (h1 : line < 2 ^ 31) :
    Cleaner.skips e line = false ↔
      0 ≤ line - e.position.y ∧ line - e.position.y < e.tile.shape.length := by
  obtain ⟨-, hlen, hy0, hy1⟩ := hw
  unfold Cleaner.skips
  rw [hm, Bool.false_or, decide_eq_false_iff_not]
  by_cases hv : 0 ≤ line - e.position.y
  · rw [sizeT_of_nonneg hv (by omega)]
    omega
  · have := sizeT_of_neg (v := line - e.position.y) (by omega) (by omega)
    omega

theorem Cleaner.sizeT_local {e : Entity} (hw : e.WellFormed)
    {line : Int} (h1 : line < 2 ^ 31) (hv : 0 ≤ line - e.position.y) :
    sizeT (line - e.position.y) = (line - e.position.y).toNat := by
  obtain ⟨-, hlen, hy0, hy1⟩ := hw
  exact sizeT_of_nonneg hv (by omega)


theorem Cleaner.collect_movable {e : Entity} (hm : e.movable = true) (line : Int) :
    Cleaner.collect e line = [] := by
  simp [Cleaner.collect, Cleaner.skips, hm]

theorem Cleaner.erase_movable {e : Entity} (hm : e.movable = true) (line : Int) :
    Cleaner.erase e line = e := by
  unfold Cleaner.erase
  rw [Cleaner.collect_movable hm]
  rfl

theorem Cleaner.erase_frame (e : Entity) (line : Int) :
    (Cleaner.erase e line).position = e.position ∧
    (Cleaner.erase e line).movable = e.movable ∧
    (Cleaner.erase e line).tile.color = e.tile.color ∧
    (Cleaner.erase e line).tile.shape.length = e.tile.shape.length ∧
    ∀ r, ((Cleaner.erase e line).tile.shape.getD r []).length
      = (e.tile.shape.getD r []).length :=
  ⟨rfl, rfl, rfl, (Shape.foldl_setCell_false _ _ _).1, (Shape.foldl_setCell_false _ _ _).2.1⟩

theorem Shape.square_of_dims {s t : Shape} (hs : s.Square) (hl : t.length = s.length)
    (hr : ∀ r, (t.getD r []).length = (s.getD r []).length) : t.Square := by
  intro row hrow
  obtain ⟨r, hlt, rfl⟩ := List.getElem_of_mem hrow
  have h1 := hr r
  rw [List.getD_eq_getElem _ _ hlt, hs.row_length (by omega)] at h1
  rw [h1, hl]

theorem Cleaner.erase_square {e : Entity} (line : Int) (hs : e.tile.shape.Square) :
    (Cleaner.erase e line).tile.shape.Square :=
  Shape.square_of_dims hs (Cleaner.erase_frame e line).2.2.2.1 (Cleaner.erase_frame e line).2.2.2.2

theorem Cleaner.erase_cell_le (e : Entity) (line : Int) {r c : Nat}
    (h : (Cleaner.erase e line).tile.shape.cell r c = true) : e.tile.shape.cell r c = true := by
  unfold Cleaner.erase at h
  simp only [(Shape.foldl_setCell_false _ _ _).2.2, Bool.and_eq_true] at h
  exact h.1

/-- After the clearing loop a static piece has lost exactly its cells on row `line`. -/
theorem Cleaner.erase_cell {e : Entity} (hm : e.movable = false) (hw : e.WellFormed)
    {line : Int} (h0 : 0 ≤ line) (h1 : line < 2 ^ 31) (r c : Nat) :
    (Cleaner.erase e line).tile.shape.cell r c
      = (e.tile.shape.cell r c && decide (e.position.y + r ≠ line)) := by
  have hskip := Cleaner.skips_eq_false_iff hm hw h0 h1
  unfold Cleaner.erase
  simp only [(Shape.foldl_setCell_false _ _ _).2.2]
  cases hcell : e.tile.shape.cell r c
  · simp
  · obtain ⟨hr, hc⟩ := hw.1.cell_lt hcell
    simp only [Bool.true_and]
    cases hs : Cleaner.skips e line
    · obtain ⟨hv0, hv1⟩ := hskip.1 hs
      have hk := Cleaner.sizeT_local hw h1 hv0
      have hwidth : e.tile.shape.width = e.tile.shape.length := hw.1.width_eq (by omega)
      by_cases hrow : e.position.y + (r : Int) = line
      · have hrk : r = sizeT (line - e.position.y) := by rw [hk]; omega
        have hmem : c ∈ Cleaner.collect e line := by
          unfold Cleaner.collect
          rw [hs]
          simp only [Bool.false_eq_true, if_false, List.mem_filter, List.mem_range]
          exact ⟨by omega, by rw [← hrk]; exact hcell⟩
        simp [hrow, hrk.symm, hmem]
      · have hrk : r ≠ sizeT (line - e.position.y) := by rw [hk]; omega
        simp [hrow, hrk]
    · have hrow : e.position.y + (r : Int) ≠ line := by
        intro h
        have : Cleaner.skips e line = false := hskip.2 ⟨by omega, by omega⟩
        rw [hs] at this
        exact Bool.noConfusion this
      simp [Cleaner.collect, hs, hrow]

theorem Cleaner.erase_wellFormed {e : Entity} (line : Int) (hw : e.WellFormed) :
    (Cleaner.erase e line).WellFormed := by
  obtain ⟨h1, h2, h3, h4⟩ := hw
  refine ⟨Cleaner.erase_square line h1, ?_, h3, h4⟩
  rw [(Cleaner.erase_frame e line).2.2.2.1]
  exact h2


/-! ## The straddle loop of `Cleaner::update` -/

theorem Cleaner.pushStep_spec (s : Shape) (y x : Nat) :
    (if s.cell y x then (s.setCell y x false).setCell (y + 1) x true else s).length = s.length ∧
    (∀ r, ((if s.cell y x then (s.setCell y x false).setCell (y + 1) x true else s).getD r
        []).length = (s.getD r []).length) ∧
    (∀ r, r ≠ y → r ≠ y + 1 →
      (if s.cell y x then (s.setCell y x false).setCell (y + 1) x true else s).getD r []
        = s.getD r []) ∧
    (∀ r c, (if s.cell y x then (s.setCell y x false).setCell (y + 1) x true else s).cell r c
        = true → s.cell r c = true ∨ (r = y + 1 ∧ c = x ∧ s.cell y x = true)) := by
  cases h : s.cell y x
  · simp
  · simp only [if_true]
    refine ⟨by rw [Shape.setCell_length, Shape.setCell_length],
      fun r => by rw [Shape.setCell_row_length, Shape.setCell_row_length],
      fun r h1 h2 => by rw [Shape.setCell_getD_ne _ _ _ h2, Shape.setCell_getD_ne _ _ _ h1],
      fun r c hc => ?_⟩
    rw [Shape.cell_setCell] at hc
    split at hc
    · rename_i hh
      exact Or.inr ⟨hh.1, hh.2.1, trivial⟩
    · rw [Shape.cell_setCell_false] at hc
      simp only [Bool.and_eq_true] at hc
      exact Or.inl hc.1

theorem Cleaner.pushFold_spec (y : Nat) (xs : List Nat) (s : Shape) :
    (xs.foldl (fun s x => if s.cell y x then (s.setCell y x false).setCell (y + 1) x true
        else s) s).length = s.length ∧
    (∀ r, ((xs.foldl (fun s x => if s.cell y x then (s.setCell y x false).setCell (y + 1) x true
        else s) s).getD r []).length = (s.getD r []).length) ∧
    (∀ r, r ≠ y → r ≠ y + 1 →
      (xs.foldl (fun s x => if s.cell y x then (s.setCell y x false).setCell (y + 1) x true
        else s) s).getD r [] = s.getD r []) ∧
    (∀ r c, (xs.foldl (fun s x => if s.cell y x then (s.setCell y x false).setCell (y + 1) x true
        else s) s).cell r c = true → s.cell r c = true ∨ (r = y + 1 ∧ s.cell y c = true)) := by
  induction xs generalizing s with
  | nil => exact ⟨rfl, fun _ => rfl, fun _ _ _ => rfl, fun _ _ h => Or.inl h⟩
  | cons x xs ih =>
    obtain ⟨a1, a2, a3, a4⟩ := Cleaner.pushStep_spec s y x
    obtain ⟨b1, b2, b3, b4⟩ :=
      ih (if s.cell y x then (s.setCell y x false).setCell (y + 1) x true else s)
    simp only [List.foldl_cons]
    refine ⟨by rw [b1, a1], fun r => by rw [b2, a2], fun r h1 h2 => by rw [b3 r h1 h2, a3 r h1 h2],
      fun r c hc => ?_⟩
    rcases b4 r c hc with h | ⟨h1, h2⟩
    · rcases a4 r c h with h | ⟨h1, h2, h3⟩
      · exact Or.inl h
      · exact Or.inr ⟨h1, h2 ▸ h3⟩
    · rcases a4 y c h2 with h | ⟨h3, -, -⟩
      · exact Or.inr ⟨h1, h⟩
      · omega

theorem Cleaner.pushRow_spec (s : Shape) (y : Nat) :
    (Cleaner.pushRow s y).length = s.length ∧
    (∀ r, ((Cleaner.pushRow s y).getD r []).length = (s.getD r []).length) ∧
    (∀ r, r ≠ y → r ≠ y + 1 → (Cleaner.pushRow s y).getD r [] = s.getD r []) ∧
    (∀ r c, (Cleaner.pushRow s y).cell r c = true →
      s.cell r c = true ∨ (r = y + 1 ∧ s.cell y c = true)) :=
  Cleaner.pushFold_spec y _ s

theorem Cleaner.pushRows_fold_spec (m : Nat) (ys : List Nat) (hys : ∀ y ∈ ys, y < m)
    (s : Shape) :
    (ys.foldl Cleaner.pushRow s).length = s.length ∧
    (∀ r, ((ys.foldl Cleaner.pushRow s).getD r []).length = (s.getD r []).length) ∧
    (∀ r, m < r → (ys.foldl Cleaner.pushRow s).getD r [] = s.getD r []) ∧
    (∀ r c, (ys.foldl Cleaner.pushRow s).cell r c = true →
      s.cell r c = true ∨ (r ≤ m ∧ ∃ q, q < r ∧ s.cell q c = true)) := by
  induction ys generalizing s with
  | nil => exact ⟨rfl, fun _ => rfl, fun _ _ => rfl, fun _ _ h => Or.inl h⟩
  | cons y ys ih =>
    have hy : y < m := hys y (List.mem_cons_self _ _)
    obtain ⟨a1, a2, a3, a4⟩ := Cleaner.pushRow_spec s y
    obtain ⟨b1, b2, b3, b4⟩ :=
      ih (fun z hz => hys z (List.mem_cons_of_mem _ hz)) (Cleaner.pushRow s y)
    simp only [List.foldl_cons]
    refine ⟨by rw [b1, a1], fun r => by rw [b2, a2],
      fun r hr => by rw [b3 r hr, a3 r (by omega) (by omega)], fun r c hc => ?_⟩
    rcases b4 r c hc with h | ⟨h1, q, hq, h2⟩
    · rcases a4 r c h with h | ⟨h1, h2⟩
      · exact Or.inl h
      · exact Or.inr ⟨by omega, y, by omega, h2⟩
    · rcases a4 q c h2 with h | ⟨h3, h4⟩
      · exact Or.inr ⟨h1, q, hq, h⟩
      · exact Or.inr ⟨h1, y, by omega, h4⟩

theorem Cleaner.pushRows_spec (s : Shape) (k : Int) :
    (Cleaner.pushRows s k).length = s.length ∧
    (∀ r, ((Cleaner.pushRows s k).getD r []).length = (s.getD r []).length) ∧
    (∀ r, k.toNat < r → (Cleaner.pushRows s k).getD r [] = s.getD r []) ∧
    (∀ r c, (Cleaner.pushRows s k).cell r c = true →
      s.cell r c = true ∨ (r ≤ k.toNat ∧ ∃ q, q < r ∧ s.cell q c = true)) := by
  obtain ⟨h1, h2, h3, h4⟩ := Cleaner.pushRows_fold_spec (min k.toNat s.length)
    (List.range (min k.toNat s.length)) (fun y hy => List.mem_range.1 hy) s
  refine ⟨h1, h2, fun r hr => h3 r (by omega), fun r c hc => ?_⟩
  rcases h4 r c hc with h | ⟨h5, h6⟩
  · exact Or.inl h
  · exact Or.inr ⟨by omega, h6⟩


/-! ## The sweeping lambda of `Cleaner::update` -/

theorem Shape.rowAny_congr {s t : Shape} {r : Nat} (h : t.getD r [] = s.getD r []) :
    t.rowAny r = s.rowAny r := by
  unfold Shape.rowAny Shape.cell
  rw [h]

theorem Shape.empty_eq_false_iff (s : Shape) :
    s.empty = false ↔ ∃ y, y < s.length ∧ s.rowAny y = true := by
  unfold Shape.empty
  rw [Bool.not_eq_false', List.any_eq_true]
  simp only [List.mem_range]

theorem Shape.empty_eq_false_of_cell {s : Shape} {y x : Nat} (h : s.cell y x = true) :
    s.empty = false :=
  (Shape.empty_eq_false_iff s).2 ⟨y, (Shape.cell_bounds h).1, Shape.rowAny_iff.2 ⟨x, h⟩⟩

theorem Shape.exists_cell_of_not_empty {s : Shape} (h : s.empty = false) :
    ∃ y x, s.cell y x = true := by
  obtain ⟨y, -, hy⟩ := (Shape.empty_eq_false_iff s).1 h
  obtain ⟨x, hx⟩ := Shape.rowAny_iff.1 hy
  exact ⟨y, x, hx⟩

theorem Cleaner.sweep_movable {e : Entity} (hm : e.movable = true) (line : Int) :
    Cleaner.sweep e line = some e := by
  simp [Cleaner.sweep, hm]

theorem Cleaner.sweep_frame {e b : Entity} {line : Int} (h : Cleaner.sweep e line = some b) :
    b.movable = e.movable ∧ b.tile.color = e.tile.color ∧ b.position.x = e.position.x ∧
    b.tile.shape.length = e.tile.shape.length ∧
    (∀ r, (b.tile.shape.getD r []).length = (e.tile.shape.getD r []).length) ∧
    (b.position.y = e.position.y ∨ (b.position.y = e.position.y + 1 ∧ e.position.y ≤ line)) := by
  unfold Cleaner.sweep at h
  split at h
  · cases h; exact ⟨rfl, rfl, rfl, rfl, fun _ => rfl, Or.inl rfl⟩
  · split at h
    · exact Option.noConfusion h
    · split at h
      · rename_i hy
        split at h
        · cases h; exact ⟨rfl, rfl, rfl, rfl, fun _ => rfl, Or.inr ⟨rfl, hy⟩⟩
        · cases h
          exact ⟨rfl, rfl, rfl, (Cleaner.pushRows_spec _ _).1, (Cleaner.pushRows_spec _ _).2.1,
            Or.inl rfl⟩
      · cases h; exact ⟨rfl, rfl, rfl, rfl, fun _ => rfl, Or.inl rfl⟩

theorem Cleaner.sweep_nonempty {e b : Entity} {line : Int} (hm : e.movable = false)
    (h : Cleaner.sweep e line = some b) : b.tile.shape.empty = false := by
  unfold Cleaner.sweep at h
  rw [hm] at h
  simp only [Bool.false_eq_true, if_false] at h
  split at h
  · exact Option.noConfusion h
  · rename_i hemp
    simp only [Bool.not_eq_true] at hemp
    split at h
    · rename_i hy
      split at h
      · cases h; exact hemp
      · rename_i hb
        cases h
        have hpos : 0 < e.tile.bottom := by omega
        have hrow : e.tile.shape.rowAny e.tile.bottom = true := by
          rcases Tile.bottomFrom_hit e.tile.shape (e.tile.shape.length - 1) with h0 | h1
          · unfold Tile.bottom at hpos; omega
          · exact h1
        have hlt : e.tile.bottom < e.tile.shape.length := by
          have := Tile.bottomFrom_le e.tile.shape (e.tile.shape.length - 1)
          unfold Tile.bottom at hpos ⊢
          omega
        rw [Shape.empty_eq_false_iff]
        refine ⟨e.tile.bottom, by rw [(Cleaner.pushRows_spec _ _).1]; exact hlt, ?_⟩
        rw [Shape.rowAny_congr ((Cleaner.pushRows_spec _ _).2.2.1 _ (by omega))]
        exact hrow
    · cases h; exact hemp

/-! ## Claim C15: no empty static piece is left behind -/

theorem Cleaner.line_no_empty (helper : Manager) (line : Int)
    (h : ∀ e ∈ helper.statics, e.tile.shape.empty = false) :
    ∀ e ∈ (Cleaner.line helper line).statics, e.tile.shape.empty = false := by
  unfold Cleaner.line
  split
  · exact h
  · intro b hb
    rw [Manager.mem_statics] at hb
    obtain ⟨hmem, hmov⟩ := hb
    simp only [List.mem_filterMap, List.mem_map] at hmem
    obtain ⟨e1, ⟨e, -, rfl⟩, hsweep⟩ := hmem
    have hm1 : (Cleaner.erase e line).movable = false := by
      rw [← (Cleaner.sweep_frame hsweep).1]
      exact hmov
    exact Cleaner.sweep_nonempty hm1 hsweep

/-- C15. If no static piece has an all-false shape before `Cleaner::update`, none has one
after it: a piece left without a set cell by a row clear is removed by the sweep of that
row, and neither the downward shift nor the straddle loop empties a shape. -/
theorem Cleaner_update_no_empty (helper : Manager)
    (h : ∀ e ∈ helper.statics, e.tile.shape.empty = false) :
    ∀ e ∈ (Cleaner.update helper).statics, e.tile.shape.empty = false := by
  unfold Cleaner.update Cleaner.scan
  exact foldl_invariant (fun h (line : Nat) => Cleaner.line h line)
    (fun st => ∀ e ∈ st.statics, e.tile.shape.empty = false)
    (fun st line hst => Cleaner.line_no_empty st line hst) _ _ h

/-- Instance of C15: `boardStraddle`, whose two flat pieces are emptied by the clear of
row 22. -/
theorem Cleaner_update_no_empty_witness :
    (∀ e ∈ boardStraddle.statics, e.tile.shape.empty = false) ∧
    ∀ e ∈ (Cleaner.update boardStraddle).statics, e.tile.shape.empty = false :=
  ⟨by decide, Cleaner_update_no_empty boardStraddle (by decide)⟩


/-! ## Counting the cells of a row -/

theorem List.flatMap_single_index {α : Type} (f : Nat → List α) (k : Nat) (n : Nat) :
    ((List.range n).flatMap fun y => if y = k then f y else [])
      = if k < n then f k else [] := by
  induction n with
  | zero => simp
  | succ n ih =>
    rw [List.range_succ, List.flatMap_append, ih]
    by_cases h1 : k < n
    · have : n ≠ k := by omega
      simp [h1, this, Nat.lt_succ_of_lt h1]
    · by_cases h2 : n = k
      · subst h2; simp
      · have : ¬ k < n + 1 := by omega
        simp [h1, h2, this]

theorem List.sum_map_filter_zero {α : Type} (l : List α) (f : α → Nat) (q : α → Bool)
    (h : ∀ a ∈ l, q a = false → f a = 0) : (l.map f).sum = ((l.filter q).map f).sum := by
  induction l with
  | nil => rfl
  | cons a l ih =>
    have ih1 := ih fun b hb => h b (List.mem_cons_of_mem _ hb)
    cases hq : q a
    · rw [List.filter_cons_of_neg (by simp [hq]), List.map_cons, List.sum_cons,
        h a (List.mem_cons_self _ _) hq, ih1, Nat.zero_add]
    · rw [List.filter_cons_of_pos hq, List.map_cons, List.map_cons, List.sum_cons,
        List.sum_cons, ih1]

/-- For a static piece the iterators collected on row `line` are as many as its set cells
on that row. -/
theorem Cleaner.collect_length {e : Entity} (hm : e.movable = false) (hw : e.WellFormed)
    {line : Int} (h0 : 0 ≤ line) (h1 : line < 2 ^ 31) :
    (Cleaner.collect e line).length
      = (e.cells.filter fun c => decide (c.2 = line)).length := by
  have hskip := Cleaner.skips_eq_false_iff hm hw h0 h1
  unfold Entity.cells
  rw [List.filter_map, List.length_map]
  unfold Shape.cells
  rw [List.filter_flatMap]
  cases hs : Cleaner.skips e line
  · obtain ⟨hv0, hv1⟩ := hskip.1 hs
    have hk := Cleaner.sizeT_local hw h1 hv0
    have hklt : (line - e.position.y).toNat < e.tile.shape.length := by omega
    have hwidth : e.tile.shape.width = e.tile.shape.length := hw.1.width_eq (by omega)
    have hfun : (fun y : Nat => List.filter
          ((fun c : Int × Int => decide (c.2 = line)) ∘
            fun c : Nat × Nat => (e.position.x + (c.1 : Int), e.position.y + (c.2 : Int)))
          (((List.range (e.tile.shape.getD y []).length).filter
            fun x => e.tile.shape.cell y x).map fun x => (x, y)))
        = fun y : Nat => if y = (line - e.position.y).toNat then
            (((List.range (e.tile.shape.getD y []).length).filter
              fun x => e.tile.shape.cell y x).map fun x => (x, y)) else [] := by
      funext y
      by_cases hy : y = (line - e.position.y).toNat
      · rw [if_pos hy, List.filter_eq_self]
        intro c hc
        simp only [List.mem_map, List.mem_filter] at hc
        obtain ⟨x, -, rfl⟩ := hc
        simp only [Function.comp, decide_eq_true_eq]
        omega
      · rw [if_neg hy, List.filter_eq_nil_iff]
        intro c hc
        simp only [List.mem_map, List.mem_filter] at hc
        obtain ⟨x, -, rfl⟩ := hc
        simp only [Function.comp, decide_eq_true_eq]
        omega
    rw [hfun, List.flatMap_single_index, if_pos hklt, List.length_map,
      hw.1.row_length hklt]
    unfold Cleaner.collect
    rw [hs, hk, hwidth]
    rfl
  · have hnone : ¬ (0 ≤ line - e.position.y ∧ line - e.position.y < e.tile.shape.length) := by
      intro h
      rw [hskip.2 h] at hs
      exact Bool.noConfusion hs
    have : Cleaner.collect e line = [] := by
      unfold Cleaner.collect
      rw [hs]
      rfl
    rw [this, List.length_nil, eq_comm, List.length_eq_zero, List.flatMap_eq_nil_iff]
    intro y hy
    rw [List.filter_eq_nil_iff]
    intro c hc
    simp only [List.mem_map, List.mem_filter] at hc
    obtain ⟨x, -, rfl⟩ := hc
    have := List.mem_range.1 hy
    simp only [Function.comp, decide_eq_true_eq]
    omega

theorem Cleaner.count_eq_rowCount (helper : Manager) (hw : helper.StaticsWellFormed)
    {line : Int} (h0 : 0 ≤ line) (h1 : line < 2 ^ 31) :
    Cleaner.count helper line = helper.rowCount line := by
  unfold Cleaner.count Manager.rowCount
  rw [List.filter_flatMap, List.length_flatMap,
    List.sum_map_filter_zero helper.entities _ (fun e => !e.movable)]
  · unfold Manager.statics
    congr 1
    apply List.map_congr_left
    intro e he
    have hm : e.movable = false := by
      have := (List.mem_filter.1 he).2
      simpa using this
    exact Cleaner.collect_length hm (hw e he) h0 h1
  · intro e _ hq
    have hm : e.movable = true := by simpa using hq
    rw [Cleaner.collect_movable hm]
    rfl


/-! ## Claim C16: what the cleaner leaves alone -/

theorem Cleaner.line_actives (helper : Manager) (line : Int) :
    (Cleaner.line helper line).actives = helper.actives := by
  unfold Cleaner.line
  split
  · rfl
  · unfold Manager.actives
    simp only
    generalize helper.entities = l
    induction l with
    | nil => rfl
    | cons e l ih =>
      rw [List.map_cons]
      cases hm : e.movable
      · have hm1 : (Cleaner.erase e line).movable = false := hm
        rw [List.filter_cons_of_neg (by simp [hm]), List.filterMap_cons]
        rcases hsw : Cleaner.sweep (Cleaner.erase e line) line with _ | b
        · exact ih
        · simp only
          rw [List.filter_cons_of_neg (by simp [(Cleaner.sweep_frame hsw).1, hm1])]
          exact ih
      · rw [Cleaner.erase_movable hm, List.filterMap_cons, Cleaner.sweep_movable hm line]
        simp only
        rw [List.filter_cons_of_pos hm, List.filter_cons_of_pos hm, ih]

theorem Cleaner.scan_actives (helper : Manager) (n : Nat) :
    (Cleaner.scan helper n).actives = helper.actives := by
  unfold Cleaner.scan
  exact foldl_invariant (fun h (line : Nat) => Cleaner.line h line)
    (fun st => st.actives = helper.actives)
    (fun st line hst => by
      show (Cleaner.line st line).actives = helper.actives
      rw [Cleaner.line_actives]; exact hst) _ _ rfl

/-- C16. If no row `0 … 23` holds `MAX_WIDTH` or more set cells of static pieces (the cells
of active pieces are not counted), `Cleaner::update` returns the store it was given, with
every piece, the score and the preview as they were.  And whatever the rows hold, the
active pieces come out of `Cleaner::update` exactly as they went in. -/
theorem Cleaner_update_frame (helper : Manager) (hw : helper.StaticsWellFormed) :
    ((∀ r : Nat, r < 24 → helper.rowCount r < 10) → Cleaner.update helper = helper) ∧
    (Cleaner.update helper).actives = helper.actives := by
  refine ⟨fun h => ?_, Cleaner.scan_actives helper _⟩
  have hscan : ∀ n : Nat, n ≤ 24 → Cleaner.scan helper n = helper := by
    intro n
    induction n with
    | zero => intro _; rfl
    | succ n ih =>
      intro hn
      unfold Cleaner.scan at ih ⊢
      rw [List.range_succ, List.foldl_append, ih (by omega)]
      simp only [List.foldl_cons, List.foldl_nil]
      unfold Cleaner.line
      rw [if_pos]
      rw [Cleaner.count_eq_rowCount helper hw (by omega) (by omega)]
      have := h n (by omega)
      unfold MAX_WIDTH
      omega
  exact hscan 24 (le_refl _)

/-- Instance of C16: the store `boardTop`, whose rows hold two cells at most. -/
theorem Cleaner_update_frame_witness :
    ((∀ r : Nat, r < 24 → boardTop.rowCount r < 10) → Cleaner.update boardTop = boardTop) ∧
    (Cleaner.update boardTop).actives = boardTop.actives :=
  Cleaner_update_frame boardTop (by decide)


/-! ## Claim C19: the accesses of the cleaner are in bounds -/

theorem foldl_invariant_mem {σ β : Type} (f : σ → β → σ) (I : σ → Prop) (l : List β)
    (hI : ∀ s b, b ∈ l → I s → I (f s b)) : ∀ s : σ, I s → I (l.foldl f s) := by
  induction l with
  | nil => intro s hs; exact hs
  | cons b l ih =>
    intro s hs
    exact ih (fun s c hc => hI s c (List.mem_cons_of_mem _ hc)) _
      (hI s b (List.mem_cons_self _ _) hs)

theorem Cleaner.sweep_wellFormed {e b : Entity} {line : Int} (hl : line < 2 ^ 31 - 1)
    (hw : e.WellFormed) (h : Cleaner.sweep e line = some b) : b.WellFormed := by
  obtain ⟨h1, h2, h3, h4⟩ := hw
  obtain ⟨-, -, -, f1, f2, f3⟩ := Cleaner.sweep_frame h
  refine ⟨Shape.square_of_dims h1 f1 f2, by rw [f1]; exact h2, ?_, ?_⟩ <;> omega

theorem Cleaner.line_wellFormed (helper : Manager) {line : Int} (hl : line < 2 ^ 31 - 1)
    (hw : helper.StaticsWellFormed) : (Cleaner.line helper line).StaticsWellFormed := by
  unfold Cleaner.line
  split
  · exact hw
  · intro b hb
    rw [Manager.mem_statics] at hb
    obtain ⟨hmem, hmov⟩ := hb
    simp only [List.mem_filterMap, List.mem_map] at hmem
    obtain ⟨e1, ⟨e, he, rfl⟩, hsweep⟩ := hmem
    have hm : e.movable = false := by
      rw [← (Cleaner.erase_frame e line).2.1, ← (Cleaner.sweep_frame hsweep).1]
      exact hmov
    exact Cleaner.sweep_wellFormed hl
      (Cleaner.erase_wellFormed line (hw e (Manager.mem_statics.2 ⟨he, hm⟩))) hsweep

theorem Cleaner.scan_wellFormed (helper : Manager) (hw : helper.StaticsWellFormed) (n : Nat)
    (hn : n ≤ 24) : (Cleaner.scan helper n).StaticsWellFormed := by
  unfold Cleaner.scan
  refine foldl_invariant_mem (fun h (line : Nat) => Cleaner.line h line)
    (fun st => st.StaticsWellFormed) _ (fun st line hline hst => ?_) _ hw
  have := List.mem_range.1 hline
  exact Cleaner.line_wellFormed st (by omega) hst

theorem Cleaner.collectReads_inBounds {e : Entity} (hm : e.movable = false)
    (hw : e.WellFormed) {line : Int} (h0 : 0 ≤ line) (h1 : line < 2 ^ 31) :
    ∀ p ∈ Cleaner.collectReads e line, e.tile.shape.InBounds p := by
  intro p hp
  unfold Cleaner.collectReads at hp
  split at hp
  · exact absurd hp (List.not_mem_nil _)
  · rename_i hs
    simp only [Bool.not_eq_true] at hs
    obtain ⟨hv0, hv1⟩ := (Cleaner.skips_eq_false_iff hm hw h0 h1).1 hs
    have hk := Cleaner.sizeT_local hw h1 hv0
    have hklt : (line - e.position.y).toNat < e.tile.shape.length := by omega
    simp only [List.mem_map, List.mem_range] at hp
    obtain ⟨x, hx, rfl⟩ := hp
    rw [hw.1.width_eq (by omega)] at hx
    refine ⟨by rw [hk]; exact hklt, ?_⟩
    simp only [hk]
    rw [hw.1.row_length hklt]
    exact hx

theorem Cleaner.sweepWrites_inBounds {e : Entity} (hw : e.WellFormed) (line : Int) :
    ∀ p ∈ Cleaner.sweepWrites e line, e.tile.shape.InBounds p := by
  intro p hp
  unfold Cleaner.sweepWrites at hp
  split at hp
  · exact absurd hp (List.not_mem_nil _)
  · split at hp
    · exact absurd hp (List.not_mem_nil _)
    · split at hp
      · rename_i hy
        split at hp
        · exact absurd hp (List.not_mem_nil _)
        · rename_i hb
          unfold Cleaner.pushWrites at hp
          simp only [List.mem_flatMap, List.mem_map, List.mem_range] at hp
          obtain ⟨y, hy1, x, hx, rfl⟩ := hp
          have hble := Tile.bottomFrom_le e.tile.shape (e.tile.shape.length - 1)
          have hbot : e.tile.bottom ≤ e.tile.shape.length - 1 := hble
          have hy2 : y + 1 < e.tile.shape.length := by omega
          rw [hw.1.row_length (by omega)] at hx
          refine ⟨hy2, ?_⟩
          simp only
          rw [hw.1.row_length hy2]
          exact hx
      · exact absurd hp (List.not_mem_nil _)

/-- C19. Let the static pieces have square shapes, at any `y` an `int` can hold.  When
`Cleaner::update` handles row `n`, in the store as the rows before left it, then for every
entity: the collecting lambda looks at the entity only if `0 ≤ n - y < N` (a negative
difference, converted to `size_t`, fails the size comparison), every access
`shape[n - y][x]` it makes is inside the matrix, and every write `shape[y + 1][x]` of the
straddle loop, run on the shape after the clear, is inside the matrix. -/
theorem Cleaner_update_in_bounds (helper : Manager) (hw : helper.StaticsWellFormed) (n : Nat)
    (hn : n < 24) :
    ∀ e ∈ (Cleaner.scan helper n).entities,
      (Cleaner.skips e n = false →
        0 ≤ (n : Int) - e.position.y ∧ (n : Int) - e.position.y < e.tile.shape.length) ∧
      (∀ p ∈ Cleaner.collectReads e n, e.tile.shape.InBounds p) ∧
      (∀ p ∈ Cleaner.sweepWrites (Cleaner.erase e n) n,
        (Cleaner.erase e n).tile.shape.InBounds p) := by
  intro e he
  have hswf := Cleaner.scan_wellFormed helper hw n (by omega)
  cases hm : e.movable
  · have hwe : e.WellFormed := hswf e (Manager.mem_statics.2 ⟨he, hm⟩)
    exact ⟨(Cleaner.skips_eq_false_iff hm hwe (by omega) (by omega)).1,
      Cleaner.collectReads_inBounds hm hwe (by omega) (by omega),
      Cleaner.sweepWrites_inBounds (Cleaner.erase_wellFormed _ hwe) _⟩
  · refine ⟨fun h => ?_, fun p hp => ?_, fun p hp => ?_⟩
    · simp [Cleaner.skips, hm] at h
    · simp [Cleaner.collectReads, Cleaner.skips, hm] at hp
    · rw [Cleaner.erase_movable hm] at hp
      simp [Cleaner.sweepWrites, hm] at hp

/-- Instance of C19: row 22 of `boardStraddle`, the row that is cleared. -/
theorem Cleaner_update_in_bounds_witness :
    boardStraddle.StaticsWellFormed ∧
    ∀ e ∈ (Cleaner.scan boardStraddle 22).entities,
      (Cleaner.skips e (22 : Nat) = false →
        0 ≤ ((22 : Nat) : Int) - e.position.y ∧
          ((22 : Nat) : Int) - e.position.y < e.tile.shape.length) ∧
      (∀ p ∈ Cleaner.collectReads e (22 : Nat), e.tile.shape.InBounds p) ∧
      (∀ p ∈ Cleaner.sweepWrites (Cleaner.erase e (22 : Nat)) (22 : Nat),
        (Cleaner.erase e (22 : Nat)).tile.shape.InBounds p) :=
  ⟨by decide, Cleaner_update_in_bounds boardStraddle (by decide) 22 (by decide)⟩


/-! ## A row of non-overlapping pieces holds at most `MAX_WIDTH` cells -/

theorem Shape_cells_nodup (s : Shape) : s.cells.Nodup := by
  unfold Shape.cells
  rw [List.nodup_flatMap]
  constructor
  · intro y _
    apply List.Nodup.map
    · intro a b h
      exact (Prod.mk.inj h).1
    · exact (List.nodup_range _).filter _
  · apply (List.pairwise_lt_range s.length).imp
    intro a b hab
    simp only [Function.onFun, List.disjoint_left, List.mem_map, List.mem_filter]
    rintro c ⟨x, -, rfl⟩ ⟨x1, -, h⟩
    have := (Prod.mk.inj h).2
    omega

theorem Entity_cells_nodup (e : Entity) : e.cells.Nodup := by
  unfold Entity.cells
  apply List.Nodup.map
  · intro a b h
    have h1 := (Prod.mk.inj h).1
    have h2 := (Prod.mk.inj h).2
    apply Prod.ext <;> omega
  · exact Shape_cells_nodup _

theorem List.length_le_of_nodup_of_range (l : List Int) (n : Nat) (hl : l.Nodup)
    (h : ∀ a ∈ l, 0 ≤ a ∧ a < n) : l.length ≤ n := by
  rw [← List.toFinset_card_of_nodup hl]
  have hsub : l.toFinset ⊆ Finset.Ico (0 : Int) n := by
    intro a ha
    rw [List.mem_toFinset] at ha
    rw [Finset.mem_Ico]
    exact h a ha
  have := Finset.card_le_card hsub
  rw [Int.card_Ico] at this
  simpa using this

theorem Manager.rowCount_le (helper : Manager) (hno : helper.NonOverlapping)
    (hcol : helper.StaticsInColumns) (r : Int) : helper.rowCount r ≤ 10 := by
  unfold Manager.rowCount
  have hnodup : ((helper.statics.flatMap Entity.cells).filter
      fun c => decide (c.2 = r)).Nodup := by
    apply List.Nodup.filter
    rw [List.nodup_flatMap]
    refine ⟨fun e _ => Entity_cells_nodup e, ?_⟩
    apply List.Pairwise.imp _ hno
    intro a b hab
    simp only [Function.onFun, List.disjoint_left]
    exact hab
  have hmap : (((helper.statics.flatMap Entity.cells).filter
      fun c => decide (c.2 = r)).map Prod.fst).Nodup := by
    apply List.Nodup.map_on _ hnodup
    intro a ha b hb hab
    have h1 := (List.mem_filter.1 ha).2
    have h2 := (List.mem_filter.1 hb).2
    simp only [decide_eq_true_eq] at h1 h2
    exact Prod.ext hab (by rw [h1, h2])
  have := List.length_le_of_nodup_of_range _ 10 hmap (by
    intro a ha
    simp only [List.mem_map, List.mem_filter, List.mem_flatMap] at ha
    obtain ⟨c, ⟨⟨e, he, hc⟩, -⟩, rfl⟩ := ha
    exact hcol e he c hc)
  simpa using this


/-! ## Clearing a row does not touch the rows below it -/

theorem Cleaner.collect_eq_nil {e : Entity} (hm : e.movable = false) (hw : e.WellFormed)
    {r : Int} (h0 : 0 ≤ r) (h1 : r < 2 ^ 31)
    (h : ∀ q c : Nat, e.tile.shape.cell q c = true → e.position.y + q ≠ r) :
    Cleaner.collect e r = [] := by
  rw [← List.length_eq_zero, Cleaner.collect_length hm hw h0 h1, List.length_eq_zero,
    List.filter_eq_nil_iff]
  rintro ⟨X, Y⟩ hc
  obtain ⟨x, y, hxy, -, hY⟩ := Entity.mem_cells_iff.1 hc
  have := h y x hxy
  simp only [decide_eq_true_eq]
  omega

theorem Cleaner.collect_congr {e b : Entity} {r : Int} (hm : b.movable = e.movable)
    (hy : b.position.y = e.position.y) (hl : b.tile.shape.length = e.tile.shape.length)
    (hwd : b.tile.shape.width = e.tile.shape.width)
    (h : Cleaner.skips e r = false → ∀ x,
      b.tile.shape.cell (sizeT (r - e.position.y)) x
        = e.tile.shape.cell (sizeT (r - e.position.y)) x) :
    Cleaner.collect b r = Cleaner.collect e r := by
  have hs : Cleaner.skips b r = Cleaner.skips e r := by
    unfold Cleaner.skips
    rw [hm, hy, hl]
  unfold Cleaner.collect
  rw [hs]
  cases hse : Cleaner.skips e r
  · simp only [Bool.false_eq_true, if_false]
    rw [hwd, hy]
    apply List.filter_congr
    intro x _
    exact h hse x
  · rfl

theorem Shape.cell_congr {s t : Shape} {r : Nat} (h : t.getD r [] = s.getD r []) (x : Nat) :
    t.cell r x = s.cell r x := by
  unfold Shape.cell
  rw [h]

/-- The entity that the clearing of row `line` makes of a static piece holds, on every row
`r` below the cleared one, as many cells as before; a piece that is removed held none. -/
theorem Cleaner.sweep_erase_collect {e : Entity} (hm : e.movable = false) (hw : e.WellFormed)
    {line r : Int} (h0 : 0 ≤ line) (hlr : line < r) (h1 : r < 2 ^ 31) :
    match Cleaner.sweep (Cleaner.erase e line) line with
    | none => Cleaner.collect e r = []
    | some b => Cleaner.collect b r = Cleaner.collect e r := by
  have hw1 := Cleaner.erase_wellFormed line hw
  have hm1 : (Cleaner.erase e line).movable = false := hm
  have hy1 : (Cleaner.erase e line).position.y = e.position.y := rfl
  have hcell := Cleaner.erase_cell hm hw h0 (by omega : line < 2 ^ 31)
  have hlen := (Cleaner.erase_frame e line).2.2.2.1
  have hwidth : (Cleaner.erase e line).tile.shape.width = e.tile.shape.width :=
    (Cleaner.erase_frame e line).2.2.2.2 0
  -- the erased piece holds the same cells on row `r`
  have hsame : Cleaner.collect (Cleaner.erase e line) r = Cleaner.collect e r := by
    apply Cleaner.collect_congr (Cleaner.erase_frame e line).2.1 hy1 hlen hwidth
    intro hs x
    obtain ⟨hv0, hv1⟩ := (Cleaner.skips_eq_false_iff hm hw (by omega) h1).1 hs
    rw [hcell, Cleaner.sizeT_local hw h1 hv0]
    have : decide (e.position.y + ((r - e.position.y).toNat : Int) ≠ line) = true := by
      simp only [decide_eq_true_eq]
      omega
    rw [this, Bool.and_true]
  rcases hsw : Cleaner.sweep (Cleaner.erase e line) line with _ | b
  · simp only
    rw [← hsame]
    apply Cleaner.collect_eq_nil hm1 hw1 (by omega) h1
    intro q c hq
    unfold Cleaner.sweep at hsw
    rw [hm1] at hsw
    simp only [Bool.false_eq_true, if_false] at hsw
    split at hsw
    · rename_i hemp
      rw [Shape.empty_eq_false_of_cell hq] at hemp
      exact Bool.noConfusion hemp
    · split at hsw <;> [split at hsw; skip] <;> exact Option.noConfusion hsw
  · simp only
    rw [← hsame]
    have hwb := Cleaner.sweep_wellFormed (by omega : line < 2 ^ 31 - 1) hw1 hsw
    have hmb : b.movable = false := by rw [(Cleaner.sweep_frame hsw).1]; exact hm1
    unfold Cleaner.sweep at hsw
    rw [hm1] at hsw
    simp only [Bool.false_eq_true, if_false] at hsw
    split at hsw
    · exact Option.noConfusion hsw
    · split at hsw
      · rename_i hyl
        split at hsw
        · rename_i hbl
          cases hsw
          have hbelow : ∀ q c : Nat, (Cleaner.erase e line).tile.shape.cell q c = true →
              e.position.y + q < line := by
            intro q c hq
            have hq1 := Tile.bottom_max (Cleaner.erase e line).tile hq
            have hq2 := hq
            rw [hcell] at hq2
            simp only [Bool.and_eq_true, decide_eq_true_eq] at hq2
            have := hq2.2
            omega
          rw [Cleaner.collect_eq_nil hm1 hw1 (by omega) h1
            (fun q c hq => by have := hbelow q c hq; omega)]
          apply Cleaner.collect_eq_nil hmb hwb (by omega) h1
          intro q c hq
          have := hbelow q c hq
          show (Cleaner.erase e line).position.y + 1 + (q : Int) ≠ r
          omega
        · cases hsw
          have hpw : (Cleaner.pushRows (Cleaner.erase e line).tile.shape
              (line - (Cleaner.erase e line).position.y)).width
                = (Cleaner.erase e line).tile.shape.width :=
            (Cleaner.pushRows_spec _ _).2.1 0
          refine Cleaner.collect_congr (e := Cleaner.erase e line) hm1.symm rfl
            (Cleaner.pushRows_spec _ _).1 hpw ?_
          intro hs x
          obtain ⟨hv0, hv1⟩ := (Cleaner.skips_eq_false_iff hm1 hw1 (by omega) h1).1 hs
          rw [Cleaner.sizeT_local hw1 h1 hv0]
          apply Shape.cell_congr
          apply (Cleaner.pushRows_spec _ _).2.2.1
          omega
      · cases hsw
        rfl

theorem List.sum_map_filterMap {α : Type} (l : List α) (g : α → α) (s : α → Option α)
    (f : α → Nat)
    (h : ∀ a ∈ l, match s (g a) with
      | none => f a = 0
      | some b => f b = f a) :
    (((l.map g).filterMap s).map f).sum = (l.map f).sum := by
  induction l with
  | nil => rfl
  | cons a l ih =>
    have ih1 := ih fun b hb => h b (List.mem_cons_of_mem _ hb)
    have ha := h a (List.mem_cons_self _ _)
    rw [List.map_cons, List.filterMap_cons, List.map_cons, List.sum_cons]
    rcases hs : s (g a) with _ | b
    · rw [hs] at ha
      simp only at ha ⊢
      rw [ih1, ha, Nat.zero_add]
    · rw [hs] at ha
      simp only at ha ⊢
      rw [List.map_cons, List.sum_cons, ih1, ha]

theorem Cleaner.line_count_below (helper : Manager) (hw : helper.StaticsWellFormed)
    {line r : Int} (h0 : 0 ≤ line) (hlr : line < r) (h1 : r < 2 ^ 31) :
    Cleaner.count (Cleaner.line helper line) r = Cleaner.count helper r := by
  unfold Cleaner.line
  split
  · rfl
  · unfold Cleaner.count
    simp only
    apply List.sum_map_filterMap helper.entities (fun e => Cleaner.erase e line)
      (fun e => Cleaner.sweep e line) (fun e => (Cleaner.collect e r).length)
    intro e he
    cases hm : e.movable
    · have := Cleaner.sweep_erase_collect hm (hw e (Manager.mem_statics.2 ⟨he, hm⟩)) h0 hlr h1
      rcases hsw : Cleaner.sweep (Cleaner.erase e line) line with _ | b
      · rw [hsw] at this
        simp only at this ⊢
        rw [this]
        rfl
      · rw [hsw] at this
        simp only at this ⊢
        rw [this]
    · rw [Cleaner.erase_movable hm, Cleaner.sweep_movable hm]


/-! ## Claim C2: the score of a pass -/

theorem Cleaner.scan_succ (helper : Manager) (n : Nat) :
    Cleaner.scan helper (n + 1) = Cleaner.line (Cleaner.scan helper n) n := by
  unfold Cleaner.scan
  rw [List.range_succ, List.foldl_append]
  rfl

theorem Cleaner.scan_count_below (helper : Manager) (hw : helper.StaticsWellFormed) (n : Nat)
    (hn : n ≤ 24) (r : Int) (hr : (n : Int) ≤ r) (h1 : r < 2 ^ 31) :
    Cleaner.count (Cleaner.scan helper n) r = Cleaner.count helper r := by
  induction n with
  | zero => rfl
  | succ n ih =>
    rw [Cleaner.scan_succ,
      Cleaner.line_count_below _ (Cleaner.scan_wellFormed helper hw n (by omega))
        (by omega) (by push_cast at hr; omega) h1]
    exact ih (by omega) (by push_cast at hr; omega)

theorem Cleaner.scan_count_row (helper : Manager) (hw : helper.StaticsWellFormed) (n : Nat)
    (hn : n < 24) :
    Cleaner.count (Cleaner.scan helper n) n = helper.rowCount n := by
  rw [Cleaner.scan_count_below helper hw n (by omega) n (le_refl _) (by omega),
    Cleaner.count_eq_rowCount helper hw (by omega) (by omega)]

theorem Cleaner.clears_succ (helper : Manager) (n : Nat) :
    Cleaner.clears helper (n + 1)
      = Cleaner.clears helper n ++
        (if MAX_WIDTH ≤ (Cleaner.count (Cleaner.scan helper n) n : Int) then [n] else []) := by
  unfold Cleaner.clears
  rw [List.range_succ, List.filter_append]
  congr 1
  by_cases h : MAX_WIDTH ≤ (Cleaner.count (Cleaner.scan helper n) n : Int)
  · rw [if_pos h, List.filter_cons_of_pos (by simpa using h)]
    rfl
  · rw [if_neg h, List.filter_cons_of_neg (by simpa using h)]
    rfl

theorem Cleaner.line_score (helper : Manager) (line : Int) :
    (Cleaner.line helper line).player.score
      = helper.player.score +
        (if MAX_WIDTH ≤ (Cleaner.count helper line : Int) then (Cleaner.count helper line : Int)
          else 0) := by
  unfold Cleaner.line
  by_cases h : (Cleaner.count helper line : Int) < MAX_WIDTH
  · rw [if_pos h, if_neg (by omega), add_zero]
  · rw [if_neg h, if_pos (by omega)]

/-- C2. On a board whose static pieces (square shapes, values an `int` can hold) do not
overlap and lie in the columns `[0, MAX_WIDTH)`, every row that `Cleaner::update` clears
holds exactly `MAX_WIDTH = 10` collected cells and adds exactly 10 to the score, a row it
does not clear adds nothing, and the whole pass adds 10 times the number of cleared rows.
The cleared rows are the rows of the board given to the pass that hold 10 static cells. -/
theorem Cleaner_update_score (helper : Manager) (hw : helper.StaticsWellFormed)
    (hno : helper.NonOverlapping) (hcol : helper.StaticsInColumns) :
    (Cleaner.update helper).player.score
      = helper.player.score + 10 * ((Cleaner.clears helper 24).length : Int) ∧
    (∀ line ∈ Cleaner.clears helper 24,
      Cleaner.count (Cleaner.scan helper line) line = 10 ∧
      (Cleaner.scan helper (line + 1)).player.score
        = (Cleaner.scan helper line).player.score + 10) ∧
    (∀ line : Nat, line < 24 → line ∉ Cleaner.clears helper 24 →
      (Cleaner.scan helper (line + 1)).player.score
        = (Cleaner.scan helper line).player.score) ∧
    Cleaner.clears helper 24
      = (List.range 24).filter fun r => decide (helper.rowCount (r : Nat) = 10) := by
  have hrow : ∀ n : Nat, n < 24 →
      (MAX_WIDTH ≤ (Cleaner.count (Cleaner.scan helper n) n : Int) ↔
        Cleaner.count (Cleaner.scan helper n) n = 10) := by
    intro n hn
    rw [Cleaner.scan_count_row helper hw n hn]
    have := Manager.rowCount_le helper hno hcol n
    unfold MAX_WIDTH
    omega
  have hmem : ∀ line : Nat, line < 24 →
      (line ∈ Cleaner.clears helper 24 ↔
        MAX_WIDTH ≤ (Cleaner.count (Cleaner.scan helper line) line : Int)) := by
    intro line hl
    unfold Cleaner.clears
    simp only [List.mem_filter, List.mem_range, decide_eq_true_eq]
    exact ⟨fun h => h.2, fun h => ⟨hl, h⟩⟩
  have hscore : ∀ n : Nat, n ≤ 24 →
      (Cleaner.scan helper n).player.score
        = helper.player.score + 10 * ((Cleaner.clears helper n).length : Int) := by
    intro n
    induction n with
    | zero => intro _; simp [Cleaner.scan, Cleaner.clears]
    | succ n ih =>
      intro hn
      rw [Cleaner.scan_succ, Cleaner.line_score, ih (by omega), Cleaner.clears_succ]
      by_cases h : MAX_WIDTH ≤ (Cleaner.count (Cleaner.scan helper n) n : Int)
      · rw [if_pos h, if_pos h, (hrow n (by omega)).1 h]
        simp only [List.length_append, List.length_singleton]
        push_cast
        ring
      · rw [if_neg h, if_neg h]
        simp
  have hupd : Cleaner.update helper = Cleaner.scan helper 24 := rfl
  refine ⟨by rw [hupd]; exact hscore 24 (le_refl _), ?_, ?_, ?_⟩
  · intro line hline
    have hl : line < 24 := by
      unfold Cleaner.clears at hline
      exact List.mem_range.1 (List.mem_filter.1 hline).1
    have h := (hmem line hl).1 hline
    refine ⟨(hrow line hl).1 h, ?_⟩
    rw [Cleaner.scan_succ, Cleaner.line_score, if_pos h, (hrow line hl).1 h]
    norm_num
  · intro line hl hline
    have h : ¬ MAX_WIDTH ≤ (Cleaner.count (Cleaner.scan helper line) line : Int) :=
      fun h => hline ((hmem line hl).2 h)
    rw [Cleaner.scan_succ, Cleaner.line_score, if_neg h, add_zero]
  · unfold Cleaner.clears
    apply List.filter_congr
    intro r hr
    have hr1 := List.mem_range.1 hr
    rw [Bool.eq_iff_iff, decide_eq_true_eq, decide_eq_true_eq, hrow r hr1,
      Cleaner.scan_count_row helper hw r hr1]

/-- Instance of C2: `boardStraddle`, on which the pass clears row 22. -/
theorem Cleaner_update_score_witness :
    (Cleaner.update boardStraddle).player.score
      = boardStraddle.player.score + 10 * ((Cleaner.clears boardStraddle 24).length : Int) ∧
    (∀ line ∈ Cleaner.clears boardStraddle 24,
      Cleaner.count (Cleaner.scan boardStraddle line) line = 10 ∧
      (Cleaner.scan boardStraddle (line + 1)).player.score
        = (Cleaner.scan boardStraddle line).player.score + 10) ∧
    (∀ line : Nat, line < 24 → line ∉ Cleaner.clears boardStraddle 24 →
      (Cleaner.scan boardStraddle (line + 1)).player.score
        = (Cleaner.scan boardStraddle line).player.score) ∧
    Cleaner.clears boardStraddle 24
      = (List.range 24).filter fun r => decide (boardStraddle.rowCount (r : Nat) = 10) :=
  Cleaner_update_score boardStraddle (by decide) (by decide) (by decide)


/-! ## Claim C14: at most one active piece -/

theorem List.countP_set_eq {α : Type} (p : α → Bool) :
    ∀ (l : List α) (k : Nat) (e b : α), l[k]? = some e →
      (l.set k b).countP p + (if p e then 1 else 0) = l.countP p + (if p b then 1 else 0) := by
  intro l
  induction l with
  | nil => intro k e b h; simp at h
  | cons a l ih =>
    intro k e b h
    cases k with
    | zero =>
      simp only [List.getElem?_cons_zero, Option.some.injEq] at h
      subst h
      simp only [List.set_cons_zero, List.countP_cons]
      omega
    | succ k =>
      simp only [List.getElem?_cons_succ] at h
      have := ih k e b h
      simp only [List.set_cons_succ, List.countP_cons]
      omega

theorem Manager.actives_length (helper : Manager) :
    helper.actives.length = helper.entities.countP fun e => e.movable := by
  unfold Manager.actives
  rw [List.countP_eq_length_filter]

theorem Collision_updateAt_actives (st : Manager) (k : Nat) :
    Collision.updateAt st k = st ∨
      (Collision.updateAt st k).actives.length + 1 = st.actives.length := by
  unfold Collision.updateAt
  rcases he : st.entities[k]? with _ | e
  · exact Or.inl rfl
  · dsimp only
    split
    · rename_i hc
      right
      rw [Manager.actives_length, Manager.actives_length]
      have := List.countP_set_eq (fun e : Entity => e.movable) st.entities k e
        { e with movable := false } he
      simp only [Bool.and_eq_true] at hc
      simp only [hc.1, if_true, Bool.false_eq_true, if_false] at this
      dsimp only
      omega
    · exact Or.inl rfl

theorem Collision_update_actives (helper : Manager) :
    (Collision.update helper).actives.length ≤ helper.actives.length ∧
    (Collision.update helper = helper ∨
      (Collision.update helper).actives.length < helper.actives.length) := by
  unfold Collision.update
  refine foldl_invariant Collision.updateAt
    (fun st => st.actives.length ≤ helper.actives.length ∧
      (st = helper ∨ st.actives.length < helper.actives.length))
    (fun st k hst => ?_) _ _ ⟨le_refl _, Or.inl rfl⟩
  rcases Collision_updateAt_actives st k with h | h
  · rw [h]; exact hst
  · exact ⟨by omega, Or.inr (by omega)⟩

theorem Gravity_update_actives (helper : Manager) (self : Gravity) (now : Int) (down : Bool) :
    (Gravity.update helper self now down).1.actives.length = helper.actives.length := by
  unfold Gravity.update
  dsimp only
  split
  · rw [Manager.actives_length, Manager.actives_length]
    simp only [List.countP_map]
    congr 1
    funext e
    simp only [Function.comp, Gravity.fall]
    split <;> rfl
  · rfl

theorem Movement.leftAt_actives (now : Int) (st : Manager × Movement) (k : Nat) :
    (Movement.leftAt now st k).1.actives.length = st.1.actives.length := by
  unfold Movement.leftAt
  rcases he : st.1.entities[k]? with _ | e
  · rfl
  · dsimp only
    split
    · rw [Manager.actives_length, Manager.actives_length]
      have := List.countP_set_eq (fun e : Entity => e.movable) st.1.entities k e
        { e with position := { e.position with x := e.position.x - 1 } } he
      simp only at this ⊢
      omega
    · rfl

theorem Movement.rightAt_actives (now : Int) (st : Manager × Movement) (k : Nat) :
    (Movement.rightAt now st k).1.actives.length = st.1.actives.length := by
  unfold Movement.rightAt
  rcases he : st.1.entities[k]? with _ | e
  · rfl
  · dsimp only
    split
    · rw [Manager.actives_length, Manager.actives_length]
      have := List.countP_set_eq (fun e : Entity => e.movable) st.1.entities k e
        { e with position := { e.position with x := e.position.x + 1 } } he
      simp only at this ⊢
      omega
    · rfl

theorem Movement_update_actives (helper : Manager) (self : Movement) (now : Int)
    (leftKey rightKey : Bool) :
    (Movement.update helper self now leftKey rightKey).1.actives.length
      = helper.actives.length := by
  unfold Movement.update
  split
  · split
    · exact foldl_invariant (Movement.leftAt now)
        (fun st => st.1.actives.length = helper.actives.length)
        (fun st k hst => by
          show (Movement.leftAt now st k).1.actives.length = helper.actives.length
          rw [Movement.leftAt_actives]; exact hst) _ _ rfl
    · split
      · exact foldl_invariant (Movement.rightAt now)
          (fun st => st.1.actives.length = helper.actives.length)
          (fun st k hst => by
            show (Movement.rightAt now st k).1.actives.length = helper.actives.length
            rw [Movement.rightAt_actives]; exact hst) _ _ rfl
      · rfl
  · rfl

theorem Rotation_updateAt_actives (st : Manager) (k : Nat) :
    (Rotation.updateAt st k).actives.length = st.actives.length := by
  unfold Rotation.updateAt
  rcases he : st.entities[k]? with _ | e
  · rfl
  · dsimp only
    split
    · split
      · rw [Manager.actives_length, Manager.actives_length]
        have := List.countP_set_eq (fun e : Entity => e.movable) st.entities k e
          { e with tile := { e.tile with shape := Rotation.rotated e.tile.shape } } he
        simp only at this ⊢
        omega
      · rfl
    · rfl

theorem Rotation_update_actives (helper : Manager) (self : Rotation) (now : Int)
    (space : Bool) :
    (Rotation.update helper self now space).1.actives.length = helper.actives.length := by
  unfold Rotation.update
  split
  · exact foldl_invariant Rotation.updateAt
      (fun st => st.actives.length = helper.actives.length)
      (fun st k hst => by
        show (Rotation.updateAt st k).actives.length = helper.actives.length
        rw [Rotation_updateAt_actives]; exact hst) _ _ rfl
  · rfl

theorem Manager.actives_eq_nil_iff (helper : Manager) :
    helper.actives = [] ↔ helper.noMovable = true := by
  rw [Manager.noMovable_iff]
  unfold Manager.actives
  rw [List.filter_eq_nil_iff]
  simp

theorem Factory.update_entities (helper : Manager) (self : Factory) (index1 index2 : Fin 7)
    (h : ∀ e ∈ helper.entities, e.movable = false) :
    (Factory.update helper self index1 index2).1.entities
      = helper.entities ++
        [Entity.mk (helper.player.next.getD ⟨SHAPES index2, Factory.color index2⟩)
          ⟨5, 0⟩ true] ∧
    (Factory.update helper self index1 index2).1.player.next
      = some ⟨SHAPES index1, Factory.color index1⟩ := by
  have hno : helper.noMovable = true := (Manager.noMovable_iff helper).2 h
  unfold Factory.update
  rw [if_pos hno]
  dsimp only
  have hx : MAX_WIDTH / 2 = 5 := by decide
  constructor
  · split <;> cases helper.player.next <;> simp [hx]
  · split <;> rfl

theorem Factory_update_actives (helper : Manager) (self : Factory) (index1 index2 : Fin 7) :
    (Factory.update helper self index1 index2).1.actives.length
      = if helper.actives = [] then 1 else helper.actives.length := by
  by_cases h : helper.actives = []
  · rw [if_pos h]
    have hno := (Manager.noMovable_iff helper).1 ((Manager.actives_eq_nil_iff helper).1 h)
    have hent := (Factory.update_entities helper self index1 index2 hno).1
    unfold Manager.actives at h ⊢
    rw [hent, List.filter_append, h]
    rfl
  · rw [if_neg h]
    have hno : helper.noMovable = false := by
      rw [← Bool.not_eq_true, ← Manager.actives_eq_nil_iff]
      exact h
    simp [Factory.update, hno]

theorem Cleaner_update_actives (helper : Manager) :
    (Cleaner.update helper).actives = helper.actives :=
  Cleaner.scan_actives helper _

theorem Game.tick_actives (g : Game) (i : Input) (h : g.helper.actives.length ≤ 1) :
    (Game.tick g i).helper.actives.length ≤ 1 := by
  have h1 : (Game.controllers g i).helper.actives.length ≤ 1 := by
    unfold Game.controllers
    split
    · exact h
    · simp only
      rw [Cleaner_update_actives, Rotation_update_actives, Movement_update_actives,
        Gravity_update_actives]
      exact le_trans (Collision_update_actives _).1 h
  have h2 : (Game.spawner (Game.controllers g i) i).helper.actives.length ≤ 1 := by
    unfold Game.spawner
    split
    · exact h1
    · split
      · exact h1
      · simp only
        rw [Factory_update_actives]
        split
        · exact le_refl _
        · exact h1
  unfold Game.tick Game.render
  split <;> exact h2

/-- C14. In every state the loop of `main` reaches at most one piece carries the `Movable`
marker.  `Collision::update` never increases the number of active pieces, and when it
changes a store with at most one active piece it leaves none; `Gravity::update`,
`Movement::update`, `Rotation::update` keep the number, `Cleaner::update` keeps the active
pieces themselves; `Factory::update` adds one active piece when there is none and nothing
otherwise. -/
theorem Game_single_active :
    (∀ g : Game, g.Reachable → g.helper.actives.length ≤ 1) ∧
    (∀ helper : Manager, (Collision.update helper).actives.length ≤ helper.actives.length) ∧
    (∀ helper : Manager, helper.actives.length ≤ 1 → Collision.update helper ≠ helper →
      (Collision.update helper).actives = []) ∧
    (∀ (helper : Manager) (self : Gravity) (now : Int) (down : Bool),
      (Gravity.update helper self now down).1.actives.length = helper.actives.length) ∧
    (∀ (helper : Manager) (self : Movement) (now : Int) (leftKey rightKey : Bool),
      (Movement.update helper self now leftKey rightKey).1.actives.length
        = helper.actives.length) ∧
    (∀ (helper : Manager) (self : Rotation) (now : Int) (space : Bool),
      (Rotation.update helper self now space).1.actives.length = helper.actives.length) ∧
    (∀ helper : Manager, (Cleaner.update helper).actives = helper.actives) ∧
    (∀ (helper : Manager) (self : Factory) (index1 index2 : Fin 7),
      (Factory.update helper self index1 index2).1.actives.length
        = if helper.actives = [] then 1 else helper.actives.length) := by
  refine ⟨?_, fun helper => (Collision_update_actives helper).1, ?_,
    Gravity_update_actives, Movement_update_actives, Rotation_update_actives,
    Cleaner_update_actives, Factory_update_actives⟩
  · rintro g ⟨inputs, rfl⟩
    unfold Game.run
    exact foldl_invariant Game.tick (fun g => g.helper.actives.length ≤ 1)
      (fun g i hg => Game.tick_actives g i hg) _ _ (by decide)
  · intro helper h1 hne
    rcases (Collision_update_actives helper).2 with h | h
    · exact absurd h hne
    · exact List.length_eq_zero.1 (by omega)


/-! ## Claim C12: every piece stays on the board -/

theorem foldl_range_invariant {σ : Type} (f : σ → Nat → σ) (I : Nat → σ → Prop)
    (hI : ∀ n s, I n s → I (n + 1) (f s n)) :
    ∀ (n : Nat) (s : σ), I 0 s → I n ((List.range n).foldl f s) := by
  intro n
  induction n with
  | zero => intro s hs; exact hs
  | succ n ih =>
    intro s hs
    rw [List.range_succ, List.foldl_append]
    exact hI n _ (ih s hs)

theorem Entity.sound_of_same {e b : Entity} (ht : b.tile.shape = e.tile.shape)
    (hp : b.position = e.position) (h : e.Sound) : b.Sound := by
  unfold Entity.Sound Entity.WellFormed Entity.cells at h ⊢
  rw [ht, hp]
  exact h

theorem Manager.Sound.setSound {st : Manager} (h : st.Sound) (k : Nat) {b : Entity} (hb : b.Sound) :
    Manager.Sound { st with entities := st.entities.set k b } := by
  refine ⟨fun e he => ?_, h.2⟩
  rcases List.mem_or_eq_of_mem_set he with h1 | h1
  · exact h.1 e h1
  · rw [h1]; exact hb

theorem Collision.bottom_wall {helper : Manager} {p : Position} {t : Tile} {next : Bool}
    (h : Collision.bottom helper p t next = true) :
    p.y + t.bottom + (if next then 1 else 0) < MAX_HEIGHT := by
  unfold Collision.bottom at h
  cases next <;> simp only [Bool.false_eq_true, if_false, if_true] at h ⊢ <;>
    (split at h <;> [exact Bool.noConfusion h; exact of_decide_eq_true h])

theorem Collision.left_wall {helper : Manager} {p : Position} {t : Tile} {next : Bool}
    (h : Collision.left helper p t next = true) :
    p.x + t.left > (if next then 0 else -1) := by
  unfold Collision.left at h
  cases next <;> simp only [Bool.false_eq_true, if_false, if_true] at h ⊢ <;>
    (split at h <;> [exact Bool.noConfusion h; exact of_decide_eq_true h])

theorem Collision.right_wall {helper : Manager} {p : Position} {t : Tile} {next : Bool}
    (h : Collision.right helper p t next = true) :
    p.x + t.right + (if next then 1 else 0) < MAX_WIDTH := by
  unfold Collision.right at h
  cases next <;> simp only [Bool.false_eq_true, if_false, if_true] at h ⊢ <;>
    (split at h <;> [exact Bool.noConfusion h; exact of_decide_eq_true h])

/-- After the settling check every piece that still carries the marker has room below:
its lowest set row is above the last row of the board. -/
theorem Collision_update_sound (helper : Manager) (h : helper.Sound) :
    (Collision.update helper).Sound ∧
    ∀ e ∈ (Collision.update helper).entities, e.movable = true →
      e.position.y + e.tile.bottom + 1 < MAX_HEIGHT := by
  have key := foldl_range_invariant Collision.updateAt
    (fun n st => st.Sound ∧ st.entities.length = helper.entities.length ∧
      ∀ j e, j < n → st.entities[j]? = some e → e.movable = true →
        e.position.y + e.tile.bottom + 1 < MAX_HEIGHT)
    (fun n st hst => by
      obtain ⟨h1, h2, h3⟩ := hst
      unfold Collision.updateAt
      rcases he : st.entities[n]? with _ | e
      · refine ⟨h1, h2, fun j b hj hb hm => ?_⟩
        rcases Nat.lt_succ_iff_lt_or_eq.1 hj with hj1 | hj1
        · exact h3 j b hj1 hb hm
        · subst hj1
          rw [he] at hb
          exact Option.noConfusion hb
      · dsimp only
        have hemem : e ∈ st.entities := List.mem_of_getElem?_some he
        split
        · refine ⟨h1.setSound n (Entity.sound_of_same rfl rfl (h1.1 e hemem)),
            by simp only [List.length_set]; exact h2, fun j b hj hb hm => ?_⟩
          simp only at hb
          rcases Nat.lt_succ_iff_lt_or_eq.1 hj with hj1 | hj1
          · rw [List.getElem?_set_ne (by omega)] at hb
            exact h3 j b hj1 hb hm
          · subst hj1
            rw [List.getElem?_set_self (List.getElem?_eq_some.1 he).1] at hb
            cases hb
            exact Bool.noConfusion hm
        · rename_i hc
          refine ⟨h1, h2, fun j b hj hb hm => ?_⟩
          rcases Nat.lt_succ_iff_lt_or_eq.1 hj with hj1 | hj1
          · exact h3 j b hj1 hb hm
          · subst hj1
            rw [he] at hb
            cases hb
            have hbot : Collision.bottom st e.position e.tile true = true := by
              simpa [hm] using hc
            have := Collision.bottom_wall hbot
            simpa using this)
    helper.entities.length helper ⟨h, rfl, fun j e hj => absurd hj (Nat.not_lt_zero _)⟩
  obtain ⟨k1, k2, k3⟩ := key
  refine ⟨k1, fun e he hm => ?_⟩
  have he1 : e ∈ ((List.range helper.entities.length).foldl Collision.updateAt
      helper).entities := he
  obtain ⟨j, hj, hje⟩ := List.getElem_of_mem he1
  exact k3 j e (by rw [← k2]; exact hj) (by rw [List.getElem?_eq_getElem hj, hje]) hm


theorem Entity.Sound.cell {e : Entity} (h : e.Sound) {q c : Nat}
    (hc : e.tile.shape.cell q c = true) :
    0 ≤ e.position.x + c ∧ e.position.x + c < MAX_WIDTH ∧ e.position.y + q < MAX_HEIGHT :=
  have := h.2.2 (e.position.x + c, e.position.y + q) (Entity.mem_cells_iff.2 ⟨c, q, hc, rfl, rfl⟩)
  ⟨this.1, this.2.1, this.2.2.2⟩

theorem Entity.sound_of_cells {e : Entity} (hw : e.WellFormed) (hy : 0 ≤ e.position.y)
    (h : ∀ q c : Nat, e.tile.shape.cell q c = true →
      0 ≤ e.position.x + c ∧ e.position.x + c < MAX_WIDTH ∧ e.position.y + q < MAX_HEIGHT) :
    e.Sound := by
  refine ⟨hw, hy, ?_⟩
  rintro ⟨X, Y⟩ hc
  obtain ⟨x, y, hxy, hX, hY⟩ := Entity.mem_cells_iff.1 hc
  obtain ⟨h1, h2, h3⟩ := h y x hxy
  simp only at hX hY ⊢
  refine ⟨?_, ?_, ?_, ?_⟩ <;> omega

theorem Gravity.fall_sound {e : Entity} (h : e.Sound)
    (hroom : e.movable = true → e.position.y + e.tile.bottom + 1 < MAX_HEIGHT) :
    (Gravity.fall e).Sound := by
  unfold Gravity.fall
  split
  · rename_i hm
    have hr := hroom hm
    obtain ⟨⟨w1, w2, w3, w4⟩, hy, -⟩ := id h
    unfold MAX_HEIGHT at hr
    apply Entity.sound_of_cells
    · exact ⟨w1, w2, by simp only; omega, by simp only; omega⟩
    · simp only; omega
    · intro q c hc
      obtain ⟨h1, h2, h3⟩ := h.cell hc
      have := Tile.bottom_max e.tile hc
      unfold MAX_HEIGHT
      simp only
      refine ⟨h1, h2, ?_⟩
      omega
  · exact h

theorem Gravity_update_sound (helper : Manager) (self : Gravity) (now : Int) (down : Bool)
    (h : helper.Sound)
    (hroom : ∀ e ∈ helper.entities, e.movable = true →
      e.position.y + e.tile.bottom + 1 < MAX_HEIGHT) :
    (Gravity.update helper self now down).1.Sound := by
  unfold Gravity.update
  dsimp only
  split
  · refine ⟨fun b hb => ?_, h.2⟩
    simp only [List.mem_map] at hb
    obtain ⟨e, he, rfl⟩ := hb
    exact Gravity.fall_sound (h.1 e he) (hroom e he)
  · exact h

theorem Movement.leftAt_sound (now : Int) (st : Manager × Movement) (k : Nat)
    (h : st.1.Sound) : (Movement.leftAt now st k).1.Sound := by
  unfold Movement.leftAt
  rcases he : st.1.entities[k]? with _ | e
  · exact h
  · dsimp only
    split
    · rename_i hc
      simp only [Bool.and_eq_true] at hc
      have hwall := Collision.left_wall hc.2
      simp only [if_true] at hwall
      have hs := h.1 e (List.mem_of_getElem?_some he)
      apply h.setSound
      refine Entity.sound_of_cells ⟨hs.1.1, hs.1.2.1, hs.1.2.2.1, hs.1.2.2.2⟩ hs.2.1 ?_
      intro q c hq
      obtain ⟨h1, h2, h3⟩ := hs.cell hq
      have := Tile.left_min e.tile hs.1.1 hq
      simp only
      refine ⟨?_, ?_, h3⟩ <;> omega
    · exact h

theorem Movement.rightAt_sound (now : Int) (st : Manager × Movement) (k : Nat)
    (h : st.1.Sound) : (Movement.rightAt now st k).1.Sound := by
  unfold Movement.rightAt
  rcases he : st.1.entities[k]? with _ | e
  · exact h
  · dsimp only
    split
    · rename_i hc
      simp only [Bool.and_eq_true] at hc
      have hwall := Collision.right_wall hc.2
      simp only [if_true] at hwall
      have hs := h.1 e (List.mem_of_getElem?_some he)
      apply h.setSound
      refine Entity.sound_of_cells ⟨hs.1.1, hs.1.2.1, hs.1.2.2.1, hs.1.2.2.2⟩ hs.2.1 ?_
      intro q c hq
      obtain ⟨h1, h2, h3⟩ := hs.cell hq
      have := Tile.right_max e.tile hs.1.1 hq
      simp only
      refine ⟨?_, ?_, h3⟩ <;> omega
    · exact h

theorem Movement_update_sound (helper : Manager) (self : Movement) (now : Int)
    (leftKey rightKey : Bool) (h : helper.Sound) :
    (Movement.update helper self now leftKey rightKey).1.Sound := by
  unfold Movement.update
  split
  · split
    · exact foldl_invariant (Movement.leftAt now) (fun st => st.1.Sound)
        (fun st k hst => Movement.leftAt_sound now st k hst) _ _ h
    · split
      · exact foldl_invariant (Movement.rightAt now) (fun st => st.1.Sound)
          (fun st k hst => Movement.rightAt_sound now st k hst) _ _ h
      · exact h
  · exact h

theorem Rotation.rotated_length (s : Shape) : (Rotation.rotated s).length = s.length := by
  simp [Rotation.rotated]

theorem Rotation.updateAt_sound (st : Manager) (k : Nat) (h : st.Sound) :
    (Rotation.updateAt st k).Sound := by
  unfold Rotation.updateAt
  rcases he : st.entities[k]? with _ | e
  · exact h
  · dsimp only
    split
    · split
      · rename_i hc
        simp only [Bool.and_eq_true] at hc
        have hb := Collision.bottom_wall hc.1.1
        have hr := Collision.right_wall hc.1.2
        have hl := Collision.left_wall hc.2
        simp only [Bool.false_eq_true, if_false, add_zero] at hb hr hl
        have hs := h.1 e (List.mem_of_getElem?_some he)
        obtain ⟨⟨w1, w2, w3, w4⟩, hy, -⟩ := id hs
        have hsq := Rotation.rotated_square w1
        apply h.setSound
        apply Entity.sound_of_cells
        · exact ⟨hsq, by simp only [Rotation.rotated_length]; exact w2, w3, w4⟩
        · exact hy
        · intro q c hq
          simp only at hq ⊢
          have b1 := Tile.bottom_max ⟨Rotation.rotated e.tile.shape, e.tile.color⟩ hq
          have b2 := Tile.right_max ⟨Rotation.rotated e.tile.shape, e.tile.color⟩ hsq hq
          have b3 := Tile.left_min ⟨Rotation.rotated e.tile.shape, e.tile.color⟩ hsq hq
          refine ⟨?_, ?_, ?_⟩ <;> omega
      · exact h
    · exact h

theorem Rotation_update_sound (helper : Manager) (self : Rotation) (now : Int) (space : Bool)
    (h : helper.Sound) : (Rotation.update helper self now space).1.Sound := by
  unfold Rotation.update
  split
  · exact foldl_invariant Rotation.updateAt (fun st => st.Sound)
      (fun st k hst => Rotation.updateAt_sound st k hst) _ _ h
  · exact h


theorem Cleaner.sweep_erase_sound {e b : Entity} (hm : e.movable = false) (hs : e.Sound)
    {line : Int} (h0 : 0 ≤ line) (h1 : line < 24)
    (hsw : Cleaner.sweep (Cleaner.erase e line) line = some b) : b.Sound := by
  have hw1 := Cleaner.erase_wellFormed line hs.1
  have hm1 : (Cleaner.erase e line).movable = false := hm
  have hcell := Cleaner.erase_cell hm hs.1 h0 (by omega : line < 2 ^ 31)
  have hwb := Cleaner.sweep_wellFormed (by omega : line < 2 ^ 31 - 1) hw1 hsw
  obtain ⟨-, -, fx, -, -, fy⟩ := Cleaner.sweep_frame hsw
  have hy : 0 ≤ e.position.y := hs.2.1
  have hy1 : (Cleaner.erase e line).position.y = e.position.y := rfl
  have hx1 : (Cleaner.erase e line).position.x = e.position.x := rfl
  apply Entity.sound_of_cells hwb (by omega)
  intro q c hq
  unfold Cleaner.sweep at hsw
  rw [hm1] at hsw
  simp only [Bool.false_eq_true, if_false] at hsw
  split at hsw
  · exact Option.noConfusion hsw
  · split at hsw
    · rename_i hyl
      split at hsw
      · rename_i hbl
        cases hsw
        simp only at hq ⊢
        have hq1 := Tile.bottom_max (Cleaner.erase e line).tile hq
        have hq2 := hq
        rw [hcell] at hq2
        simp only [Bool.and_eq_true, decide_eq_true_eq] at hq2
        obtain ⟨c1, c2, c3⟩ := hs.cell hq2.1
        have := hq2.2
        unfold MAX_HEIGHT
        refine ⟨by omega, by omega, by omega⟩
      · cases hsw
        simp only at hq ⊢
        rcases (Cleaner.pushRows_spec _ _).2.2.2 q c hq with h | ⟨h2, p, hp, h3⟩
        · obtain ⟨c1, c2, c3⟩ := hs.cell (Cleaner.erase_cell_le e line h)
          exact ⟨by omega, by omega, by omega⟩
        · obtain ⟨c1, c2, c3⟩ := hs.cell (Cleaner.erase_cell_le e line h3)
          unfold MAX_HEIGHT
          refine ⟨by omega, by omega, by omega⟩
    · cases hsw
      obtain ⟨c1, c2, c3⟩ := hs.cell (Cleaner.erase_cell_le e line hq)
      exact ⟨by omega, by omega, by omega⟩

theorem Cleaner.line_sound (helper : Manager) {line : Int} (h0 : 0 ≤ line) (h1 : line < 24)
    (h : helper.Sound) : (Cleaner.line helper line).Sound := by
  unfold Cleaner.line
  split
  · exact h
  · refine ⟨fun b hb => ?_, h.2⟩
    simp only [List.mem_filterMap, List.mem_map] at hb
    obtain ⟨e1, ⟨e, he, rfl⟩, hsw⟩ := hb
    cases hm : e.movable
    · exact Cleaner.sweep_erase_sound hm (h.1 e he) h0 h1 hsw
    · rw [Cleaner.erase_movable hm, Cleaner.sweep_movable hm] at hsw
      exact Option.some.inj hsw ▸ h.1 e he

theorem Cleaner_update_sound (helper : Manager) (h : helper.Sound) :
    (Cleaner.update helper).Sound := by
  unfold Cleaner.update Cleaner.scan
  refine foldl_invariant_mem (fun h (line : Nat) => Cleaner.line h line)
    (fun st => st.Sound) _ (fun st line hline hst => ?_) _ h
  have : line < 24 := List.mem_range.1 hline
  exact Cleaner.line_sound st (by omega) (by omega) hst

theorem Factory.spawn_sound (k : Fin 7) :
    Entity.Sound (Entity.mk ⟨SHAPES k, Color.Red⟩ ⟨5, 0⟩ true) := by
  revert k
  decide

theorem Factory_update_sound (helper : Manager) (self : Factory) (index1 index2 : Fin 7)
    (h : helper.Sound) : (Factory.update helper self index1 index2).1.Sound := by
  by_cases hno : helper.noMovable = true
  · obtain ⟨hent, hnext⟩ := Factory.update_entities helper self index1 index2
      ((Manager.noMovable_iff helper).1 hno)
    refine ⟨fun e he => ?_, fun t ht => ?_⟩
    · rw [hent, List.mem_append, List.mem_singleton] at he
      rcases he with he | rfl
      · exact h.1 e he
      · rcases hn : helper.player.next with _ | t
        · exact Entity.sound_of_same (e := Entity.mk ⟨SHAPES index2, Color.Red⟩ ⟨5, 0⟩ true)
            rfl rfl (Factory.spawn_sound index2)
        · obtain ⟨k, hk⟩ := h.2 t hn
          exact Entity.sound_of_same (e := Entity.mk ⟨SHAPES k, Color.Red⟩ ⟨5, 0⟩ true)
            hk rfl (Factory.spawn_sound k)
    · rw [hnext] at ht
      cases ht
      exact ⟨index1, rfl⟩
  · have : Factory.update helper self index1 index2 = (helper, self) := by
      simp [Factory.update, hno]
    rw [this]
    exact h

theorem Game.tick_sound (g : Game) (i : Input) (h : g.helper.Sound) :
    (Game.tick g i).helper.Sound := by
  have h1 : (Game.controllers g i).helper.Sound := by
    unfold Game.controllers
    split
    · exact h
    · simp only
      have hc := Collision_update_sound g.helper h
      exact Cleaner_update_sound _ (Rotation_update_sound _ _ _ _
        (Movement_update_sound _ _ _ _ _ (Gravity_update_sound _ _ _ _ hc.1 hc.2)))
  have h2 : (Game.spawner (Game.controllers g i) i).helper.Sound := by
    unfold Game.spawner
    split
    · exact h1
    · split
      · exact h1
      · exact Factory_update_sound _ _ _ _ h1
  unfold Game.tick Game.render
  split <;> exact h2

theorem Game.reachable_sound (g : Game) (h : g.Reachable) : g.helper.Sound := by
  obtain ⟨inputs, rfl⟩ := h
  unfold Game.run
  refine foldl_invariant Game.tick (fun g => g.helper.Sound)
    (fun g i hg => Game.tick_sound g i hg) _ _ ?_
  exact ⟨fun e he => absurd he (List.not_mem_nil _), fun t ht => Option.noConfusion ht⟩

/-- C12. In every state the loop of `main` reaches from its initial state (one `Player`, no
tile), whatever the keys, the clock readings, the random draws and the pauses, every set
cell of every piece, active or static, has an absolute column in `[0, MAX_WIDTH)` and an
absolute row in `[0, MAX_HEIGHT)`. -/
theorem Game_reachable_in_board (g : Game) (h : g.Reachable) : g.helper.InBoard :=
  fun e he c hc => (Game.reachable_sound g h).1 e he |>.2.2 c hc

/-- Instance of C12: the state reached on the inputs `overlapTrace`. -/
theorem Game_reachable_in_board_witness : (Game.run Game.init overlapTrace).helper.InBoard :=
  Game_reachable_in_board (Game.run Game.init overlapTrace) ⟨overlapTrace, rfl⟩


/-! ## A shape with a gap -/

/-- Why the pieces of claim C21 are asked to have no gap.  `boardHole` is a board of
square, pairwise non-overlapping static pieces inside the board; row 22 holds 10 cells and
row 21 holds 9 (column 0 is free); its piece `longEnds` has a gap, a shape no play
produces.  One `Cleaner::update` clears row 22 and scores 10, but leaves row 22 full again:
the nine cells of row 21 come down, and the straddle loop carries the top cell of
`longEnds` from row 20 through row 21 into the cell `(0, 22)`.  A second pass right after
clears that row and scores another 10. -/
theorem Cleaner_update_leaves_full_row :
    ¬ longEnds.NoGap ∧
    boardHole.StaticsSquare ∧ boardHole.NonOverlapping ∧ boardHole.InBoard ∧
    boardHole.rowCount 21 = 9 ∧ boardHole.rowCount 22 = 10 ∧
    (Cleaner.update boardHole).player.score = 10 ∧
    (Cleaner.update boardHole).rowCount 22 = 10 ∧
    (∀ x ∈ List.range 10, (Cleaner.update boardHole).grid x 22 = true) ∧
    (Cleaner.update boardHole).entities.map Entity.cells
      = [[(0, 22), (0, 23)], [(1, 22), (2, 22), (3, 22), (4, 22)],
         [(5, 22), (6, 22), (7, 22), (8, 22)], [(9, 19), (9, 20), (9, 21), (9, 22)],
         [(8, 23), (9, 23)]] ∧
    Cleaner.update (Cleaner.update boardHole) ≠ Cleaner.update boardHole ∧
    (Cleaner.update (Cleaner.update boardHole)).player.score = 20 := by
  decide


/-! ## Claim C21: no full row is left by a pass -/

theorem Shape.NoGap.apply {s : Shape} (h : s.NoGap) (hs : s.Square) {p q b c d : Nat}
    (hpq : p ≤ q) (hqb : q + 2 ≤ b) (h1 : s.cell p c = true) (h2 : s.cell b d = true) :
    s.cell q c = true := by
  obtain ⟨hp, hc⟩ := hs.cell_lt h1
  obtain ⟨hb, hd⟩ := hs.cell_lt h2
  exact h b (List.mem_range.2 hb) p (List.mem_range.2 hp) q (List.mem_range.2 (by omega))
    c (List.mem_range.2 hc) d (List.mem_range.2 hd) hpq hqb h1 h2

theorem Shape.noGap_of_forall {s : Shape}
    (h : ∀ p q b c d : Nat, p ≤ q → q + 2 ≤ b → s.cell p c = true → s.cell b d = true →
      s.cell q c = true) : s.NoGap :=
  fun b _ p _ q _ c _ d _ hpq hqb h1 h2 => h p q b c d hpq hqb h1 h2

/-- After the inner loop of the straddle branch on row `y`, row `y` holds no set cell. -/
theorem Cleaner.pushFold_row (y : Nat) (xs : List Nat) (s : Shape) (c : Nat)
    (h : (xs.foldl (fun s x => if s.cell y x then (s.setCell y x false).setCell (y + 1) x true
        else s) s).cell y c = true) : s.cell y c = true ∧ c ∉ xs := by
  induction xs generalizing s with
  | nil => exact ⟨h, List.not_mem_nil _⟩
  | cons x xs ih =>
    simp only [List.foldl_cons] at h
    obtain ⟨h1, h2⟩ := ih _ h
    have key : s.cell y c = true ∧ c ≠ x := by
      cases hx : s.cell y x
      · rw [hx] at h1
        simp only [Bool.false_eq_true, if_false] at h1
        refine ⟨h1, fun hcx => ?_⟩
        rw [hcx, hx] at h1
        exact Bool.noConfusion h1
      · rw [hx] at h1
        simp only [if_true] at h1
        rw [Shape.cell_setCell, if_neg (by omega), Shape.cell_setCell_false] at h1
        rw [Bool.and_eq_true] at h1
        refine ⟨h1.1, fun hcx => ?_⟩
        have h2 := h1.2
        rw [hcx] at h2
        simp at h2
    exact ⟨key.1, fun hmem => by
      rcases List.mem_cons.1 hmem with h3 | h3
      · exact key.2 h3
      · exact h2 h3⟩

theorem Cleaner.pushRow_row (s : Shape) (y c : Nat) : (Cleaner.pushRow s y).cell y c = false := by
  rw [← Bool.not_eq_true]
  intro h
  have hb := (Shape.cell_bounds h).2
  rw [(Cleaner.pushRow_spec s y).2.1 y] at hb
  exact (Cleaner.pushFold_row y _ s c h).2 (List.mem_range.2 hb)

theorem Cleaner.pushRows_fold_rows (m : Nat) (s : Shape) :
    ∀ q c, q < m → ((List.range m).foldl Cleaner.pushRow s).cell q c = false := by
  induction m with
  | zero => intro q c hq; omega
  | succ m ih =>
    intro q c hq
    rw [List.range_succ, List.foldl_append]
    simp only [List.foldl_cons, List.foldl_nil]
    by_cases h : q = m
    · subst h
      exact Cleaner.pushRow_row _ _ _
    · rw [Shape.cell_congr ((Cleaner.pushRow_spec _ m).2.2.1 q h (by omega))]
      exact ih q c (by omega)

/-- After the straddle loop the rows above the cleared one hold no set cell. -/
theorem Cleaner.pushRows_rows (s : Shape) (k : Int) {q : Nat} (c : Nat) (hq : q < k.toNat) :
    (Cleaner.pushRows s k).cell q c = false := by
  rw [← Bool.not_eq_true]
  intro h
  have hb := (Shape.cell_bounds h).1
  rw [(Cleaner.pushRows_spec s k).1] at hb
  have := Cleaner.pushRows_fold_rows (min k.toNat s.length) s q c (by omega)
  unfold Cleaner.pushRows at h
  rw [this] at h
  exact Bool.noConfusion h


/-- What the clearing of row `line` makes of a static piece that stays in the store: the
piece is shifted down whole, with all its cells above the row; or it straddles the row,
the rows above the row are emptied into it and the rows below are kept; or it lies below
the row and is untouched. -/
theorem Cleaner.sweep_erase_cases {e b : Entity} (hm : e.movable = false) (hw : e.WellFormed)
    {line : Int} (h0 : 0 ≤ line) (h1 : line < 2 ^ 31 - 1)
    (hsw : Cleaner.sweep (Cleaner.erase e line) line = some b) :
    b.position.x = e.position.x ∧
    ((b.position.y = e.position.y + 1 ∧
        (∀ q c, b.tile.shape.cell q c
          = (e.tile.shape.cell q c && decide (e.position.y + q ≠ line))) ∧
        ∀ q c, b.tile.shape.cell q c = true → e.position.y + q < line) ∨
      (b.position.y = e.position.y ∧ e.position.y ≤ line ∧
        (∃ r d, (line - e.position.y).toNat < r ∧ e.tile.shape.cell r d = true) ∧
        (∀ q c, q < (line - e.position.y).toNat → b.tile.shape.cell q c = false) ∧
        (∀ c, b.tile.shape.cell (line - e.position.y).toNat c = true →
          ∃ p, p < (line - e.position.y).toNat ∧ e.tile.shape.cell p c = true) ∧
        (∀ q c, (line - e.position.y).toNat < q →
          b.tile.shape.cell q c = e.tile.shape.cell q c)) ∨
      (b.position.y = e.position.y ∧ line < e.position.y ∧
        ∀ q c, b.tile.shape.cell q c = e.tile.shape.cell q c)) := by
  have hm1 : (Cleaner.erase e line).movable = false := hm
  have hcell := Cleaner.erase_cell hm hw h0 (by omega : line < 2 ^ 31)
  refine ⟨(Cleaner.sweep_frame hsw).2.2.1, ?_⟩
  unfold Cleaner.sweep at hsw
  rw [hm1] at hsw
  simp only [Bool.false_eq_true, if_false] at hsw
  split at hsw
  · exact Option.noConfusion hsw
  · split at hsw
    · rename_i hyl
      have hyl1 : e.position.y ≤ line := hyl
      split at hsw
      · rename_i hbl
        cases hsw
        refine Or.inl ⟨rfl, fun q c => hcell q c, fun q c hq => ?_⟩
        simp only at hq
        have hq1 := Tile.bottom_max (Cleaner.erase e line).tile hq
        rw [hcell] at hq
        simp only [Bool.and_eq_true, decide_eq_true_eq] at hq
        have hbl1 : e.position.y + ((Cleaner.erase e line).tile.bottom : Int) ≤ line := hbl
        have := hq.2
        omega
      · rename_i hbl
        cases hsw
        have hbl1 : ¬ e.position.y + ((Cleaner.erase e line).tile.bottom : Int) ≤ line := hbl
        have hpos : 0 < (Cleaner.erase e line).tile.bottom := by omega
        have hrow : (Cleaner.erase e line).tile.shape.rowAny
            (Cleaner.erase e line).tile.bottom = true := by
          rcases Tile.bottomFrom_hit (Cleaner.erase e line).tile.shape
            ((Cleaner.erase e line).tile.shape.length - 1) with h2 | h2
          · unfold Tile.bottom at hpos; omega
          · exact h2
        obtain ⟨d, hd⟩ := Shape.rowAny_iff.1 hrow
        refine Or.inr (Or.inl ⟨rfl, hyl1, ⟨_, d, by omega, Cleaner.erase_cell_le e line hd⟩,
          fun q c hq => Cleaner.pushRows_rows _ _ c hq, fun c hc => ?_, fun q c hq => ?_⟩)
        · simp only at hc
          rcases (Cleaner.pushRows_spec _ _).2.2.2 _ c hc with h2 | ⟨-, p, hp, h3⟩
          · rw [hcell] at h2
            simp only [Bool.and_eq_true, decide_eq_true_eq] at h2
            have := h2.2
            omega
          · exact ⟨p, hp, Cleaner.erase_cell_le e line h3⟩
        · simp only
          have h3 := Shape.cell_congr ((Cleaner.pushRows_spec (Cleaner.erase e line).tile.shape
            (line - (Cleaner.erase e line).position.y)).2.2.1 q hq) c
          rw [h3, hcell]
          have : decide (e.position.y + (q : Int) ≠ line) = true := by
            simp only [decide_eq_true_eq]
            omega
          rw [this, Bool.and_true]
    · rename_i hyl
      cases hsw
      refine Or.inr (Or.inr ⟨rfl, by have : ¬ e.position.y ≤ line := hyl; omega,
        fun q c => ?_⟩)
      rw [hcell]
      have : decide (e.position.y + (q : Int) ≠ line) = true := by
        have : ¬ e.position.y ≤ line := hyl
        simp only [decide_eq_true_eq]
        omega
      rw [this, Bool.and_true]


theorem Entity.Settled.row {e : Entity} (h : e.Settled) {q c : Nat}
    (hc : e.tile.shape.cell q c = true) : 0 ≤ e.position.y + q :=
  h.2.2 (e.position.x + c, e.position.y + q) (Entity.mem_cells_iff.2 ⟨c, q, hc, rfl, rfl⟩)

theorem Cleaner.sweep_erase_settled {e b : Entity} (hm : e.movable = false) (hs : e.Settled)
    {line : Int} (h0 : 0 ≤ line) (h1 : line < 2 ^ 31 - 1)
    (hsw : Cleaner.sweep (Cleaner.erase e line) line = some b) : b.Settled := by
  obtain ⟨hw, hgap, -⟩ := id hs
  have hwb := Cleaner.sweep_wellFormed h1 (Cleaner.erase_wellFormed line hw) hsw
  obtain ⟨-, hcases⟩ := Cleaner.sweep_erase_cases hm hw h0 h1 hsw
  rcases hcases with ⟨hy, hc1, hc2⟩ | ⟨hy, hyl, -, r1, r2, r3⟩ | ⟨hy, -, hc⟩
  · refine ⟨hwb, Shape.noGap_of_forall fun p q bo c d hpq hqb h2 h3 => ?_, ?_⟩
    · have e2 := h2
      have e3 := h3
      rw [hc1] at e2 e3
      simp only [Bool.and_eq_true, decide_eq_true_eq] at e2 e3
      have := hc2 bo d h3
      rw [hc1, hgap.apply hw.1 hpq hqb e2.1 e3.1]
      simp only [Bool.true_and, decide_eq_true_eq]
      omega
    · rintro ⟨X, Y⟩ hmem
      obtain ⟨x, y, hxy, -, hY⟩ := Entity.mem_cells_iff.1 hmem
      have e2 := hxy
      rw [hc1] at e2
      simp only [Bool.and_eq_true, decide_eq_true_eq] at e2
      have := hs.row e2.1
      simp only at hY ⊢
      omega
  · refine ⟨hwb, Shape.noGap_of_forall fun p q bo c d hpq hqb h2 h3 => ?_, ?_⟩
    · have hbo : (line - e.position.y).toNat < bo := by
        by_contra hcon
        rcases Nat.lt_or_ge bo (line - e.position.y).toNat with h4 | h4
        · rw [r1 bo d h4] at h3; exact Bool.noConfusion h3
        · have : (line - e.position.y).toNat ≤ p := by
            by_contra h5
            rw [r1 p c (by omega)] at h2
            exact Bool.noConfusion h2
          omega
      have e3 : e.tile.shape.cell bo d = true := by rw [← r3 bo d hbo]; exact h3
      rcases Nat.lt_trichotomy p (line - e.position.y).toNat with h4 | h4 | h4
      · rw [r1 p c h4] at h2; exact Bool.noConfusion h2
      · rw [h4] at h2
        obtain ⟨p0, hp0, e2⟩ := r2 c h2
        rcases Nat.eq_or_lt_of_le hpq with h5 | h5
        · rw [← h5, h4]; exact h2
        · rw [r3 q c (by omega)]
          exact hgap.apply hw.1 (by omega) hqb e2 e3
      · rw [r3 p c h4] at h2
        rw [r3 q c (by omega)]
        exact hgap.apply hw.1 hpq hqb h2 e3
    · rintro ⟨X, Y⟩ hmem
      obtain ⟨x, y, hxy, -, hY⟩ := Entity.mem_cells_iff.1 hmem
      simp only at hY ⊢
      rcases Nat.lt_trichotomy y (line - e.position.y).toNat with h4 | h4 | h4
      · rw [r1 y x h4] at hxy; exact Bool.noConfusion hxy
      · omega
      · rw [r3 y x h4] at hxy
        have := hs.row hxy
        omega
  · refine ⟨hwb, Shape.noGap_of_forall fun p q bo c d hpq hqb h2 h3 => ?_, ?_⟩
    · rw [hc] at h2 h3 ⊢
      exact hgap.apply hw.1 hpq hqb h2 h3
    · rintro ⟨X, Y⟩ hmem
      obtain ⟨x, y, hxy, -, hY⟩ := Entity.mem_cells_iff.1 hmem
      rw [hc] at hxy
      have := hs.row hxy
      simp only at hY ⊢
      omega

/-- A cell that the clearing of row `line` leaves on a row `r ≤ line` comes from the cell
one row higher in the same column. -/
theorem Cleaner.sweep_erase_above {e b : Entity} (hm : e.movable = false) (hs : e.Settled)
    {line : Int} (h0 : 0 ≤ line) (h1 : line < 2 ^ 31 - 1)
    (hsw : Cleaner.sweep (Cleaner.erase e line) line = some b) (X r : Int) (hr : r ≤ line)
    (hmem : (X, r) ∈ b.cells) : (X, r - 1) ∈ e.cells := by
  obtain ⟨hw, hgap, -⟩ := id hs
  obtain ⟨hx, hcases⟩ := Cleaner.sweep_erase_cases hm hw h0 h1 hsw
  obtain ⟨x, y, hxy, hX, hY⟩ := Entity.mem_cells_iff.1 hmem
  rw [Entity.mem_cells_iff]
  rcases hcases with ⟨hy, hc1, hc2⟩ | ⟨hy, hyl, ⟨bo, d, hbo, e3⟩, r1, r2, r3⟩ | ⟨hy, hlt, hc⟩
  · rw [hc1] at hxy
    simp only [Bool.and_eq_true, decide_eq_true_eq] at hxy
    exact ⟨x, y, hxy.1, by omega, by omega⟩
  · rcases Nat.lt_trichotomy y (line - e.position.y).toNat with h4 | h4 | h4
    · rw [r1 y x h4] at hxy; exact Bool.noConfusion hxy
    · rw [h4] at hxy
      obtain ⟨p0, hp0, e2⟩ := r2 x hxy
      refine ⟨x, (line - e.position.y).toNat - 1,
        hgap.apply hw.1 (by omega) (by omega) e2 e3, by omega, by omega⟩
    · omega
  · omega


theorem Entity.row_length_le (b e : Entity) (r s : Int)
    (h : ∀ X, (X, r) ∈ b.cells → (X, s) ∈ e.cells) :
    (b.cells.filter fun c => decide (c.2 = r)).length
      ≤ (e.cells.filter fun c => decide (c.2 = s)).length := by
  have hnd : ((b.cells.filter fun c => decide (c.2 = r)).map fun c => (c.1, s)).Nodup := by
    apply List.Nodup.map_on _ ((Entity_cells_nodup b).filter _)
    intro a ha c hc hac
    have h1 := (List.mem_filter.1 ha).2
    have h2 := (List.mem_filter.1 hc).2
    simp only [decide_eq_true_eq] at h1 h2
    exact Prod.ext (Prod.mk.inj hac).1 (by rw [h1, h2])
  have hsub : ((b.cells.filter fun c => decide (c.2 = r)).map fun c => (c.1, s))
      ⊆ e.cells.filter fun c => decide (c.2 = s) := by
    intro c hc
    simp only [List.mem_map, List.mem_filter, decide_eq_true_eq] at hc
    obtain ⟨⟨X, Y⟩, ⟨hmem, hY⟩, rfl⟩ := hc
    simp only at hY
    subst hY
    simp only [List.mem_filter, decide_eq_true_eq, and_true]
    exact h X hmem
  have := (hnd.subperm hsub).length_le
  simpa using this

theorem Cleaner.sweep_erase_collect_above {e b : Entity} (hm : e.movable = false)
    (hs : e.Settled) {line : Int} (h0 : 0 ≤ line) (h1 : line < 2 ^ 31 - 1)
    (hsw : Cleaner.sweep (Cleaner.erase e line) line = some b) (r : Nat) (hr : (r : Int) ≤ line) :
    (Cleaner.collect b r).length ≤ (if r = 0 then 0 else (Cleaner.collect e ((r : Int) - 1)).length) := by
  have hsb := Cleaner.sweep_erase_settled hm hs h0 h1 hsw
  have hmb : b.movable = false := by rw [(Cleaner.sweep_frame hsw).1]; exact hm
  have habove := Cleaner.sweep_erase_above hm hs h0 h1 hsw
  by_cases hr0 : r = 0
  · rw [if_pos hr0]
    subst hr0
    have hnil : Cleaner.collect b ((0 : Nat) : Int) = [] := by
      apply Cleaner.collect_eq_nil hmb hsb.1 (le_refl _) (by norm_num)
      intro q c hc hrow
      have hmem : (b.position.x + (c : Int), ((0 : Nat) : Int)) ∈ b.cells :=
        Entity.mem_cells_iff.2 ⟨c, q, hc, rfl, by omega⟩
      have h2 := hs.2.2 _ (habove _ _ hr hmem)
      simp only at h2
      omega
    rw [hnil]
    simp
  · rw [if_neg hr0, Cleaner.collect_length hmb hsb.1 (by omega) (by omega),
      Cleaner.collect_length hm hs.1 (by omega) (by omega)]
    exact Entity.row_length_le b e _ _ fun X hX => habove X r hr hX

theorem List.sum_map_filterMap_le {α : Type} (l : List α) (g : α → α) (s : α → Option α)
    (f f1 : α → Nat) (h : ∀ a ∈ l, ∀ b, s (g a) = some b → f1 b ≤ f a) :
    (((l.map g).filterMap s).map f1).sum ≤ (l.map f).sum := by
  induction l with
  | nil => simp
  | cons a l ih =>
    have ih1 := ih fun b hb => h b (List.mem_cons_of_mem _ hb)
    have ha := h a (List.mem_cons_self _ _)
    rw [List.map_cons, List.filterMap_cons, List.map_cons, List.sum_cons]
    rcases hs : s (g a) with _ | b
    · simp only
      omega
    · simp only
      rw [List.map_cons, List.sum_cons]
      have := ha b hs
      omega

/-- When row `line` is cleared, each row `r ≤ line` is left with at most the cells of the
row above it, and row 0 with none. -/
theorem Cleaner.line_count_above (helper : Manager) (hs : helper.StaticsSettled)
    {line : Int} (h0 : 0 ≤ line) (h1 : line < 2 ^ 31 - 1)
    (hfull : ¬ (Cleaner.count helper line : Int) < MAX_WIDTH) (r : Nat) (hr : (r : Int) ≤ line) :
    Cleaner.count (Cleaner.line helper line) r
      ≤ (if r = 0 then 0 else Cleaner.count helper ((r : Int) - 1)) := by
  unfold Cleaner.line
  rw [if_neg hfull]
  unfold Cleaner.count
  simp only
  by_cases hr0 : r = 0
  · rw [if_pos hr0]
    have := List.sum_map_filterMap_le helper.entities (fun e => Cleaner.erase e line)
      (fun e => Cleaner.sweep e line) (fun _ => 0) (fun e => (Cleaner.collect e r).length)
      (fun e he b hb => by
        cases hm : e.movable
        · dsimp only at hb ⊢
          have := Cleaner.sweep_erase_collect_above hm (hs e (Manager.mem_statics.2 ⟨he, hm⟩))
            h0 h1 hb r hr
          rw [if_pos hr0] at this
          exact this
        · dsimp only at hb ⊢
          rw [Cleaner.erase_movable hm, Cleaner.sweep_movable hm] at hb
          rw [← Option.some.inj hb, Cleaner.collect_movable hm]
          simp)
    simpa using this
  · rw [if_neg hr0]
    exact List.sum_map_filterMap_le helper.entities (fun e => Cleaner.erase e line)
      (fun e => Cleaner.sweep e line) (fun e => (Cleaner.collect e ((r : Int) - 1)).length)
      (fun e => (Cleaner.collect e r).length)
      (fun e he b hb => by
        cases hm : e.movable
        · dsimp only at hb ⊢
          have := Cleaner.sweep_erase_collect_above hm (hs e (Manager.mem_statics.2 ⟨he, hm⟩))
            h0 h1 hb r hr
          rw [if_neg hr0] at this
          exact this
        · dsimp only at hb ⊢
          rw [Cleaner.erase_movable hm, Cleaner.sweep_movable hm] at hb
          rw [← Option.some.inj hb, Cleaner.collect_movable hm]
          simp)

theorem Cleaner.line_settled (helper : Manager) {line : Int} (h0 : 0 ≤ line)
    (h1 : line < 2 ^ 31 - 1) (hs : helper.StaticsSettled) :
    (Cleaner.line helper line).StaticsSettled := by
  unfold Cleaner.line
  split
  · exact hs
  · intro b hb
    rw [Manager.mem_statics] at hb
    obtain ⟨hmem, hmov⟩ := hb
    simp only [List.mem_filterMap, List.mem_map] at hmem
    obtain ⟨e1, ⟨e, he, rfl⟩, hsweep⟩ := hmem
    have hm : e.movable = false := by
      rw [← (Cleaner.erase_frame e line).2.1, ← (Cleaner.sweep_frame hsweep).1]
      exact hmov
    exact Cleaner.sweep_erase_settled hm (hs e (Manager.mem_statics.2 ⟨he, hm⟩)) h0 h1 hsweep

theorem Cleaner.scan_no_full (helper : Manager) (hs : helper.StaticsSettled) (n : Nat)
    (hn : n ≤ 24) :
    (Cleaner.scan helper n).StaticsSettled ∧
    ∀ r : Nat, r < n → Cleaner.count (Cleaner.scan helper n) r < 10 := by
  induction n with
  | zero => exact ⟨hs, fun r hr => absurd hr (Nat.not_lt_zero _)⟩
  | succ n ih =>
    obtain ⟨i1, i2⟩ := ih (by omega)
    rw [Cleaner.scan_succ]
    refine ⟨Cleaner.line_settled _ (by omega) (by omega) i1, fun r hr => ?_⟩
    by_cases hfull : (Cleaner.count (Cleaner.scan helper n) n : Int) < MAX_WIDTH
    · have hsame : Cleaner.line (Cleaner.scan helper n) n = Cleaner.scan helper n := by
        unfold Cleaner.line
        rw [if_pos hfull]
      rw [hsame]
      rcases Nat.lt_succ_iff_lt_or_eq.1 hr with h | h
      · exact i2 r h
      · subst h
        unfold MAX_WIDTH at hfull
        omega
    · have := Cleaner.line_count_above _ i1 (by omega) (by omega) hfull r (by omega)
      by_cases hr0 : r = 0
      · rw [if_pos hr0] at this
        omega
      · rw [if_neg hr0] at this
        have h2 := i2 (r - 1) (by omega)
        have h3 : ((r - 1 : Nat) : Int) = (r : Int) - 1 := by omega
        rw [h3] at h2
        omega

theorem Cleaner.update_of_no_full (helper : Manager)
    (h : ∀ r : Nat, r < 24 → Cleaner.count helper r < 10) : Cleaner.update helper = helper := by
  have hscan : ∀ n : Nat, n ≤ 24 → Cleaner.scan helper n = helper := by
    intro n
    induction n with
    | zero => intro _; rfl
    | succ n ih =>
      intro hn
      rw [Cleaner.scan_succ, ih (by omega)]
      unfold Cleaner.line
      rw [if_pos]
      have := h n (by omega)
      unfold MAX_WIDTH
      omega
  exact hscan 24 (le_refl _)


/-! ### The boards of the game are settled -/

theorem Shape.Catalog.rotated {s : Shape} (h : s.Catalog) : (Rotation.rotated s).Catalog := by
  have h4 : ∀ k : Fin 7, Rotation.rotated (Rotation.rotated (Rotation.rotated
      (Rotation.rotated (SHAPES k)))) = SHAPES k := by decide
  obtain ⟨k, h | h | h | h⟩ := h
  · exact ⟨k, Or.inr (Or.inl (by rw [h]))⟩
  · exact ⟨k, Or.inr (Or.inr (Or.inl (by rw [h])))⟩
  · exact ⟨k, Or.inr (Or.inr (Or.inr (by rw [h])))⟩
  · exact ⟨k, Or.inl (by rw [h, h4])⟩

theorem Shape.Catalog.noGap {s : Shape} (h : s.Catalog) : s.NoGap := by
  have key : ∀ k : Fin 7, (SHAPES k).NoGap ∧ (Rotation.rotated (SHAPES k)).NoGap ∧
      (Rotation.rotated (Rotation.rotated (SHAPES k))).NoGap ∧
      (Rotation.rotated (Rotation.rotated (Rotation.rotated (SHAPES k)))).NoGap := by decide
  obtain ⟨k, h | h | h | h⟩ := h
  · rw [h]; exact (key k).1
  · rw [h]; exact (key k).2.1
  · rw [h]; exact (key k).2.2.1
  · rw [h]; exact (key k).2.2.2

theorem Manager.Catalog.setCatalog {st : Manager} (h : st.Catalog) (k : Nat) {b : Entity}
    (hb : (b.movable = true → b.tile.shape.Catalog) ∧ b.tile.shape.NoGap) :
    Manager.Catalog { st with entities := st.entities.set k b } := by
  intro e he
  rcases List.mem_or_eq_of_mem_set he with h1 | h1
  · exact h e h1
  · rw [h1]; exact hb

theorem Collision_update_catalog (helper : Manager) (h : helper.Catalog) :
    (Collision.update helper).Catalog := by
  unfold Collision.update
  refine foldl_invariant Collision.updateAt (fun st => st.Catalog) (fun st k hst => ?_) _ _ h
  unfold Collision.updateAt
  rcases he : st.entities[k]? with _ | e
  · exact hst
  · dsimp only
    split
    · exact hst.setCatalog k
        ⟨fun hm => Bool.noConfusion hm, (hst e (List.mem_of_getElem?_some he)).2⟩
    · exact hst

theorem Gravity_update_catalog (helper : Manager) (self : Gravity) (now : Int) (down : Bool)
    (h : helper.Catalog) : (Gravity.update helper self now down).1.Catalog := by
  unfold Gravity.update
  dsimp only
  split
  · intro b hb
    simp only [List.mem_map] at hb
    obtain ⟨e, he, rfl⟩ := hb
    unfold Gravity.fall
    split
    · exact h e he
    · exact h e he
  · exact h

theorem Movement_update_catalog (helper : Manager) (self : Movement) (now : Int)
    (leftKey rightKey : Bool) (h : helper.Catalog) :
    (Movement.update helper self now leftKey rightKey).1.Catalog := by
  unfold Movement.update
  split
  · split
    · refine foldl_invariant (Movement.leftAt now) (fun st => st.1.Catalog)
        (fun st k hst => ?_) _ _ h
      unfold Movement.leftAt
      rcases he : st.1.entities[k]? with _ | e
      · exact hst
      · dsimp only
        split
        · exact Manager.Catalog.setCatalog hst k (hst e (List.mem_of_getElem?_some he))
        · exact hst
    · split
      · refine foldl_invariant (Movement.rightAt now) (fun st => st.1.Catalog)
          (fun st k hst => ?_) _ _ h
        unfold Movement.rightAt
        rcases he : st.1.entities[k]? with _ | e
        · exact hst
        · dsimp only
          split
          · exact Manager.Catalog.setCatalog hst k (hst e (List.mem_of_getElem?_some he))
          · exact hst
      · exact h
  · exact h

theorem Rotation_update_catalog (helper : Manager) (self : Rotation) (now : Int) (space : Bool)
    (h : helper.Catalog) : (Rotation.update helper self now space).1.Catalog := by
  unfold Rotation.update
  split
  · refine foldl_invariant Rotation.updateAt (fun st => st.Catalog) (fun st k hst => ?_) _ _ h
    unfold Rotation.updateAt
    rcases he : st.entities[k]? with _ | e
    · exact hst
    · dsimp only
      split
      · rename_i hm
        split
        · have hc := ((hst e (List.mem_of_getElem?_some he)).1 hm).rotated
          exact hst.setCatalog k ⟨fun _ => hc, hc.noGap⟩
        · exact hst
      · exact hst
  · exact h

theorem Cleaner.line_catalog (helper : Manager) {line : Int} (h0 : 0 ≤ line)
    (h1 : line < 2 ^ 31 - 1) (hs : helper.Sound) (h : helper.Catalog) :
    (Cleaner.line helper line).Catalog := by
  unfold Cleaner.line
  split
  · exact h
  · intro b hb
    simp only [List.mem_filterMap, List.mem_map] at hb
    obtain ⟨e1, ⟨e, he, rfl⟩, hsw⟩ := hb
    cases hm : e.movable
    · have hset : e.Settled :=
        ⟨(hs.1 e he).1, (h e he).2, fun c hc => ((hs.1 e he).2.2 c hc).2.2.1⟩
      have hb1 := Cleaner.sweep_erase_settled hm hset h0 h1 hsw
      have hmb : b.movable = false := by rw [(Cleaner.sweep_frame hsw).1]; exact hm
      exact ⟨fun hmt => by rw [hmb] at hmt; exact Bool.noConfusion hmt, hb1.2.1⟩
    · rw [Cleaner.erase_movable hm, Cleaner.sweep_movable hm] at hsw
      exact Option.some.inj hsw ▸ h e he

theorem Cleaner_update_catalog (helper : Manager) (hs : helper.Sound) (h : helper.Catalog) :
    (Cleaner.update helper).Catalog := by
  unfold Cleaner.update Cleaner.scan
  have := foldl_invariant_mem (fun h (line : Nat) => Cleaner.line h line)
    (fun st => st.Sound ∧ st.Catalog) (List.range MAX_HEIGHT.toNat)
    (fun st line hline hst => by
      have hl : line < 24 := List.mem_range.1 hline
      exact ⟨Cleaner.line_sound st (by omega) (by omega) hst.1,
        Cleaner.line_catalog st (by omega) (by omega) hst.1 hst.2⟩) helper ⟨hs, h⟩
  exact this.2

theorem Factory_update_catalog (helper : Manager) (self : Factory) (index1 index2 : Fin 7)
    (hs : helper.Sound) (h : helper.Catalog) :
    (Factory.update helper self index1 index2).1.Catalog := by
  by_cases hno : helper.noMovable = true
  · obtain ⟨hent, -⟩ := Factory.update_entities helper self index1 index2
      ((Manager.noMovable_iff helper).1 hno)
    intro e he
    rw [hent, List.mem_append, List.mem_singleton] at he
    rcases he with he | rfl
    · exact h e he
    · have hc : (helper.player.next.getD ⟨SHAPES index2, Factory.color index2⟩).shape.Catalog := by
        rcases hn : helper.player.next with _ | t
        · exact ⟨index2, Or.inl rfl⟩
        · obtain ⟨k, hk⟩ := hs.2 t hn
          exact ⟨k, Or.inl hk⟩
      exact ⟨fun _ => hc, hc.noGap⟩
  · have : Factory.update helper self index1 index2 = (helper, self) := by
      simp [Factory.update, hno]
    rw [this]
    exact h

theorem Game.tick_catalog (g : Game) (i : Input) (hs : g.helper.Sound) (h : g.helper.Catalog) :
    (Game.tick g i).helper.Catalog := by
  have h1 : (Game.controllers g i).helper.Sound ∧ (Game.controllers g i).helper.Catalog := by
    unfold Game.controllers
    split
    · exact ⟨hs, h⟩
    · simp only
      have hc := Collision_update_sound g.helper hs
      have s1 := Gravity_update_sound _ g.gravity i.tGravity i.down hc.1 hc.2
      have s2 := Movement_update_sound _ g.movement i.tMovement i.leftKey i.rightKey s1
      have s3 := Rotation_update_sound _ g.rotation i.tRotation i.space s2
      exact ⟨Cleaner_update_sound _ s3, Cleaner_update_catalog _ s3
        (Rotation_update_catalog _ _ _ _ (Movement_update_catalog _ _ _ _ _
          (Gravity_update_catalog _ _ _ _ (Collision_update_catalog _ h))))⟩
  have h2 : (Game.spawner (Game.controllers g i) i).helper.Catalog := by
    unfold Game.spawner
    split
    · exact h1.2
    · split
      · exact h1.2
      · exact Factory_update_catalog _ _ _ _ h1.1 h1.2
  unfold Game.tick Game.render
  split <;> exact h2

/-- In every state the loop of `main` reaches the static pieces are settled. -/
theorem Game.reachable_settled (g : Game) (h : g.Reachable) : g.helper.StaticsSettled := by
  have hs := Game.reachable_sound g h
  obtain ⟨inputs, rfl⟩ := h
  have key : (Game.run Game.init inputs).helper.Sound ∧
      (Game.run Game.init inputs).helper.Catalog := by
    unfold Game.run
    refine foldl_invariant Game.tick (fun g => g.helper.Sound ∧ g.helper.Catalog)
      (fun g i hg => ⟨Game.tick_sound g i hg.1, Game.tick_catalog g i hg.1 hg.2⟩) _ _ ?_
    exact ⟨⟨fun e he => absurd he (List.not_mem_nil _), fun t ht => Option.noConfusion ht⟩,
      fun e he => absurd he (List.not_mem_nil _)⟩
  intro e he
  have hmem := (Manager.mem_statics.1 he).1
  exact ⟨(key.1.1 e hmem).1, (key.2 e hmem).2, fun c hc => ((key.1.1 e hmem).2.2 c hc).2.2.1⟩

/-- C21. Let the static pieces of a board be settled: square shapes without gap, values an
`int` can hold, no cell above the board; the boards of every state the loop of `main`
reaches are of this kind (`Game.reachable_settled`).  After one `Cleaner::update`, however
many rows were full before, no row `0 … 23` holds `MAX_WIDTH` or more set cells of static
pieces; a second `Cleaner::update` right after returns the store unchanged; and the static
pieces are settled again. -/
theorem Cleaner_update_no_full_row (helper : Manager) (hs : helper.StaticsSettled) :
    (∀ r : Nat, r < 24 → (Cleaner.update helper).rowCount r < 10) ∧
    Cleaner.update (Cleaner.update helper) = Cleaner.update helper ∧
    (Cleaner.update helper).StaticsSettled := by
  have hupd : Cleaner.update helper = Cleaner.scan helper 24 := rfl
  obtain ⟨h1, h2⟩ := Cleaner.scan_no_full helper hs 24 (le_refl _)
  rw [← hupd] at h1 h2
  have hw : (Cleaner.update helper).StaticsWellFormed := fun e he => (h1 e he).1
  refine ⟨fun r hr => ?_, Cleaner.update_of_no_full _ h2, h1⟩
  rw [← Cleaner.count_eq_rowCount _ hw (by omega) (by omega)]
  exact h2 r hr

/-- Instance of C21: `boardStraddle`, whose upright long pieces straddle the cleared row 22
with two rows above it. -/
theorem Cleaner_update_no_full_row_witness :
    (∀ r : Nat, r < 24 → (Cleaner.update boardStraddle).rowCount r < 10) ∧
    Cleaner.update (Cleaner.update boardStraddle) = Cleaner.update boardStraddle ∧
    (Cleaner.update boardStraddle).StaticsSettled :=
  Cleaner_update_no_full_row boardStraddle (by decide)

end Tetris
